import Mathlib

/-!
Verification of the `mcp-sync` differential merge engine (`mcp_sync.py`).

Shallow embedding conventions:
- Python strings are modelled as `List Char` (abbreviated `Str`); file
  contents are `Str`.
- Python dicts are ordered association lists with Python's insertion
  semantics (assignment to an existing key updates it in place, otherwise
  appends).
- JSON values are the inductive `Json`.  Floating-point literals are
  outside the model: the embedded `json.loads` reports them as
  `unsupported` rather than guessing, and no claim is settled on a
  float-containing input.
- The file system is a map from path strings to optional file contents;
  `shutil.copy2`, `open(...).read()` and `open(...).write()` act on it.
- Python exceptions are modelled with `Except PyErr`; an uncaught
  exception in the original code is an `Except.error` that callers
  propagate exactly where the original has no `try`/`except`.
-/

set_option synthInstance.maxHeartbeats 400000
set_option maxHeartbeats 1000000

namespace McpSync

/-- Python strings are lists of characters. -/
abbrev Str := List Char

/-- Characters stripped by Python's `str.strip()` / `str.rstrip()`
(the ASCII whitespace characters). -/
def pyWs (c : Char) : Bool :=
  c = ' ' || c = '\t' || c = '\n' || c = '\r' || c = Char.ofNat 11 || c = Char.ofNat 12

/-- Python `str.rstrip()`. -/
def rstrip (s : Str) : Str := (s.reverse.dropWhile pyWs).reverse

/-- Python `str.strip()`. -/
def strip (s : Str) : Str := rstrip (s.dropWhile pyWs)

/-- Python `str.startswith(pat)`: `leadsWith pat s` is true when `pat` is
an initial run of `s`. -/
def leadsWith : Str → Str → Bool
  | [], _ => true
  | _ :: _, [] => false
  | p :: ps, c :: cs => p = c && leadsWith ps cs

/-- Split `s` at the first occurrence of the pattern `pat`, returning the
part before the match and the suffix beginning at the match. -/
def findSeqSplit (pat : Str) : Str → Option (Str × Str)
  | [] => if leadsWith pat [] then some ([], []) else none
  | c :: cs =>
    if leadsWith pat (c :: cs) then some ([], c :: cs)
    else
      match findSeqSplit pat cs with
      | some (a, b) => some (c :: a, b)
      | none => none

/-- Python `pat in s` (substring containment). -/
def containsSeq (pat s : Str) : Bool := (findSeqSplit pat s).isSome

theorem leadsWith_nil_right (p : Str) : leadsWith p [] = true ↔ p = [] := by
  cases p <;> simp [leadsWith]

theorem leadsWith_iff (p s : Str) : leadsWith p s = true ↔ ∃ t, s = p ++ t := by
  induction p generalizing s with
  | nil => simp [leadsWith]
  | cons x xs ih =>
    cases s with
    | nil => simp [leadsWith]
    | cons c cs =>
      simp only [leadsWith, Bool.and_eq_true, decide_eq_true_eq, ih, List.cons_append,
        List.cons.injEq]
      constructor
      · rintro ⟨rfl, t, rfl⟩; exact ⟨t, rfl, rfl⟩
      · rintro ⟨t, rfl, rfl⟩; exact ⟨rfl, t, rfl⟩

theorem leadsWith_length {p s : Str} (h : leadsWith p s = true) : p.length ≤ s.length := by
  rcases (leadsWith_iff p s).1 h with ⟨t, rfl⟩
  simp

theorem findSeqSplit_eq_some {pat s a b : Str} (h : findSeqSplit pat s = some (a, b)) :
    a ++ b = s ∧ leadsWith pat b = true := by
  induction s generalizing a with
  | nil =>
    simp only [findSeqSplit] at h
    split at h
    · rename_i hl
      simp only [Option.some.injEq, Prod.mk.injEq] at h
      obtain ⟨rfl, rfl⟩ := h
      exact ⟨rfl, hl⟩
    · exact absurd h (by simp)
  | cons c cs ih =>
    simp only [findSeqSplit] at h
    split at h
    · rename_i hl
      simp only [Option.some.injEq, Prod.mk.injEq] at h
      obtain ⟨rfl, rfl⟩ := h
      exact ⟨rfl, hl⟩
    · revert h
      match hrec : findSeqSplit pat cs with
      | some (a', b') =>
        intro h
        simp only [Option.some.injEq, Prod.mk.injEq] at h
        obtain ⟨rfl, rfl⟩ := h
        obtain ⟨hab, hlw⟩ := ih hrec
        exact ⟨by simp [← hab], hlw⟩
      | none => intro h; exact absurd h (by simp)

/-- Fuel-driven worker for `pySplitSeq`; the fuel bounds the number of
separator occurrences and always suffices when it exceeds the input
length. -/
def pySplitSeqAux (pat : Str) : Nat → Str → List Str
  | 0, s => [s]
  | Nat.succ fuel, s =>
    match findSeqSplit pat s with
    | none => [s]
    | some (a, b) => a :: pySplitSeqAux pat fuel (b.drop pat.length)

/-- Python `s.split(sep)` for a non-empty separator string, non-overlapping,
scanning left to right. -/
def pySplitSeq (pat : Str) (s : Str) : List Str := pySplitSeqAux pat (s.length + 1) s

/-- Python `s.split('\n')`. -/
def splitLines (s : Str) : List Str := s.splitOn '\n'

/-- Python `'\n'.join(lines)`. -/
def joinLines (lines : List Str) : Str := List.intercalate ['\n'] lines

/-- Fuel-driven worker for `natDigits` (the fuel bounds the number of
digits and always suffices when it exceeds `n`). -/
def natDigitsAux : Nat → Nat → Str
  | 0, _ => []
  | Nat.succ fuel, n =>
    if n < 10 then [Char.ofNat (48 + n)]
    else natDigitsAux fuel (n / 10) ++ [Char.ofNat (48 + n % 10)]

/-- Decimal digits of a natural number, most significant first
(Python `str(n)` for `n ≥ 0`). -/
def natDigits (n : Nat) : Str := natDigitsAux (n + 1) n

/-- Python `str(n)` for an integer. -/
def intDigits (n : Int) : Str :=
  if n < 0 then '-' :: natDigits (-n).toNat else natDigits n.toNat

/-- JSON values, as produced by Python's `json.loads` on the grammar
fragment without floating-point numbers. -/
inductive Json where
  | null
  | bool (b : Bool)
  | int (n : Int)
  | str (s : Str)
  | arr (xs : List Json)
  | obj (kvs : List (Str × Json))

mutual

/-- Structural equality test on `Json` (used to decide propositional
equality of model values; not Python's `==`, see `pyJsonEq`). -/
def jsonBeq : Json → Json → Bool
  | .null, .null => true
  | .bool a, .bool b => a = b
  | .int a, .int b => a = b
  | .str a, .str b => a = b
  | .arr xs, .arr ys => jsonListBeq xs ys
  | .obj xs, .obj ys => jsonKvsBeq xs ys
  | _, _ => false

/-- Structural equality on lists of `Json`. -/
def jsonListBeq : List Json → List Json → Bool
  | [], [] => true
  | x :: xs, y :: ys => jsonBeq x y && jsonListBeq xs ys
  | _, _ => false

/-- Structural equality on association lists of `Json`. -/
def jsonKvsBeq : List (Str × Json) → List (Str × Json) → Bool
  | [], [] => true
  | (k, v) :: xs, (k2, w) :: ys => k = k2 && jsonBeq v w && jsonKvsBeq xs ys
  | _, _ => false

end

theorem jsonListBeq_iff_of {xs : List Json}
    (h : ∀ x ∈ xs, ∀ b, jsonBeq x b = true ↔ x = b) :
    ∀ ys, jsonListBeq xs ys = true ↔ xs = ys := by
  induction xs with
  | nil => intro ys; cases ys <;> simp [jsonListBeq]
  | cons x xs ih =>
    intro ys
    cases ys with
    | nil => simp [jsonListBeq]
    | cons y ys =>
      simp only [jsonListBeq, Bool.and_eq_true, List.cons.injEq]
      rw [h x (by simp), ih (fun z hz b => h z (by simp [hz]) b)]

theorem jsonKvsBeq_iff_of {xs : List (Str × Json)}
    (h : ∀ p ∈ xs, ∀ b, jsonBeq p.2 b = true ↔ p.2 = b) :
    ∀ ys, jsonKvsBeq xs ys = true ↔ xs = ys := by
  induction xs with
  | nil => intro ys; cases ys <;> simp [jsonKvsBeq]
  | cons p xs ih =>
    intro ys
    obtain ⟨k, v⟩ := p
    cases ys with
    | nil => simp [jsonKvsBeq]
    | cons q ys =>
      obtain ⟨k2, w⟩ := q
      simp only [jsonKvsBeq, Bool.and_eq_true, decide_eq_true_eq, List.cons.injEq,
        Prod.mk.injEq]
      rw [h (k, v) (by simp) w, ih (fun z hz b => h z (by simp [hz]) b)]

theorem jsonBeq_iff_aux : ∀ n, ∀ a b : Json, sizeOf a ≤ n → (jsonBeq a b = true ↔ a = b) := by
  intro n
  induction n with
  | zero =>
    intro a b h
    exact absurd h (by cases a <;> simp <;> omega)
  | succ n ih =>
    intro a b h
    cases a with
    | null => cases b <;> simp [jsonBeq]
    | bool x => cases b <;> simp [jsonBeq]
    | int x => cases b <;> simp [jsonBeq]
    | str x => cases b <;> simp [jsonBeq]
    | arr xs =>
      cases b
      case arr ys =>
        simp only [jsonBeq, Json.arr.injEq]
        refine jsonListBeq_iff_of (fun x hx b => ih x b ?_) ys
        have h1 := List.sizeOf_lt_of_mem hx
        have h2 : sizeOf (Json.arr xs) = 1 + sizeOf xs := by simp
        omega
      all_goals simp [jsonBeq]
    | obj xs =>
      cases b
      case obj ys =>
        simp only [jsonBeq, Json.obj.injEq]
        refine jsonKvsBeq_iff_of (fun p hp b => ih p.2 b ?_) ys
        have h1 := List.sizeOf_lt_of_mem hp
        have h2 : sizeOf (Json.obj xs) = 1 + sizeOf xs := by simp
        have h3 : sizeOf p.2 < sizeOf p := by
          obtain ⟨x, y⟩ := p
          simp
        omega
      all_goals simp [jsonBeq]

theorem jsonBeq_iff (a b : Json) : jsonBeq a b = true ↔ a = b :=
  jsonBeq_iff_aux (sizeOf a) a b le_rfl

instance : DecidableEq Json := fun a b => decidable_of_iff _ (jsonBeq_iff a b)

/-- Python dict lookup `d.get(k)` on an ordered association list. -/
def lookupD {α : Type} (k : Str) : List (Str × α) → Option α
  | [] => none
  | (k2, v) :: rest => if k = k2 then some v else lookupD k rest

/-- Python dict assignment `d[k] = v`: updates an existing key in place
(keeping its position), otherwise appends at the end. -/
def setD {α : Type} (k : Str) (v : α) : List (Str × α) → List (Str × α)
  | [] => [(k, v)]
  | (k2, w) :: rest => if k = k2 then (k, v) :: rest else (k2, w) :: setD k v rest

/-- Python `del d[k]` (removes the first binding of `k`). -/
def delD {α : Type} (k : Str) : List (Str × α) → List (Str × α)
  | [] => []
  | (k2, w) :: rest => if k = k2 then rest else (k2, w) :: delD k rest

/-- Keys of a Python dict, in insertion order. -/
def keysD {α : Type} (d : List (Str × α)) : List Str := d.map Prod.fst

/-- Distinctness of the keys of an association list (every genuine Python
dict satisfies this). -/
def distinctKeysB {α : Type} : List (Str × α) → Bool
  | [] => true
  | (k, _) :: rest => (lookupD k rest).isNone && distinctKeysB rest

mutual

/-- Python `==` on JSON values: `True == 1` and `False == 0` hold, dict
comparison checks `len(a) == len(b)` and `all(k in b and a[k] == b[k])`
(ignoring insertion order), list comparison is positional. -/
def pyJsonEq : Json → Json → Bool
  | .null, .null => true
  | .bool a, .bool b => a = b
  | .bool a, .int n => (if a then (1 : Int) else 0) = n
  | .int n, .bool a => n = (if a then (1 : Int) else 0)
  | .int m, .int n => m = n
  | .str s, .str t => s = t
  | .arr xs, .arr ys => pyListEq xs ys
  | .obj xs, .obj ys => xs.length = ys.length && pyKvsSub xs ys
  | _, _ => false

/-- Positional Python `==` on JSON lists. -/
def pyListEq : List Json → List Json → Bool
  | [], [] => true
  | x :: xs, y :: ys => pyJsonEq x y && pyListEq xs ys
  | _, _ => false

/-- Every binding of the first dict is present (under Python `==`) in the
second dict. -/
def pyKvsSub : List (Str × Json) → List (Str × Json) → Bool
  | [], _ => true
  | (k, v) :: rest, ys =>
    (match lookupD k ys with
     | some w => pyJsonEq v w
     | none => false) && pyKvsSub rest ys

end

mutual

/-- Well-formedness of a model JSON value: every object has distinct keys
(true of every value a Python `json.loads` can produce). -/
def jsonWfB : Json → Bool
  | .null => true
  | .bool _ => true
  | .int _ => true
  | .str _ => true
  | .arr xs => jsonListWfB xs
  | .obj kvs => distinctKeysB kvs && jsonKvsWfB kvs

/-- Well-formedness of a list of JSON values. -/
def jsonListWfB : List Json → Bool
  | [] => true
  | x :: xs => jsonWfB x && jsonListWfB xs

/-- Well-formedness of the values of an association list. -/
def jsonKvsWfB : List (Str × Json) → Bool
  | [] => true
  | (_, v) :: rest => jsonWfB v && jsonKvsWfB rest

end

/-- Hexadecimal digit characters, lowercase (as emitted by `json.dump`). -/
def hexChar (n : Nat) : Char := if n < 10 then Char.ofNat (48 + n) else Char.ofNat (87 + n)

/-- Four-digit lowercase hexadecimal rendering of `n % 0x10000`. -/
def toHex4 (n : Nat) : Str :=
  [hexChar (n / 4096 % 16), hexChar (n / 256 % 16), hexChar (n / 16 % 16), hexChar (n % 16)]

/-- Escaping of one character inside a JSON string literal as done by
`json.dump` with its default `ensure_ascii=True`. -/
def jsonEscapeChar (c : Char) : Str :=
  if c = '"' then ['\\', '"']
  else if c = '\\' then ['\\', '\\']
  else if c = '\n' then ['\\', 'n']
  else if c = '\r' then ['\\', 'r']
  else if c = '\t' then ['\\', 't']
  else if c = Char.ofNat 8 then ['\\', 'b']
  else if c = Char.ofNat 12 then ['\\', 'f']
  else if c.toNat < 0x20 then '\\' :: 'u' :: toHex4 c.toNat
  else if c.toNat ≤ 0x7e then [c]
  else if c.toNat < 0x10000 then '\\' :: 'u' :: toHex4 c.toNat
  else
    let v := c.toNat - 0x10000
    ('\\' :: 'u' :: toHex4 (0xD800 + v / 0x400)) ++ ('\\' :: 'u' :: toHex4 (0xDC00 + v % 0x400))

/-- Rendering of a JSON string literal, quotes included. -/
def dumpStr (s : Str) : Str := '"' :: (s.map jsonEscapeChar).flatten ++ ['"']

/-- Two-space indentation at nesting depth `lvl` (`json.dump(..., indent=2)`). -/
def indentChars (lvl : Nat) : Str := List.replicate (2 * lvl) ' '

mutual

/-- Serialization of a JSON value at nesting depth `lvl`, exactly as
`json.dump(x, f, indent=2)` renders it. -/
def dumpVal (lvl : Nat) : Json → Str
  | .null => "null".toList
  | .bool true => "true".toList
  | .bool false => "false".toList
  | .int n => intDigits n
  | .str s => dumpStr s
  | .arr [] => ['[', ']']
  | .arr (x :: xs) =>
    '[' :: '\n' :: (indentChars (lvl + 1) ++ dumpVal (lvl + 1) x ++ dumpItems (lvl + 1) xs
      ++ '\n' :: (indentChars lvl ++ [']']))
  | .obj [] => ['{', '}']
  | .obj ((k, v) :: kvs) =>
    '{' :: '\n' :: (indentChars (lvl + 1) ++ dumpStr k ++ ':' :: ' ' :: dumpVal (lvl + 1) v
      ++ dumpMembers (lvl + 1) kvs ++ '\n' :: (indentChars lvl ++ ['}']))

/-- Continuation items of an array being serialized. -/
def dumpItems (lvl : Nat) : List Json → Str
  | [] => []
  | x :: xs => ',' :: '\n' :: (indentChars lvl ++ dumpVal lvl x ++ dumpItems lvl xs)

/-- Continuation members of an object being serialized. -/
def dumpMembers (lvl : Nat) : List (Str × Json) → Str
  | [] => []
  | (k, v) :: kvs =>
    ',' :: '\n' :: (indentChars lvl ++ dumpStr k ++ ':' :: ' ' :: dumpVal lvl v
      ++ dumpMembers lvl kvs)

end

/-- The embedded `json.dump(settings, f, indent=2)`. -/
def jsonDump (j : Json) : Str := dumpVal 0 j

instance {eps alpha : Type} [DecidableEq eps] [DecidableEq alpha] :
    DecidableEq (Except eps alpha) := fun x y =>
  match x, y with
  | .ok a, .ok b =>
    if h : a = b then isTrue (by rw [h]) else isFalse (by simp [h])
  | .error e, .error f =>
    if h : e = f then isTrue (by rw [h]) else isFalse (by simp [h])
  | .ok _, .error _ => isFalse (by simp)
  | .error _, .ok _ => isFalse (by simp)

/-- Outcomes of the embedded `json.loads`. -/
inductive ParseErr where
  /-- The input is rejected by Python's decoder (`json.JSONDecodeError`). -/
  | malformed
  /-- The input uses a construct outside this model's domain: float
  literals, `NaN`/`Infinity`, or lone-surrogate escapes. -/
  | unsupported
deriving DecidableEq

/-- Whitespace skipped between JSON tokens (`' '`, `'\t'`, `'\n'`, `'\r'`). -/
def jsonWsChar (c : Char) : Bool := c = ' ' || c = '\t' || c = '\n' || c = '\r'

/-- ASCII decimal digit test. -/
def isDigitChar (c : Char) : Bool := 48 ≤ c.toNat && c.toNat ≤ 57

/-- Numeric value of a run of decimal digit characters. -/
def digitsVal (ds : Str) : Nat := ds.foldl (fun a c => a * 10 + (c.toNat - 48)) 0

/-- Numeric value of one hexadecimal digit character, either case. -/
def hexDigitVal (c : Char) : Option Nat :=
  if 48 ≤ c.toNat ∧ c.toNat ≤ 57 then some (c.toNat - 48)
  else if 97 ≤ c.toNat ∧ c.toNat ≤ 102 then some (c.toNat - 87)
  else if 65 ≤ c.toNat ∧ c.toNat ≤ 70 then some (c.toNat - 55)
  else none

/-- Parse exactly four hexadecimal digits. -/
def parseHex4 : Str → Option (Nat × Str)
  | c1 :: c2 :: c3 :: c4 :: rest => do
    let d1 ← hexDigitVal c1
    let d2 ← hexDigitVal c2
    let d3 ← hexDigitVal c3
    let d4 ← hexDigitVal c4
    pure (((d1 * 16 + d2) * 16 + d3) * 16 + d4, rest)
  | _ => none

/-- Decode one `\uXXXX` escape (the `\u` is already consumed), combining
surrogate pairs the way Python's decoder does.  Lone surrogates are legal
for Python but produce characters `Char` cannot represent, so they are
reported as `unsupported`. -/
def parseUEscape (s : Str) : Except ParseErr (Char × Str) :=
  match parseHex4 s with
  | none => .error .malformed
  | some (code, rest) =>
    if 0xD800 ≤ code ∧ code ≤ 0xDBFF then
      match rest with
      | '\\' :: 'u' :: rest2 =>
        match parseHex4 rest2 with
        | some (low, rest3) =>
          if 0xDC00 ≤ low ∧ low ≤ 0xDFFF then
            .ok (Char.ofNat (0x10000 + (code - 0xD800) * 0x400 + (low - 0xDC00)), rest3)
          else .error .unsupported
        | none => .error .unsupported
      | _ => .error .unsupported
    else if 0xDC00 ≤ code ∧ code ≤ 0xDFFF then .error .unsupported
    else .ok (Char.ofNat code, rest)

/-- Parse the body of a JSON string literal (the opening quote is already
consumed), accumulating decoded characters in reverse. -/
def parseStrBody : Nat → Str → Str → Except ParseErr (Str × Str)
  | 0, _, _ => .error .malformed
  | Nat.succ n, s, acc =>
    match s with
    | [] => .error .malformed
    | '"' :: rest => .ok (acc.reverse, rest)
    | '\\' :: e :: rest =>
      if e = '"' then parseStrBody n rest ('"' :: acc)
      else if e = '\\' then parseStrBody n rest ('\\' :: acc)
      else if e = '/' then parseStrBody n rest ('/' :: acc)
      else if e = 'b' then parseStrBody n rest (Char.ofNat 8 :: acc)
      else if e = 'f' then parseStrBody n rest (Char.ofNat 12 :: acc)
      else if e = 'n' then parseStrBody n rest ('\n' :: acc)
      else if e = 'r' then parseStrBody n rest ('\r' :: acc)
      else if e = 't' then parseStrBody n rest ('\t' :: acc)
      else if e = 'u' then
        match parseUEscape rest with
        | .ok (c, rest2) => parseStrBody n rest2 (c :: acc)
        | .error err => .error err
      else .error .malformed
    | c :: rest =>
      if c.toNat < 0x20 then .error .malformed
      else parseStrBody n rest (c :: acc)

/-- Parse an integer literal (`neg` records a consumed leading minus);
rejects leading zeros like Python, and reports float syntax (a following
`.`/`e`/`E`) as outside the model. -/
def parseNum (neg : Bool) (s : Str) : Except ParseErr (Json × Str) :=
  let ds := s.takeWhile isDigitChar
  let rest := s.dropWhile isDigitChar
  if ds.isEmpty then .error .malformed
  else if ds.head? = some '0' ∧ ds.length > 1 then .error .malformed
  else
    match rest with
    | c :: _ =>
      if c = '.' ∨ c = 'e' ∨ c = 'E' then .error .unsupported
      else .ok (.int (if neg then -(digitsVal ds : Int) else (digitsVal ds : Int)), rest)
    | [] => .ok (.int (if neg then -(digitsVal ds : Int) else (digitsVal ds : Int)), rest)

mutual

/-- Parse one JSON value after skipping leading whitespace (the scanner of
Python's `json.loads`, restricted to the float-free grammar).  The fuel
argument strictly exceeds the input length on every toplevel call. -/
def parseVal : Nat → Str → Except ParseErr (Json × Str)
  | 0, _ => .error .malformed
  | Nat.succ n, s =>
    match s.dropWhile jsonWsChar with
    | '{' :: rest =>
      match rest.dropWhile jsonWsChar with
      | '}' :: rest2 => .ok (.obj [], rest2)
      | other => parseObjPairs n other []
    | '[' :: rest =>
      match rest.dropWhile jsonWsChar with
      | ']' :: rest2 => .ok (.arr [], rest2)
      | other => parseArrItems n other []
    | '"' :: rest =>
      match parseStrBody n rest [] with
      | .ok (str, r) => .ok (.str str, r)
      | .error e => .error e
    | 't' :: rest =>
      if leadsWith ['r', 'u', 'e'] rest then .ok (.bool true, rest.drop 3)
      else .error .malformed
    | 'f' :: rest =>
      if leadsWith ['a', 'l', 's', 'e'] rest then .ok (.bool false, rest.drop 4)
      else .error .malformed
    | 'n' :: rest =>
      if leadsWith ['u', 'l', 'l'] rest then .ok (.null, rest.drop 3)
      else .error .malformed
    | 'N' :: rest =>
      if leadsWith ['a', 'N'] rest then .error .unsupported else .error .malformed
    | 'I' :: rest =>
      if leadsWith ['n', 'f', 'i', 'n', 'i', 't', 'y'] rest then .error .unsupported
      else .error .malformed
    | '-' :: rest =>
      if leadsWith ['I', 'n', 'f', 'i', 'n', 'i', 't', 'y'] rest then .error .unsupported
      else parseNum true rest
    | c :: rest =>
      if isDigitChar c then parseNum false (c :: rest) else .error .malformed
    | [] => .error .malformed

/-- Parse the members of a JSON object from the position of an expected
key; duplicate keys keep their first position with the last value, as in
Python dict construction. -/
def parseObjPairs : Nat → Str → List (Str × Json) → Except ParseErr (Json × Str)
  | 0, _, _ => .error .malformed
  | Nat.succ n, s, acc =>
    match s.dropWhile jsonWsChar with
    | '"' :: rest =>
      match parseStrBody n rest [] with
      | .error e => .error e
      | .ok (k, r1) =>
        match r1.dropWhile jsonWsChar with
        | ':' :: r2 =>
          match parseVal n r2 with
          | .error e => .error e
          | .ok (v, r3) =>
            match r3.dropWhile jsonWsChar with
            | ',' :: r4 => parseObjPairs n r4 (setD k v acc)
            | '}' :: r4 => .ok (.obj (setD k v acc), r4)
            | _ => .error .malformed
        | _ => .error .malformed
    | _ => .error .malformed

/-- Parse the elements of a JSON array from the position of an expected
value. -/
def parseArrItems : Nat → Str → List Json → Except ParseErr (Json × Str)
  | 0, _, _ => .error .malformed
  | Nat.succ n, s, acc =>
    match parseVal n s with
    | .error e => .error e
    | .ok (v, r1) =>
      match r1.dropWhile jsonWsChar with
      | ',' :: r2 => parseArrItems n r2 (acc ++ [v])
      | ']' :: r2 => .ok (.arr (acc ++ [v]), r2)
      | _ => .error .malformed

end

/-- The embedded `json.load(f)`: parse one value and require only
whitespace afterwards. -/
def jsonLoads (s : Str) : Except ParseErr Json :=
  match parseVal (s.length + 1) s with
  | .error e => .error e
  | .ok (j, rest) =>
    if (rest.dropWhile jsonWsChar).isEmpty then .ok j else .error .malformed

/-- Python runtime exceptions that the embedded code can raise. -/
inductive PyErr where
  /-- `TypeError`: item assignment, membership test, iteration or deletion
  on a value of the wrong type. -/
  | typeError
  /-- `AttributeError`: calling `.get`/`.items` on a non-dict. -/
  | attributeError
  /-- The input uses JSON constructs outside the model (see `ParseErr.unsupported`);
  the original program does not raise here, so no claim is settled on such inputs. -/
  | modelGap
deriving DecidableEq

/-- The added/updated/removed counters computed by both update functions. -/
structure Counts where
  added : Nat
  updated : Nat
  removed : Nat
deriving DecidableEq

/-- Python `', '.join(xs)`. -/
def joinCommaSp (xs : List Str) : Str := List.intercalate [',', ' '] xs

/-- The summary line printed by both update functions: the composed
nonzero-count message, or `    No changes needed`. -/
def renderMsg (c : Counts) : Str :=
  let parts : List Str :=
    (if c.added > 0 then ["Added ".toList ++ natDigits c.added ++ " new server(s)".toList] else [])
    ++ (if c.updated > 0 then
          ["Updated ".toList ++ natDigits c.updated ++ " existing server(s)".toList] else [])
    ++ (if c.removed > 0 then
          ["Removed ".toList ++ natDigits c.removed ++ " server(s)".toList] else [])
  if parts.isEmpty then "    No changes needed".toList
  else "    ".toList ++ joinCommaSp parts

/-- The per-entry loop of `transform_json_format`: copies every field of
every entry, except that for the `gemini_cli` tool an entry whose `type`
equals `"http"` has its `url` field stored under the key `httpUrl`
(Python dict assignment, so an existing `httpUrl` binding is overwritten
in place).  `.items()` on a non-dict entry raises. -/
def transformJsonAux (tool_name : Option String) :
    List (Str × Json) → List (Str × Json) → Except PyErr (List (Str × Json))
  | [], acc => .ok acc
  | (name, config) :: rest, acc =>
    match config with
    | .obj kvs =>
      let server_config := kvs.foldl
        (fun sc (kv : Str × Json) =>
          if tool_name = some "gemini_cli"
              ∧ pyJsonEq ((lookupD "type".toList kvs).getD .null) (.str "http".toList)
              ∧ kv.1 = "url".toList
          then setD "httpUrl".toList kv.2 sc
          else setD kv.1 kv.2 sc) []
      transformJsonAux tool_name rest (setD name (.obj server_config) acc)
    | _ => .error .attributeError

/-- The embedded `transform_json_format(source_servers, tool_name)` (see
`transformJsonAux` for the per-entry loop). -/
def transform_json_format (source_servers : List (Str × Json)) (tool_name : Option String) :
    Except PyErr (List (Str × Json)) :=
  transformJsonAux tool_name source_servers []

/-- The add/update loop of `update_config_file`
(`for name, config in transformed_data.items(): ...`). -/
def mergeLoop : List (Str × Json) → List (Str × Json) → Nat → Nat →
    List (Str × Json) × Nat × Nat
  | [], existing, a, u => (existing, a, u)
  | (name, config) :: rest, existing, a, u =>
    match lookupD name existing with
    | none => mergeLoop rest (setD name config existing) (a + 1) u
    | some old =>
      if pyJsonEq old config then mergeLoop rest existing a u
      else mergeLoop rest (setD name config existing) a (u + 1)

/-- The prune phase of `update_config_file`: the `to_remove` list
comprehension followed by the deletions. -/
def pruneNames (existing : List (Str × Json)) (transformed : List (Str × Json)) : List Str :=
  (keysD existing).filter (fun n => (lookupD n transformed).isNone)

/-- Apply `del existing_servers[name]` for each name in order. -/
def applyDels {alpha : Type} (names : List Str) (existing : List (Str × alpha)) :
    List (Str × alpha) :=
  names.foldl (fun e n => delD n e) existing

/-- Content-level core of `update_config_file` (everything between the
read of the prior contents and the `json.dump`): computes `settings`, the
merged mapping and the counters, and returns the new file text.
`prior = none` models a missing destination file. -/
def settingsOf (prior : Option Str) : Except PyErr Json :=
  match prior with
  | none => .ok (.obj [])
  | some content =>
    if content.isEmpty then .ok (.obj [])
    else
      match jsonLoads content with
      | .ok j => .ok j
      | .error .malformed => .ok (.obj [])
      | .error .unsupported => .error .modelGap

/-- The part of the `update_config_file` core after `settings` has been
determined: classification, merge, prune and re-serialization. -/
def updateFromSettings (settings : Json) (transformed : List (Str × Json))
    (config_key : Str) (prune : Bool) : Except PyErr (Str × Counts) :=
  match settings with
  | .obj kvs =>
    match lookupD config_key kvs with
    | some (.obj existing) =>
      let (merged, a, u) := mergeLoop transformed existing 0 0
      let (merged2, r) :=
        if prune then
          let names := pruneNames merged transformed
          (applyDels names merged, names.length)
        else (merged, 0)
      .ok (jsonDump (.obj (setD config_key (.obj merged2) kvs)), ⟨a, u, r⟩)
    | some v =>
      -- the stored value is not a mapping: the classification loop (or,
      -- for an empty source with pruning, the removal loop) raises
      -- TypeError, except that with an empty source and no iteration at
      -- all the assignment `settings[config_key] = existing_servers`
      -- goes through unchanged
      if transformed.isEmpty then
        if prune then
          match v with
          | .str [] => .ok (jsonDump (.obj (setD config_key v kvs)), ⟨0, 0, 0⟩)
          | .arr [] => .ok (jsonDump (.obj (setD config_key v kvs)), ⟨0, 0, 0⟩)
          | _ => .error .typeError
        else .ok (jsonDump (.obj (setD config_key v kvs)), ⟨0, 0, 0⟩)
      else .error .typeError
    | none =>
      let (merged, a, u) := mergeLoop transformed [] 0 0
      let (merged2, r) :=
        if prune then
          let names := pruneNames merged transformed
          (applyDels names merged, names.length)
        else (merged, 0)
      .ok (jsonDump (.obj (setD config_key (.obj merged2) kvs)), ⟨a, u, r⟩)
  | _ => .error .attributeError

def updateConfigData (prior : Option Str) (transformed : List (Str × Json))
    (config_key : Str) (prune : Bool) : Except PyErr (Str × Counts) :=
  match settingsOf prior with
  | .error e => .error e
  | .ok settings => updateFromSettings settings transformed config_key prune

/-- A file system: contents of each path, or `none` where no file exists. -/
def FS := String → Option Str

/-- Write (create or overwrite) one file. -/
def FS.write (fs : FS) (p : String) (c : Str) : FS :=
  fun q => if q = p then some c else fs q

/-- Backup path `dest_path.with_suffix(dest_path.suffix + '.backup')`; for
every configured target filename (all of which have a normal suffix) this
appends `.backup`. -/
def backupPath (p : String) : String := p ++ ".backup"

/-- The embedded `update_config_file(dest_path, transformed_data,
config_key, prune=...)`: backs up an existing destination, merges, and
rewrites the destination as 2-space-indented JSON.  Returns the new file
system and the printed summary line; an uncaught exception is an
`Except.error` carrying the file system at raise time. -/
def update_config_file (fs : FS) (dest_path : String) (transformed : List (Str × Json))
    (config_key : Str) (prune : Bool) : Except (PyErr × FS) (FS × Str) :=
  let fs1 : FS :=
    match fs dest_path with
    | some c => FS.write fs (backupPath dest_path) c
    | none => fs
  match updateConfigData (fs dest_path) transformed config_key prune with
  | .ok (out, counts) => .ok (FS.write fs1 dest_path out, renderMsg counts)
  | .error e => .error (e, fs1)

/-- The `escape_toml_string` helper of `transform_for_codex` restricted to
its actually-exercised string domain: escapes `"`, newline and tab. -/
def escape_toml_string (s : Str) : Str :=
  (s.map (fun c =>
    if c = '"' then ['\\', '"']
    else if c = '\n' then ['\\', 'n']
    else if c = '\t' then ['\\', 't']
    else [c])).flatten

/-- The `quote_toml_key` helper: quote and escape a server name for a
table header. -/
def quote_toml_key (k : Str) : Str := '"' :: escape_toml_string k ++ ['"']

mutual

/-- The `format_toml_value` helper: renders a Python value as a TOML
value.  `None` falls into the catch-all branch and renders as the quoted
text of `str(None)`. -/
def format_toml_value : Json → Str
  | .str s => '"' :: escape_toml_string s ++ ['"']
  | .bool true => "true".toList
  | .bool false => "false".toList
  | .int n => intDigits n
  | .arr xs => '[' :: joinCommaSp (formatTomlItems xs) ++ [']']
  | .obj kvs => '\x7b' :: ' ' :: joinCommaSp (formatTomlKvs kvs) ++ [' ', '\x7d']
  | .null => '"' :: escape_toml_string ['N', 'o', 'n', 'e'] ++ ['"']

/-- Renders the elements of a list value. -/
def formatTomlItems : List Json → List Str
  | [] => []
  | x :: xs => format_toml_value x :: formatTomlItems xs

/-- Renders the `"k" = v` members of an inline-table value (the key is
inserted verbatim). -/
def formatTomlKvs : List (Str × Json) → List Str
  | [] => []
  | (k, v) :: kvs =>
    ('"' :: k ++ '"' :: ' ' :: '=' :: ' ' :: format_toml_value v) :: formatTomlKvs kvs

end

/-- The section header rendered by `transform_for_codex` for one server. -/
def codexHeader (name : Str) : Str :=
  "[mcp_servers.".toList ++ quote_toml_key name ++ [']']

/-- The lines emitted by `transform_for_codex`: for each server whose
`type` equals `"stdio"`, a header, one `key = value` line per field (keys
verbatim), and a blank separator line. -/
def codexLines : List (Str × Json) → Except PyErr (List Str)
  | [] => .ok []
  | (name, config) :: rest =>
    match config with
    | .obj kvs =>
      match codexLines rest with
      | .error e => .error e
      | .ok tailLines =>
        if pyJsonEq ((lookupD "type".toList kvs).getD .null) (.str "stdio".toList) then
          .ok (codexHeader name
            :: kvs.map (fun kv => kv.1 ++ ' ' :: '=' :: ' ' :: format_toml_value kv.2)
            ++ [[]] ++ tailLines)
        else .ok tailLines
    | _ => .error .attributeError

/-- The embedded `transform_for_codex(source_servers)`: the TOML text to
be merged into the Codex config file. -/
def transform_for_codex (source_servers : List (Str × Json)) : Except PyErr Str :=
  match codexLines source_servers with
  | .ok ls => .ok (joinLines ls)
  | .error e => .error e

/-- The literal `[mcp_servers.` that both regexes of
`update_toml_config_file` anchor on. -/
def marker : Str := "[mcp_servers.".toList

/-- The quoted alternative `"([^\"]+)"` of the header regex (followed by
the required `]`). -/
def parseQuotedName : Str → Option (Str × Str)
  | '"' :: rest =>
    let name := rest.takeWhile (· ≠ '"')
    if name.isEmpty then none
    else
      match rest.dropWhile (· ≠ '"') with
      | '"' :: ']' :: rest2 => some (name, rest2)
      | _ => none
  | _ => none

/-- The bare alternative `([^\]]+)` of the header regex (followed by the
required `]`): everything up to the first `]`. -/
def parseBareName (s : Str) : Option (Str × Str) :=
  let name := s.takeWhile (· ≠ ']')
  if name.isEmpty then none
  else
    match s.dropWhile (· ≠ ']') with
    | ']' :: rest2 => some (name, rest2)
    | _ => none

/-- Parse the key of a section header just after the literal
`[mcp_servers.`, preferring the quoted alternative and backtracking to the
bare one exactly as the regex engine does. -/
def parseHeaderName (s : Str) : Option (Str × Str) :=
  match parseQuotedName s with
  | some r => some r
  | none => parseBareName s

/-- Name recovered by `re.match(header_regex, s)` when `s` itself starts
with a section header. -/
def headerNameOf (s : Str) : Option Str :=
  if leadsWith marker s then (parseHeaderName (s.drop marker.length)).map (·.1) else none

/-- Fuel-driven worker for `findSections` (the fuel always suffices when
it exceeds the input length, since every step consumes at least one
character). -/
def findSectionsAux : Nat → Str → List (Str × Str)
  | 0, _ => []
  | Nat.succ n, s =>
    match findSeqSplit marker s with
    | none => []
    | some (_, atM) =>
      match parseHeaderName (atM.drop marker.length) with
      | none => findSectionsAux n (atM.drop 1)
      | some (name, after) =>
        match findSeqSplit marker after with
        | none => [(name, after)]
        | some (content, rest) => (name, content) :: findSectionsAux n rest

/-- The embedded
`re.findall(r'\[mcp_servers\.(?:"([^"]+)"|([^\]]+))\](.*?)(?=\[mcp_servers\.|$)', content, re.DOTALL)`:
every parsed section name with its verbatim content up to the next
occurrence of `[mcp_servers.` or the end of input.  (With `re.DOTALL` and
no `re.MULTILINE`, `$` only additionally trims a final newline, which the
subsequent `.strip()` removes anyway.) -/
def findSections (s : Str) : List (Str × Str) := findSectionsAux (s.length + 1) s

/-- The canonical quoted header `f'[mcp_servers."{server_name}"]'` used
when storing an existing section. -/
def requoteHeader (name : Str) : Str :=
  "[mcp_servers.\"".toList ++ name ++ ['"', ']']

/-- Build `existing_servers`: name -> stripped re-headered block text. -/
def buildExisting (sections : List (Str × Str)) : List (Str × Str) :=
  sections.foldl (fun d nc => setD nc.1 (strip (requoteHeader nc.1 ++ nc.2)) d) []

/-- Classification loop over the source blocks of
`update_toml_config_file`: accumulates the parsed source names, the
updated `(name, block)` pairs and the new blocks, in order. -/
def processBlocks : List Str → List (Str × Str) → List Str → List (Str × Str) → List Str →
    List Str × List (Str × Str) × List Str
  | [], _, names, upd, new => (names, upd, new)
  | block :: rest, existing, names, upd, new =>
    let b := strip block
    if b.isEmpty then processBlocks rest existing names upd new
    else
      match headerNameOf b with
      | none => processBlocks rest existing names upd new
      | some name =>
        let names2 := names ++ [name]
        match lookupD name existing with
        | some eb =>
          if eb = b then processBlocks rest existing names2 upd new
          else processBlocks rest existing names2 (upd ++ [(name, b)]) new
        | none => processBlocks rest existing names2 upd (new ++ [b])

/-- State of the line-rebuilding walk of `update_toml_config_file`. -/
structure WalkSt where
  filtered : List Str
  skip : Bool
  current : Option Str
deriving DecidableEq

/-- One step of the line walk: header lines of updated or pruned sections
turn skipping on, other table headers turn it off, and surviving lines are
appended to `filtered_lines`. -/
def walkLine (updNames srcNames : List Str) (prune : Bool) (st : WalkSt) (line : Str) :
    WalkSt :=
  let stripped := strip line
  match headerNameOf stripped with
  | some name =>
    if name ∈ updNames then ⟨st.filtered, true, some name⟩
    else if prune ∧ name ∉ srcNames then ⟨st.filtered, true, some name⟩
    else ⟨st.filtered ++ [line], false, some name⟩
  | none =>
    if leadsWith ['['] stripped ∧ ¬ leadsWith marker stripped then
      ⟨st.filtered ++ [line], false, none⟩
    else if st.skip then st
    else ⟨st.filtered ++ [line], st.skip, st.current⟩

/-- Content-level core of `update_toml_config_file`: from the prior file
text and the rendered source blocks, the new file text and the counters. -/
def updateTomlData (prior : Str) (transformed : Str) (prune : Bool) : Str × Counts :=
  let existing := buildExisting (findSections prior)
  let blocks := pySplitSeq ['\n', '\n'] transformed
  let (srcNames, upd, new) := processBlocks blocks existing [] [] []
  let removed :=
    if prune then ((keysD existing).filter (fun n => n ∉ srcNames)).length else 0
  let st := (splitLines prior).foldl (walkLine (upd.map (·.1)) srcNames prune) ⟨[], false, none⟩
  let out := rstrip (joinLines st.filtered)
    ++ (upd.map (fun p => '\n' :: '\n' :: p.2)).flatten
    ++ (new.map (fun b => '\n' :: '\n' :: b)).flatten
  (out, ⟨new.length, upd.length, removed⟩)

/-- The embedded `update_toml_config_file(dest_path, transformed_data,
prune=...)`: backs up an existing destination, patches the section text
and rewrites the destination.  Returns the new file system and the
printed summary line. -/
def update_toml_config_file (fs : FS) (dest_path : String) (transformed : Str)
    (prune : Bool) : FS × Str :=
  let fs1 : FS :=
    match fs dest_path with
    | some c => FS.write fs (backupPath dest_path) c
    | none => fs
  let prior : Str := (fs dest_path).getD []
  let (out, counts) := updateTomlData prior transformed prune
  (FS.write fs1 dest_path out, renderMsg counts)

/-- Storage format of a configured target. -/
inductive Fmt where
  | json
  | toml
deriving DecidableEq

/-- One entry of `TOOL_CONFIGS`. -/
structure ToolConfig where
  tool_name : String
  display_name : String
  path : String
  key : Str
  format : Fmt

/-- The centralized tool configuration (`TOOL_CONFIGS`), in dict insertion
order.  Paths stand for the fully resolved home-relative paths; `resolve()`
and `expanduser()` are modelled as the identity on these abstract path
strings (symlinks and working directories are outside the model). -/
def TOOL_CONFIGS : List ToolConfig :=
  [⟨"claude_code", "Claude Code", "HOME/.claude.json", "mcpServers".toList, .json⟩,
   ⟨"gemini_cli", "Gemini CLI", "HOME/.gemini/settings.json", "mcpServers".toList, .json⟩,
   ⟨"vscode", "GitHub Copilot in VS Code", "HOME/.config/Code/User/mcp.json",
     "servers".toList, .json⟩,
   ⟨"vscode_wsl", "GitHub Copilot in VS Code (WSL)",
     "HOME/.vscode-server/data/User/mcp.json", "servers".toList, .json⟩,
   ⟨"codex", "OpenAI Codex CLI", "HOME/.codex/config.toml", "mcp_servers".toList, .toml⟩]

/-- Python truthiness of a JSON value (`if not source_servers`). -/
def pyFalsy : Json → Bool
  | .null => true
  | .bool b => !b
  | .int n => n = 0
  | .str s => s.isEmpty
  | .arr xs => xs.isEmpty
  | .obj kvs => kvs.isEmpty

/-- The skip line printed for the self-sync guard. -/
def skipMsg (display_name : String) : Str :=
  " -> Skipping sync for ".toList ++ display_name.toList ++ " (source config)".toList

/-- The per-target progress line. -/
def syncingMsg (display_name : String) : Str :=
  " -> Syncing settings for ".toList ++ display_name.toList

/-- The target loop of `sync_mcp_configs`: returns the final file system,
the printed lines, and `some e` when an uncaught exception aborted the
loop (the original has no `try`/`except` around the body). -/
def syncTargets (source_servers : List (Str × Json)) (source_path : String) (prune : Bool) :
    List ToolConfig → FS → FS × List Str × Option PyErr
  | [], fs => (fs, [], none)
  | c :: rest, fs =>
    if c.path = source_path then
      let (fs2, log, err) := syncTargets source_servers source_path prune rest fs
      (fs2, skipMsg c.display_name :: log, err)
    else if (fs c.path).isNone then
      syncTargets source_servers source_path prune rest fs
    else
      match c.format with
      | .toml =>
        match transform_for_codex source_servers with
        | .error e => (fs, [syncingMsg c.display_name], some e)
        | .ok transformed =>
          let (fs1, msg) := update_toml_config_file fs c.path transformed prune
          let (fs2, log, err) := syncTargets source_servers source_path prune rest fs1
          (fs2, syncingMsg c.display_name :: msg :: log, err)
      | .json =>
        match transform_json_format source_servers (some c.tool_name) with
        | .error e => (fs, [syncingMsg c.display_name], some e)
        | .ok transformed =>
          match update_config_file fs c.path transformed c.key prune with
          | .ok (fs1, msg) =>
            let (fs2, log, err) := syncTargets source_servers source_path prune rest fs1
            (fs2, syncingMsg c.display_name :: msg :: log, err)
          | .error (e, fs1) => (fs1, [syncingMsg c.display_name], some e)

/-- The embedded `sync_mcp_configs(config_file_path, prune=...)`.  The
registry-load error messages are modelled up to their fixed prefixes (the
embedded text omits the interpolated exception detail).  A missing or
unparsable source file and a missing/empty/non-dict `mcpServers` key are
caught and reported; everything past that point can raise. -/
def sync_mcp_configs (fs : FS) (config_file_path : String) (prune : Bool) :
    FS × List Str × Option PyErr :=
  match fs config_file_path with
  | none =>
    (fs, ["Error reading source file '".toList ++ config_file_path.toList ++ ['\'']], none)
  | some content =>
    match jsonLoads content with
    | .error .malformed =>
      (fs, ["Error reading source file '".toList ++ config_file_path.toList ++ ['\'']], none)
    | .error .unsupported => (fs, [], some .modelGap)
    | .ok source_data =>
      match source_data with
      | .obj kvs =>
        match lookupD "mcpServers".toList kvs with
        | none =>
          (fs, ["Error: 'mcpServers' key not found or empty in '".toList
            ++ config_file_path.toList ++ ['\'']], none)
        | some servers =>
          if pyFalsy servers then
            (fs, ["Error: 'mcpServers' key not found or empty in '".toList
              ++ config_file_path.toList ++ ['\'']], none)
          else
            match servers with
            | .obj source_servers =>
              let (fs2, log, err) :=
                syncTargets source_servers config_file_path prune TOOL_CONFIGS fs
              (fs2,
                ("Found servers: ".toList
                  ++ joinCommaSp (keysD source_servers))
                :: "Syncing MCP server configurations...".toList
                :: log
                ++ (if err.isNone then ["Sync complete.".toList] else []),
                err)
            | _ =>
              (fs, ["Error: Source servers must be an object/dict; got another type from '".toList
                ++ config_file_path.toList ++ ['\'']], none)
      | _ => (fs, [], some .attributeError)

/-- Entry names of a text-sectioned file, as recovered by the program's
own section scanner (`findSections`); this is the formal reading of the
"entry-name set" of a TOML destination. -/
def tomlSectionNames (s : Str) : List Str := (findSections s).map (·.1)

theorem FS.write_self (fs : FS) (p : String) (c : Str) : FS.write fs p c p = some c := by
  simp [FS.write]

theorem FS.write_other (fs : FS) (p q : String) (c : Str) (h : q ≠ p) :
    FS.write fs p c q = fs q := by
  simp [FS.write, h]

theorem backupPath_ne (p : String) : backupPath p ≠ p := by
  intro h
  have := congrArg String.length h
  simp [backupPath, String.length_append] at this
  exact absurd this (by decide)

/-- Claim C5: for every call of `update_config_file` or
`update_toml_config_file` where the destination exists beforehand, the
file at `<path>.backup` afterwards holds the destination's pre-write
contents (overwriting any previous backup); when the destination did not
exist, the backup path is untouched.  This holds on the success and on
the exception path alike. -/
theorem C5_backup_contract (fs : FS) (dest_path : String) (transformed : List (Str × Json))
    (config_key : Str) (tdata : Str) (prune : Bool) :
    (match update_config_file fs dest_path transformed config_key prune with
      | .ok (fs2, _) => fs2 (backupPath dest_path)
      | .error (_, fs2) => fs2 (backupPath dest_path)) =
      (match fs dest_path with
       | some c => some c
       | none => fs (backupPath dest_path))
    ∧ (update_toml_config_file fs dest_path tdata prune).1 (backupPath dest_path) =
      (match fs dest_path with
       | some c => some c
       | none => fs (backupPath dest_path)) := by
  constructor
  · unfold update_config_file
    cases hd : fs dest_path with
    | some c =>
      simp only [hd]
      cases hu : updateConfigData (some c) transformed config_key prune with
      | ok r =>
        obtain ⟨out, counts⟩ := r
        simp [hu, FS.write_other _ _ _ _ (backupPath_ne dest_path), FS.write_self]
      | error e => simp [hu, FS.write_self]
    | none =>
      simp only [hd]
      cases hu : updateConfigData none transformed config_key prune with
      | ok r =>
        obtain ⟨out, counts⟩ := r
        simp [hu, FS.write_other _ _ _ _ (backupPath_ne dest_path)]
      | error e => simp [hu]
  · unfold update_toml_config_file
    cases hd : fs dest_path with
    | some c =>
      simp only [hd]
      simp [FS.write_other _ _ _ _ (backupPath_ne dest_path), FS.write_self]
    | none =>
      simp only [hd]
      simp [FS.write_other _ _ _ _ (backupPath_ne dest_path)]

theorem jsonLoads_nil : jsonLoads [] = .error .malformed := by decide

theorem updateConfigData_nonobj_typeError (prior : Str) (kvs : List (Str × Json))
    (v : Json) (transformed : List (Str × Json)) (config_key : Str) (prune : Bool)
    (hload : jsonLoads prior = .ok (.obj kvs))
    (hlook : lookupD config_key kvs = some v)
    (hnob : ∀ m, v ≠ .obj m)
    (htr : transformed ≠ []) :
    updateConfigData (some prior) transformed config_key prune = .error .typeError := by
  have hne : ¬ prior.isEmpty := by
    intro he
    rw [List.isEmpty_iff] at he
    rw [he, jsonLoads_nil] at hload
    exact absurd hload (by simp)
  cases v with
  | obj m => exact absurd rfl (hnob m)
  | null => simp [updateConfigData, settingsOf, updateFromSettings, hne, hload, hlook, htr]
  | bool b => simp [updateConfigData, settingsOf, updateFromSettings, hne, hload, hlook, htr]
  | int n => simp [updateConfigData, settingsOf, updateFromSettings, hne, hload, hlook, htr]
  | str s =>
    cases s with
    | nil => simp [updateConfigData, settingsOf, updateFromSettings, hne, hload, hlook, htr]
    | cons c cs => simp [updateConfigData, settingsOf, updateFromSettings, hne, hload, hlook, htr]
  | arr xs =>
    cases xs with
    | nil => simp [updateConfigData, settingsOf, updateFromSettings, hne, hload, hlook, htr]
    | cons x xs => simp [updateConfigData, settingsOf, updateFromSettings, hne, hload, hlook, htr]

theorem updateConfigData_isOk_of_obj (prior : Str) (kvs : List (Str × Json))
    (transformed : List (Str × Json)) (config_key : Str) (prune : Bool)
    (hload : jsonLoads prior = .ok (.obj kvs))
    (hlook : lookupD config_key kvs = none ∨ ∃ m, lookupD config_key kvs = some (.obj m)) :
    (updateConfigData (some prior) transformed config_key prune).isOk = true := by
  by_cases he : prior.isEmpty
  · simp only [updateConfigData, settingsOf, updateFromSettings, he, if_true, lookupD]
    exact rfl
  · rcases hlook with hnone | ⟨m, hsome⟩
    · simp only [updateConfigData, settingsOf, updateFromSettings, he, if_false, hload, hnone, Bool.false_eq_true]
      exact rfl
    · simp only [updateConfigData, settingsOf, updateFromSettings, he, if_false, hload, hsome, Bool.false_eq_true]
      exact rfl

/-- Claim C10: when the destination document's value under the storage
key is present but not a mapping and the transformed source set is
non-empty, `update_config_file`'s merge raises an uncaught exception
(modelled as `Except.error PyErr.typeError`); when the stored value is
absent or a mapping, no such exception can occur and the merge returns
normally. -/
theorem C10_nonmapping_guard :
    (∀ (prior : Str) (kvs : List (Str × Json)) (v : Json)
        (transformed : List (Str × Json)) (config_key : Str) (prune : Bool),
      jsonLoads prior = .ok (.obj kvs) →
      lookupD config_key kvs = some v →
      (∀ m, v ≠ .obj m) →
      transformed ≠ [] →
      updateConfigData (some prior) transformed config_key prune = .error .typeError)
    ∧ (∀ (prior : Str) (kvs : List (Str × Json))
        (transformed : List (Str × Json)) (config_key : Str) (prune : Bool),
      jsonLoads prior = .ok (.obj kvs) →
      (lookupD config_key kvs = none ∨ ∃ m, lookupD config_key kvs = some (.obj m)) →
      (updateConfigData (some prior) transformed config_key prune).isOk = true) :=
  ⟨fun prior kvs v transformed config_key prune hload hlook hnob htr =>
    updateConfigData_nonobj_typeError prior kvs v transformed config_key prune
      hload hlook hnob htr,
   fun prior kvs transformed config_key prune hload hlook =>
    updateConfigData_isOk_of_obj prior kvs transformed config_key prune hload hlook⟩

/-- Witness for C10 at concrete inputs: `{"mcpServers": 5}` with a
one-entry source raises, `{"mcpServers": {}}` merges normally. -/
theorem C10_nonmapping_guard_witness :
    updateConfigData (some "\x7b\"mcpServers\": 5\x7d".toList)
      [("a".toList, Json.obj [])] "mcpServers".toList false = .error .typeError
    ∧ (updateConfigData (some "\x7b\"mcpServers\": \x7b\x7d\x7d".toList)
      [("a".toList, Json.obj [])] "mcpServers".toList false).isOk = true := by
  constructor
  · exact C10_nonmapping_guard.1 _ [("mcpServers".toList, Json.int 5)] (Json.int 5) _ _ false
      (by decide) (by decide) (by intro m h; cases h) (by decide)
  · exact C10_nonmapping_guard.2 _ [("mcpServers".toList, Json.obj [])] _ _ false
      (by decide) (Or.inr ⟨[], by decide⟩)

section DictLemmas

variable {alpha : Type}

theorem lookupD_setD_self (k : Str) (v : alpha) (l : List (Str × alpha)) :
    lookupD k (setD k v l) = some v := by
  induction l with
  | nil => simp [setD, lookupD]
  | cons p rest ih =>
    obtain ⟨k2, w⟩ := p
    by_cases h : k = k2
    · simp [setD, h, lookupD]
    · simp [setD, h, lookupD, ih]

theorem lookupD_setD_other (k k' : Str) (v : alpha) (l : List (Str × alpha)) (h : k' ≠ k) :
    lookupD k' (setD k v l) = lookupD k' l := by
  induction l with
  | nil => simp [setD, lookupD, h]
  | cons p rest ih =>
    obtain ⟨k2, w⟩ := p
    by_cases h2 : k = k2
    · subst h2
      simp [setD, lookupD, h]
    · by_cases h3 : k' = k2
      · simp [setD, h2, lookupD, h3]
      · simp [setD, h2, lookupD, h3, ih]

theorem setD_of_lookup_eq (k : Str) (v : alpha) (l : List (Str × alpha))
    (h : lookupD k l = some v) : setD k v l = l := by
  induction l with
  | nil => simp [lookupD] at h
  | cons p rest ih =>
    obtain ⟨k2, w⟩ := p
    by_cases h2 : k = k2
    · subst h2
      simp [lookupD] at h
      simp [setD, h]
    · simp [lookupD, h2] at h
      simp [setD, h2, ih h]

theorem setD_append (k : Str) (v : alpha) (l : List (Str × alpha))
    (h : lookupD k l = none) : setD k v l = l ++ [(k, v)] := by
  induction l with
  | nil => simp [setD]
  | cons p rest ih =>
    obtain ⟨k2, w⟩ := p
    by_cases h2 : k = k2
    · simp [lookupD, h2] at h
    · simp [lookupD, h2] at h
      simp [setD, h2, ih h]

theorem lookupD_eq_none_iff (k : Str) (l : List (Str × alpha)) :
    lookupD k l = none ↔ k ∉ keysD l := by
  induction l with
  | nil => simp [lookupD, keysD]
  | cons p rest ih =>
    obtain ⟨k2, w⟩ := p
    by_cases h : k = k2
    · simp [lookupD, h, keysD]
    · simp [lookupD, h, keysD, ih]

theorem lookupD_isSome_iff (k : Str) (l : List (Str × alpha)) :
    (lookupD k l).isSome = true ↔ k ∈ keysD l := by
  constructor
  · intro h
    by_contra hmem
    rw [← lookupD_eq_none_iff] at hmem
    rw [hmem] at h
    simp at h
  · intro h
    cases hl : lookupD k l with
    | some v => simp
    | none => exact absurd h ((lookupD_eq_none_iff k l).1 hl)

theorem keysD_setD_mem (k : Str) (v : alpha) (l : List (Str × alpha))
    (h : k ∈ keysD l) : keysD (setD k v l) = keysD l := by
  induction l with
  | nil => simp [keysD] at h
  | cons p rest ih =>
    obtain ⟨k2, w⟩ := p
    by_cases h2 : k = k2
    · simp [setD, h2, keysD]
    · have h' : k ∈ keysD rest := by
        simp only [keysD, List.map_cons, List.mem_cons] at h
        rcases h with h | h
        · exact absurd h h2
        · exact h
      simp only [setD, if_neg h2, keysD, List.map_cons, List.cons.injEq, true_and]
      exact ih h'

theorem keysD_setD_new (k : Str) (v : alpha) (l : List (Str × alpha))
    (h : lookupD k l = none) : keysD (setD k v l) = keysD l ++ [k] := by
  rw [setD_append k v l h]
  simp [keysD]

theorem delD_of_ne (k : Str) (p : Str × alpha) (l : List (Str × alpha)) (h : k ≠ p.1) :
    delD k (p :: l) = p :: delD k l := by
  obtain ⟨k2, w⟩ := p
  simp only [delD]
  rw [if_neg (by simpa using h)]

theorem applyDels_cons_notmem (names : List Str) (p : Str × alpha) (l : List (Str × alpha))
    (h : p.1 ∉ names) : applyDels names (p :: l) = p :: applyDels names l := by
  induction names generalizing l with
  | nil => simp [applyDels]
  | cons n rest ih =>
    simp only [List.mem_cons, not_or] at h
    simp only [applyDels, List.foldl_cons]
    rw [delD_of_ne n p l (fun he => h.1 he.symm)]
    exact ih (delD n l) h.2

/-- With distinct keys, the prune phase (`to_remove` then deletions) is a
filter keeping exactly the names present in the source. -/
theorem applyDels_pruneNames (m t : List (Str × Json)) (hd : distinctKeysB m = true) :
    applyDels (pruneNames m t) m = m.filter (fun p => (lookupD p.1 t).isSome) := by
  induction m with
  | nil => simp [pruneNames, applyDels, keysD]
  | cons p rest ih =>
    obtain ⟨k, v⟩ := p
    simp only [distinctKeysB, Bool.and_eq_true, Option.isNone_iff_eq_none] at hd
    have hk : k ∉ keysD rest := (lookupD_eq_none_iff k rest).1 hd.1
    cases hl : lookupD k t with
    | none =>
      have : pruneNames ((k, v) :: rest) t = k :: pruneNames rest t := by
        simp [pruneNames, keysD, hl]
      rw [this]
      have step : applyDels (k :: pruneNames rest t) ((k, v) :: rest) =
          applyDels (pruneNames rest t) (delD k ((k, v) :: rest)) := rfl
      rw [step]
      have hdel : delD k ((k, v) :: rest) = rest := by simp [delD]
      rw [hdel, ih hd.2]
      simp [List.filter_cons, hl]
    | some w =>
      have : pruneNames ((k, v) :: rest) t = pruneNames rest t := by
        simp [pruneNames, keysD, hl]
      rw [this]
      have hnm : k ∉ pruneNames rest t := by
        intro hmem
        exact hk (List.mem_of_mem_filter hmem)
      rw [applyDels_cons_notmem _ _ _ hnm, ih hd.2]
      simp [List.filter_cons, hl]

theorem distinctKeysB_setD (k : Str) (v : alpha) (l : List (Str × alpha))
    (h : distinctKeysB l = true) : distinctKeysB (setD k v l) = true := by
  induction l with
  | nil => simp [setD, distinctKeysB, lookupD]
  | cons p rest ih =>
    obtain ⟨k2, w⟩ := p
    simp only [distinctKeysB, Bool.and_eq_true] at h
    by_cases h2 : k = k2
    · subst h2
      simp [setD, distinctKeysB, h.1, h.2]
    · simp only [setD, if_neg h2, distinctKeysB, Bool.and_eq_true]
      refine ⟨?_, ih h.2⟩
      rw [lookupD_setD_other _ _ _ _ (fun he => h2 he.symm)]
      exact h.1

theorem distinctKeysB_filter (l : List (Str × alpha)) (f : Str × alpha → Bool)
    (h : distinctKeysB l = true) : distinctKeysB (l.filter f) = true := by
  induction l with
  | nil => simp [distinctKeysB]
  | cons p rest ih =>
    obtain ⟨k, w⟩ := p
    simp only [distinctKeysB, Bool.and_eq_true, Option.isNone_iff_eq_none] at h
    rw [List.filter_cons]
    by_cases hf : f (k, w)
    · simp only [hf, if_true, distinctKeysB, Bool.and_eq_true, Option.isNone_iff_eq_none]
      refine ⟨?_, ih h.2⟩
      rw [lookupD_eq_none_iff] at h ⊢
      intro hmem
      apply h.1
      simp only [keysD, List.mem_map] at hmem ⊢
      obtain ⟨q, hq, hqe⟩ := hmem
      exact ⟨q, List.mem_of_mem_filter hq, hqe⟩
    · simp only [hf, if_false]
      exact ih h.2

end DictLemmas

/-- Key renaming performed by the gemini transformation on an
`type == "http"` entry: `url` becomes `httpUrl`, all other keys stay. -/
def renameKey (k : Str) : Str := if k = "url".toList then "httpUrl".toList else k

/-- Pair form of `renameKey`. -/
def renamePair (kv : Str × Json) : Str × Json := (renameKey kv.1, kv.2)

theorem keysD_map_renamePair (l : List (Str × Json)) :
    keysD (l.map renamePair) = (keysD l).map renameKey := by
  induction l with
  | nil => simp [keysD]
  | cons p rest ih => simp [keysD, renamePair, ih]

theorem renameKey_ne_url (k : Str) : renameKey k ≠ "url".toList := by
  unfold renameKey
  by_cases h : k = "url".toList
  · rw [if_pos h]; decide
  · rw [if_neg h]; exact h

theorem distinctKeysB_map_renamePair (kvs : List (Str × Json))
    (hd : distinctKeysB kvs = true) (hfresh : lookupD "httpUrl".toList kvs = none) :
    distinctKeysB (kvs.map renamePair) = true := by
  induction kvs with
  | nil => simp [distinctKeysB]
  | cons p rest ih =>
    obtain ⟨k, v⟩ := p
    simp only [distinctKeysB, Bool.and_eq_true, Option.isNone_iff_eq_none] at hd
    simp only [lookupD] at hfresh
    by_cases hk : "httpUrl".toList = k
    · rw [if_pos hk] at hfresh
      exact absurd hfresh (by simp)
    · rw [if_neg hk] at hfresh
      simp only [List.map_cons, distinctKeysB, Bool.and_eq_true, Option.isNone_iff_eq_none]
      refine ⟨?_, ih hd.2 hfresh⟩
      show lookupD (renamePair (k, v)).1 (List.map renamePair rest) = none
      rw [lookupD_eq_none_iff, keysD_map_renamePair]
      intro hmem
      rw [List.mem_map] at hmem
      obtain ⟨k2, hk2, hk2e⟩ := hmem
      have hk2e : renameKey k2 = renameKey k := hk2e
      by_cases h2 : k2 = "url".toList
      · rw [show renameKey k2 = "httpUrl".toList by unfold renameKey; rw [if_pos h2]] at hk2e
        by_cases h3 : k = "url".toList
        · have hkk : k2 = k := h2.trans h3.symm
          have hd1 := hd.1
          rw [lookupD_eq_none_iff] at hd1
          exact hd1 (hkk ▸ hk2)
        · rw [show renameKey k = k by unfold renameKey; rw [if_neg h3]] at hk2e
          exact hk hk2e
      · rw [show renameKey k2 = k2 by unfold renameKey; rw [if_neg h2]] at hk2e
        by_cases h3 : k = "url".toList
        · rw [show renameKey k = "httpUrl".toList by unfold renameKey; rw [if_pos h3]] at hk2e
          rw [lookupD_eq_none_iff] at hfresh
          exact hfresh (hk2e ▸ hk2)
        · rw [show renameKey k = k by unfold renameKey; rw [if_neg h3]] at hk2e
          have hd1 := hd.1
          rw [lookupD_eq_none_iff] at hd1
          exact hd1 (hk2e ▸ hk2)

theorem gemini_fold_eq (kvs0 : List (Str × Json))
    (htype : pyJsonEq ((lookupD "type".toList kvs0).getD .null) (.str "http".toList) = true) :
    ∀ (kvs acc : List (Str × Json)),
      (∀ k ∈ keysD (kvs.map renamePair), lookupD k acc = none) →
      distinctKeysB (kvs.map renamePair) = true →
      kvs.foldl (fun sc (kv : Str × Json) =>
        if (some "gemini_cli" : Option String) = some "gemini_cli"
            ∧ pyJsonEq ((lookupD "type".toList kvs0).getD .null) (.str "http".toList)
            ∧ kv.1 = "url".toList
        then setD "httpUrl".toList kv.2 sc
        else setD kv.1 kv.2 sc) acc = acc ++ kvs.map renamePair := by
  intro kvs
  induction kvs with
  | nil => intro acc h1 h2; rw [List.foldl_nil, List.map_nil, List.append_nil]
  | cons p rest ih =>
    intro acc h1 h2
    obtain ⟨k, v⟩ := p
    have hacc : lookupD (renameKey k) acc = none := h1 _ (by simp [keysD, renamePair])
    have h2' : distinctKeysB (rest.map renamePair) = true := by
      simp only [List.map_cons, distinctKeysB, Bool.and_eq_true] at h2
      exact h2.2
    have h21 : lookupD (renameKey k) (rest.map renamePair) = none := by
      simp only [List.map_cons, distinctKeysB, Bool.and_eq_true,
        Option.isNone_iff_eq_none] at h2
      exact h2.1
    have hargs : ∀ k2 ∈ keysD (rest.map renamePair),
        lookupD k2 (acc ++ [(renameKey k, v)]) = none := by
      intro k2 hk2
      have hne : k2 ≠ renameKey k := by
        intro he
        rw [lookupD_eq_none_iff] at h21
        exact h21 (he ▸ hk2)
      have hnone : lookupD k2 acc = none := by
        apply h1
        simp only [keysD, List.map_cons, List.mem_cons]
        exact Or.inr (by simpa [keysD] using hk2)
      rw [lookupD_eq_none_iff] at hnone
      rw [lookupD_eq_none_iff]
      simp only [keysD, List.map_append, List.mem_append]
      rintro (hmem | hmem)
      · exact hnone (by simpa [keysD] using hmem)
      · simp only [List.map_cons, List.map_nil, List.mem_singleton] at hmem
        exact hne hmem
    rw [List.foldl_cons]
    split
    · rename_i hcond
      have hrk : renameKey k = "httpUrl".toList := by
        unfold renameKey
        rw [if_pos hcond.2.2]
      rw [show setD "httpUrl".toList v acc = acc ++ [(renameKey k, v)] from by
        rw [hrk]; exact setD_append _ _ _ (hrk ▸ hacc)]
      rw [ih (acc ++ [(renameKey k, v)]) hargs h2']
      simp [renamePair]
    · rename_i hcond
      have hne : k ≠ "url".toList := by
        intro he
        exact hcond ⟨rfl, htype, he⟩
      have hrk : renameKey k = k := by
        unfold renameKey
        rw [if_neg hne]
      rw [show setD k v acc = acc ++ [(renameKey k, v)] from by
        rw [hrk]; exact setD_append _ _ _ (hrk ▸ hacc)]
      rw [ih (acc ++ [(renameKey k, v)]) hargs h2']
      simp [renamePair]

theorem lookup_httpUrl_map_renamePair (kvs : List (Str × Json))
    (hfresh : lookupD "httpUrl".toList kvs = none) (u : Json)
    (hu : lookupD "url".toList kvs = some u) :
    lookupD "httpUrl".toList (kvs.map renamePair) = some u := by
  induction kvs with
  | nil => simp [lookupD] at hu
  | cons p rest ih =>
    obtain ⟨k, v⟩ := p
    simp only [lookupD] at hu hfresh
    by_cases hk : "httpUrl".toList = k
    · rw [if_pos hk] at hfresh
      exact absurd hfresh (by simp)
    · rw [if_neg hk] at hfresh
      by_cases h2 : "url".toList = k
      · rw [if_pos h2] at hu
        have hrk : renameKey k = "httpUrl".toList := by
          unfold renameKey
          rw [if_pos h2.symm]
        simp only [List.map_cons, renamePair, lookupD, hrk]
        simpa using hu
      · rw [if_neg h2] at hu
        have hrk : renameKey k = k := by
          unfold renameKey
          rw [if_neg (fun he => h2 he.symm)]
        simp only [List.map_cons, renamePair, lookupD, hrk]
        rw [if_neg hk]
        exact ih hfresh hu

theorem lookup_other_map_renamePair (kvs : List (Str × Json)) (k : Str)
    (hku : k ≠ "url".toList) (hkh : k ≠ "httpUrl".toList) :
    lookupD k (kvs.map renamePair) = lookupD k kvs := by
  induction kvs with
  | nil => simp
  | cons p rest ih =>
    obtain ⟨k2, v⟩ := p
    by_cases h2 : k2 = "url".toList
    · have hrk : renameKey k2 = "httpUrl".toList := by
        unfold renameKey
        rw [if_pos h2]
      simp only [List.map_cons, renamePair, lookupD, hrk]
      rw [if_neg hkh, if_neg (h2 ▸ hku)]
      exact ih
    · have hrk : renameKey k2 = k2 := by
        unfold renameKey
        rw [if_neg h2]
      simp only [List.map_cons, renamePair, lookupD, hrk]
      by_cases h3 : k = k2
      · rw [if_pos h3, if_pos h3]
      · rw [if_neg h3, if_neg h3]
        exact ih

/-- Claim C6 amended: for a gemini entry with `type == "http"` that does
not itself contain an `httpUrl` field (and has the distinct keys every
parsed JSON object has), the transformation maps `url` to `httpUrl` and
copies every other field unchanged: the `url` value appears under
`httpUrl`, no `url` field is retained, and every field other than `url`
and `httpUrl` is looked up unchanged. -/
theorem C6_gemini_http_rename (name : Str) (kvs : List (Str × Json))
    (hd : distinctKeysB kvs = true)
    (htype : lookupD "type".toList kvs = some (.str "http".toList))
    (hfresh : lookupD "httpUrl".toList kvs = none) :
    transform_json_format [(name, .obj kvs)] (some "gemini_cli") =
      .ok [(name, .obj (kvs.map renamePair))]
    ∧ (∀ u, lookupD "url".toList kvs = some u →
        lookupD "httpUrl".toList (kvs.map renamePair) = some u)
    ∧ lookupD "url".toList (kvs.map renamePair) = none
    ∧ (∀ k, k ≠ "url".toList → k ≠ "httpUrl".toList →
        lookupD k (kvs.map renamePair) = lookupD k kvs) := by
  have htype' : pyJsonEq ((lookupD "type".toList kvs).getD .null) (.str "http".toList)
      = true := by
    rw [htype]
    decide
  refine ⟨?_, fun u hu => lookup_httpUrl_map_renamePair kvs hfresh u hu, ?_,
    fun k hku hkh => lookup_other_map_renamePair kvs k hku hkh⟩
  · show transformJsonAux (some "gemini_cli") [(name, .obj kvs)] [] = _
    rw [transformJsonAux]
    rw [gemini_fold_eq kvs htype' kvs []
      (by intro k hk; simp [lookupD])
      (distinctKeysB_map_renamePair kvs hd hfresh)]
    rw [transformJsonAux]
    rw [List.nil_append]
    rfl
  · rw [lookupD_eq_none_iff, keysD_map_renamePair]
    intro hmem
    rw [List.mem_map] at hmem
    obtain ⟨k2, _, hk2e⟩ := hmem
    exact renameKey_ne_url k2 hk2e

/-- Witness for the amended C6 at the spec's own example entry
`{type: "http", url: "https://x"}`. -/
theorem C6_gemini_http_rename_witness :
    transform_json_format
      [("s".toList, .obj [("type".toList, .str "http".toList),
        ("url".toList, .str "https://x".toList)])] (some "gemini_cli") =
      .ok [("s".toList, .obj [("type".toList, .str "http".toList),
        ("httpUrl".toList, .str "https://x".toList)])] := by
  have h := (C6_gemini_http_rename "s".toList
    [("type".toList, .str "http".toList), ("url".toList, .str "https://x".toList)]
    (by decide) (by decide) (by decide)).1
  rw [h]
  decide

/-- Claim C6 counterexample: on an entry that already carries an
`httpUrl` field, the later verbatim copy of that field overwrites the
renamed `url` value in place, so "all other fields are copied unchanged"
fails (the entry's own `httpUrl` binding `"a"` is not retained). -/
theorem C6_counterexample :
    transform_json_format
      [("s".toList, .obj [("type".toList, .str "http".toList),
        ("url".toList, .str "b".toList), ("httpUrl".toList, .str "a".toList)])]
      (some "gemini_cli") =
      .ok [("s".toList, .obj [("type".toList, .str "http".toList),
        ("httpUrl".toList, .str "a".toList)])]
    ∧ ("httpUrl".toList : Str) ≠ "url".toList
    ∧ lookupD "httpUrl".toList
        [(("type".toList : Str), Json.str "http".toList),
         ("url".toList, Json.str "b".toList), ("httpUrl".toList, Json.str "a".toList)] =
        some (.str "a".toList)
    ∧ lookupD "url".toList
        [(("type".toList : Str), Json.str "http".toList),
         ("url".toList, Json.str "b".toList), ("httpUrl".toList, Json.str "a".toList)] =
        some (.str "b".toList)
    ∧ ¬ (Json.str "a".toList = .str "b".toList) := by
  refine ⟨by decide, by decide, by decide, by decide, by decide⟩

theorem mergeLoop_counts_mono (t : List (Str × Json)) :
    ∀ (e : List (Str × Json)) (a u : Nat),
      a ≤ (mergeLoop t e a u).2.1 ∧ u ≤ (mergeLoop t e a u).2.2 := by
  induction t with
  | nil => intro e a u; exact ⟨le_rfl, le_rfl⟩
  | cons p rest ih =>
    intro e a u
    obtain ⟨n, cfg⟩ := p
    cases hl : lookupD n e with
    | none =>
      simp only [mergeLoop, hl]
      obtain ⟨h1, h2⟩ := ih (setD n cfg e) (a + 1) u
      exact ⟨le_trans (Nat.le_succ a) h1, h2⟩
    | some old =>
      simp only [mergeLoop, hl]
      by_cases hq : pyJsonEq old cfg
      · rw [if_pos hq]
        exact ih e a u
      · rw [if_neg hq]
        obtain ⟨h1, h2⟩ := ih (setD n cfg e) a (u + 1)
        exact ⟨h1, le_trans (Nat.le_succ u) h2⟩

/-- When the add/update loop reports no additions and no updates, the
mapping comes back unchanged. -/
theorem mergeLoop_eq_of_counts (t : List (Str × Json)) :
    ∀ (e : List (Str × Json)) (a u : Nat),
      (mergeLoop t e a u).2.1 = a → (mergeLoop t e a u).2.2 = u →
      (mergeLoop t e a u).1 = e := by
  induction t with
  | nil => intro e a u _ _; rfl
  | cons p rest ih =>
    intro e a u ha hu
    obtain ⟨n, cfg⟩ := p
    cases hl : lookupD n e with
    | none =>
      simp only [mergeLoop, hl] at ha hu ⊢
      have := (mergeLoop_counts_mono rest (setD n cfg e) (a + 1) u).1
      omega
    | some old =>
      simp only [mergeLoop, hl] at ha hu ⊢
      by_cases hq : pyJsonEq old cfg
      · rw [if_pos hq] at ha hu ⊢
        exact ih e a u ha hu
      · rw [if_neg hq] at hu
        have := (mergeLoop_counts_mono rest (setD n cfg e) a (u + 1)).2
        omega

/-- When every transformed entry is already present with a Python-equal
value, the loop changes nothing and counts nothing. -/
theorem mergeLoop_no_change (t : List (Str × Json)) :
    ∀ (e : List (Str × Json)) (a u : Nat),
      (∀ p ∈ t, ∃ old, lookupD p.1 e = some old ∧ pyJsonEq old p.2 = true) →
      mergeLoop t e a u = (e, a, u) := by
  induction t with
  | nil => intro e a u _; rfl
  | cons p rest ih =>
    intro e a u h
    obtain ⟨n, cfg⟩ := p
    obtain ⟨old, hl, hq⟩ := h (n, cfg) (by simp)
    simp only [mergeLoop, hl, if_pos hq]
    exact ih e a u (fun q hq2 => h q (by simp [hq2]))

/-- Core of claim C9 (amended): when the prior contents parse to an
object that already holds a mapping at the storage key and the computed
delta is empty, `update_config_file` rewrites the destination as exactly
the 2-space-indented re-serialization of its parsed prior content. -/
theorem updateConfigData_no_change_dump (prior : Str) (kvs m : List (Str × Json))
    (transformed : List (Str × Json)) (config_key : Str) (prune : Bool)
    (out : Str) (cnt : Counts)
    (hload : jsonLoads prior = .ok (.obj kvs))
    (hlook : lookupD config_key kvs = some (.obj m))
    (hrun : updateConfigData (some prior) transformed config_key prune = .ok (out, cnt))
    (hcnt : cnt = ⟨0, 0, 0⟩) :
    out = jsonDump (.obj kvs) := by
  have hne : ¬ prior.isEmpty := by
    intro he
    rw [List.isEmpty_iff] at he
    rw [he, jsonLoads_nil] at hload
    exact absurd hload (by simp)
  rw [updateConfigData] at hrun
  simp only [settingsOf, updateFromSettings, hne, hload, hlook, if_false,
    Bool.false_eq_true] at hrun
  subst hcnt
  by_cases hp : prune
  · subst hp
    simp only [if_true, Except.ok.injEq, Prod.mk.injEq] at hrun
    obtain ⟨hout, hcnts⟩ := hrun
    have hcnts' : (mergeLoop transformed m 0 0).2.1 = 0
        ∧ (mergeLoop transformed m 0 0).2.2 = 0
        ∧ (pruneNames (mergeLoop transformed m 0 0).1 transformed).length = 0 := by
      have h1 := congrArg Counts.added hcnts
      have h2 := congrArg Counts.updated hcnts
      have h3 := congrArg Counts.removed hcnts
      exact ⟨h1, h2, h3⟩
    have hm : (mergeLoop transformed m 0 0).1 = m :=
      mergeLoop_eq_of_counts transformed m 0 0 hcnts'.1 hcnts'.2.1
    have hpn : pruneNames (mergeLoop transformed m 0 0).1 transformed = [] :=
      List.length_eq_zero.1 hcnts'.2.2
    rw [hpn] at hout
    simp only [applyDels, List.foldl_nil] at hout
    rw [hm] at hout
    rw [setD_of_lookup_eq _ _ _ hlook] at hout
    exact hout.symm
  · simp only [hp, if_false, Bool.false_eq_true, Except.ok.injEq, Prod.mk.injEq] at hrun
    obtain ⟨hout, hcnts⟩ := hrun
    have h1 : (mergeLoop transformed m 0 0).2.1 = 0 := congrArg Counts.added hcnts
    have h2 : (mergeLoop transformed m 0 0).2.2 = 0 := congrArg Counts.updated hcnts
    have hm : (mergeLoop transformed m 0 0).1 = m :=
      mergeLoop_eq_of_counts transformed m 0 0 h1 h2
    rw [hm, setD_of_lookup_eq _ _ _ hlook] at hout
    exact hout.symm

/-- Claim C9 amended: on a run that reports no changes,
`update_config_file` still takes a backup and still rewrites the
destination; the bytes written are the 2-space-indented re-serialization
of the parsed prior document with the merged mapping installed at the
storage key, which equals the re-serialization of the parsed prior
content whenever the storage key was already present. -/
theorem C9_no_change_rewrite :
    (∀ (fs : FS) (dest_path : String) (transformed : List (Str × Json))
        (config_key : Str) (prune : Bool) (c : Str) (fs2 : FS) (msg : Str),
      fs dest_path = some c →
      update_config_file fs dest_path transformed config_key prune = .ok (fs2, msg) →
      fs2 (backupPath dest_path) = some c
      ∧ ∃ out cnt, updateConfigData (some c) transformed config_key prune = .ok (out, cnt)
          ∧ fs2 dest_path = some out ∧ msg = renderMsg cnt)
    ∧ (∀ (prior : Str) (kvs m : List (Str × Json)) (transformed : List (Str × Json))
        (config_key : Str) (prune : Bool) (out : Str) (cnt : Counts),
      jsonLoads prior = .ok (.obj kvs) →
      lookupD config_key kvs = some (.obj m) →
      updateConfigData (some prior) transformed config_key prune = .ok (out, cnt) →
      cnt = ⟨0, 0, 0⟩ →
      out = jsonDump (.obj kvs) ∧ renderMsg cnt = "    No changes needed".toList) := by
  constructor
  · intro fs dest_path transformed config_key prune c fs2 msg hd hrun
    rw [update_config_file] at hrun
    simp only [hd] at hrun
    cases hu : updateConfigData (some c) transformed config_key prune with
    | ok r =>
      obtain ⟨out, cnt⟩ := r
      rw [hu] at hrun
      simp only [Except.ok.injEq, Prod.mk.injEq] at hrun
      obtain ⟨hfs2, hmsg⟩ := hrun
      refine ⟨?_, out, cnt, rfl, ?_, hmsg.symm⟩
      · rw [← hfs2, FS.write_other _ _ _ _ (backupPath_ne dest_path), FS.write_self]
      · rw [← hfs2, FS.write_self]
    | error e =>
      rw [hu] at hrun
      exact absurd hrun (by simp)
  · intro prior kvs m transformed config_key prune out cnt hload hlook hrun hcnt
    refine ⟨updateConfigData_no_change_dump prior kvs m transformed config_key prune
      out cnt hload hlook hrun hcnt, ?_⟩
    rw [hcnt]
    rfl

/-- Concrete compactly formatted destination used to witness C9. -/
def priorC9 : Str := "\x7b\"mcpServers\":\x7b\"a\":\x7b\"command\":\"x\"\x7d\x7d\x7d".toList

/-- File system holding only that destination. -/
def fsC9 : FS := fun p => if p = "HOME/.claude.json" then some priorC9 else none

/-- Transformed source set equal to the destination's one entry. -/
def tC9 : List (Str × Json) := [("a".toList, .obj [("command".toList, .str "x".toList)])]

/-- Parsed form of `priorC9`. -/
def kvsC9 : List (Str × Json) :=
  [("mcpServers".toList, .obj [("a".toList, .obj [("command".toList, .str "x".toList)])])]

/-- The canonical 2-space-indented rewrite of `priorC9`. -/
def outC9 : Str := "\x7b\n  \"mcpServers\": \x7b\n    \"a\": \x7b\n      \"command\": \"x\"\n    \x7d\n  \x7d\n\x7d".toList

/-- Witness for the amended C9: a compactly formatted destination whose
single entry already equals the source is reported unchanged, yet its
bytes are rewritten to the canonical 2-space-indented form, with the
backup taken. -/
theorem C9_no_change_rewrite_witness :
    (FS.write (FS.write fsC9 (backupPath "HOME/.claude.json") priorC9)
        "HOME/.claude.json" outC9) (backupPath "HOME/.claude.json") = some priorC9
    ∧ outC9 = jsonDump (.obj kvsC9)
    ∧ outC9 ≠ priorC9
    ∧ renderMsg ⟨0, 0, 0⟩ = "    No changes needed".toList := by
  have hrun : update_config_file fsC9 "HOME/.claude.json" tC9 "mcpServers".toList false =
      .ok (FS.write (FS.write fsC9 (backupPath "HOME/.claude.json") priorC9)
        "HOME/.claude.json" outC9, renderMsg ⟨0, 0, 0⟩) := by
    have : updateConfigData (some priorC9) tC9 "mcpServers".toList false =
        .ok (outC9, ⟨0, 0, 0⟩) := by decide
    rw [update_config_file]
    simp only [show fsC9 "HOME/.claude.json" = some priorC9 from rfl, this]
  obtain ⟨hb, out, cnt, hu, hw, hm⟩ :=
    C9_no_change_rewrite.1 fsC9 "HOME/.claude.json" tC9 "mcpServers".toList false priorC9
      _ _ rfl hrun
  have hconc : updateConfigData (some priorC9) tC9 "mcpServers".toList false =
      .ok (outC9, ⟨0, 0, 0⟩) := by decide
  have houtcnt : out = outC9 ∧ cnt = (⟨0, 0, 0⟩ : Counts) := by
    have := hu.symm.trans hconc
    simp only [Except.ok.injEq, Prod.mk.injEq] at this
    exact this
  obtain ⟨hdump, hmsg⟩ :=
    C9_no_change_rewrite.2 priorC9 kvsC9
      [("a".toList, .obj [("command".toList, .str "x".toList)])] tC9
      "mcpServers".toList false out cnt (by decide) (by decide) hu houtcnt.2
  refine ⟨hb, ?_, by decide, hmsg.symm ▸ (houtcnt.2 ▸ rfl)⟩
  rw [← houtcnt.1, hdump]

/-- Claim C9 counterexample: with an empty transformed set and a prior
document lacking the storage key, the run still reports "No changes
needed" but the bytes written are not the re-serialization of the parsed
prior content (the storage key is installed), refuting the claim as
stated. -/
theorem C9_counterexample :
    updateConfigData (some "\x7b\x7d".toList) [] "mcpServers".toList false =
      .ok ("\x7b\n  \"mcpServers\": \x7b\x7d\n\x7d".toList, ⟨0, 0, 0⟩)
    ∧ jsonLoads "\x7b\x7d".toList = .ok (.obj [])
    ∧ jsonDump (.obj []) = "\x7b\x7d".toList
    ∧ ("\x7b\n  \"mcpServers\": \x7b\x7d\n\x7d".toList : Str) ≠ "\x7b\x7d".toList := by
  refine ⟨by decide, by decide, by decide, by decide⟩

theorem update_config_file_agree (fs : FS) (dest_path : String)
    (transformed : List (Str × Json)) (config_key : Str) (prune : Bool) (q : String)
    (h1 : q ≠ dest_path) (h2 : q ≠ backupPath dest_path) :
    (match update_config_file fs dest_path transformed config_key prune with
      | .ok (fs2, _) => fs2 q
      | .error (_, fs2) => fs2 q) = fs q := by
  rw [update_config_file]
  cases hd : fs dest_path with
  | some c =>
    cases hu : updateConfigData (some c) transformed config_key prune with
    | ok r =>
      obtain ⟨out, cnt⟩ := r
      simp only [hu]
      rw [FS.write_other _ _ _ _ h1, FS.write_other _ _ _ _ h2]
    | error e =>
      simp only [hu]
      rw [FS.write_other _ _ _ _ h2]
  | none =>
    cases hu : updateConfigData none transformed config_key prune with
    | ok r =>
      obtain ⟨out, cnt⟩ := r
      simp only [hu]
      rw [FS.write_other _ _ _ _ h1]
    | error e => simp only [hu]

theorem update_toml_config_file_agree (fs : FS) (dest_path : String)
    (transformed : Str) (prune : Bool) (q : String)
    (h1 : q ≠ dest_path) (h2 : q ≠ backupPath dest_path) :
    (update_toml_config_file fs dest_path transformed prune).1 q = fs q := by
  rw [update_toml_config_file]
  cases hd : fs dest_path with
  | some c =>
    simp only
    rw [FS.write_other _ _ _ _ h1, FS.write_other _ _ _ _ h2]
  | none =>
    simp only
    rw [FS.write_other _ _ _ _ h1]

/-- The target loop never touches a path that is neither a processed
target's destination nor its backup (skipped targets touch nothing). -/
theorem syncTargets_agree (source_servers : List (Str × Json)) (source_path : String)
    (prune : Bool) (q : String) :
    ∀ (ts : List ToolConfig) (fs : FS),
      (∀ d ∈ ts, d.path = source_path ∨ (q ≠ d.path ∧ q ≠ backupPath d.path)) →
      (syncTargets source_servers source_path prune ts fs).1 q = fs q := by
  intro ts
  induction ts with
  | nil => intro fs _; rfl
  | cons c rest ih =>
    intro fs h
    by_cases hsp : c.path = source_path
    · simp only [syncTargets, if_pos hsp]
      exact ih fs (fun d hd => h d (by simp [hd]))
    · rcases h c (by simp) with hl | ⟨hq1, hq2⟩
      · exact absurd hl hsp
      · simp only [syncTargets, if_neg hsp]
        by_cases hex : (fs c.path).isNone
        · simp only [hex, if_true]
          exact ih fs (fun d hd => h d (by simp [hd]))
        · simp only [hex, Bool.false_eq_true, if_false]
          cases hfmt : c.format with
          | toml =>
            cases ht : transform_for_codex source_servers with
            | error e => simp
            | ok transformed =>
              simp only
              rw [ih (update_toml_config_file fs c.path transformed prune).1
                (fun d hd => h d (by simp [hd]))]
              exact update_toml_config_file_agree fs c.path transformed prune q hq1 hq2
          | json =>
            cases ht : transform_json_format source_servers (some c.tool_name) with
            | error e => simp
            | ok transformed =>
              simp only
              cases hu : update_config_file fs c.path transformed c.key prune with
              | ok r =>
                obtain ⟨fs1, msg⟩ := r
                simp only
                rw [ih fs1 (fun d hd => h d (by simp [hd]))]
                have := update_config_file_agree fs c.path transformed c.key prune q hq1 hq2
                rw [hu] at this
                exact this
              | error r =>
                obtain ⟨e, fs1⟩ := r
                simp only
                have := update_config_file_agree fs c.path transformed c.key prune q hq1 hq2
                rw [hu] at this
                exact this

/-- When the loop completes without an uncaught exception, a target whose
path equals the source path has its skip line in the log. -/
theorem syncTargets_skip_mem (source_servers : List (Str × Json)) (source_path : String)
    (prune : Bool) (c : ToolConfig) :
    ∀ (ts : List ToolConfig) (fs : FS), c ∈ ts → c.path = source_path →
      (syncTargets source_servers source_path prune ts fs).2.2 = none →
      skipMsg c.display_name ∈ (syncTargets source_servers source_path prune ts fs).2.1 := by
  intro ts
  induction ts with
  | nil => intro fs hmem; simp at hmem
  | cons d rest ih =>
    intro fs hmem hcp herr
    rcases List.mem_cons.1 hmem with rfl | hmem2
    · simp only [syncTargets, if_pos hcp] at herr ⊢
      simp
    · by_cases hsp : d.path = source_path
      · simp only [syncTargets, if_pos hsp] at herr ⊢
        exact List.mem_cons_of_mem _ (ih fs hmem2 hcp herr)
      · simp only [syncTargets, if_neg hsp] at herr ⊢
        by_cases hex : (fs d.path).isNone
        · simp only [hex, if_true] at herr ⊢
          exact ih fs hmem2 hcp herr
        · simp only [hex, Bool.false_eq_true, if_false] at herr ⊢
          cases hfmt : d.format with
          | toml =>
            rw [hfmt] at herr
            cases ht : transform_for_codex source_servers with
            | error e => simp only [ht] at herr; simp at herr
            | ok transformed =>
              simp only [ht] at herr ⊢
              have := ih (update_toml_config_file fs d.path transformed prune).1 hmem2 hcp herr
              simp [this]
          | json =>
            rw [hfmt] at herr
            cases ht : transform_json_format source_servers (some d.tool_name) with
            | error e => simp only [ht] at herr; simp at herr
            | ok transformed =>
              simp only [ht] at herr ⊢
              cases hu : update_config_file fs d.path transformed d.key prune with
              | ok r =>
                obtain ⟨fs1, msg⟩ := r
                simp only [hu] at herr ⊢
                have := ih fs1 hmem2 hcp herr
                simp [this]
              | error r =>
                obtain ⟨e, fs1⟩ := r
                simp only [hu] at herr
                simp at herr

/-- Claim C8: a target whose resolved path equals the source path is
skipped and reported as skipped; its iteration performs no
transformation, merge, write or backup (the loop continues on the rest
from the unmodified file system), the full run leaves both the target's
file and its backup path untouched, and when the run completes without an
uncaught exception the skip line is in the log (so the remaining targets
were still visited). -/
theorem C8_self_sync_guard :
    (∀ (source_servers : List (Str × Json)) (source_path : String) (prune : Bool)
        (c : ToolConfig) (rest : List ToolConfig) (fs : FS),
      c.path = source_path →
      syncTargets source_servers source_path prune (c :: rest) fs =
        ((syncTargets source_servers source_path prune rest fs).1,
         skipMsg c.display_name :: (syncTargets source_servers source_path prune rest fs).2.1,
         (syncTargets source_servers source_path prune rest fs).2.2))
    ∧ (∀ (fs : FS) (prune : Bool) (c : ToolConfig), c ∈ TOOL_CONFIGS →
      (sync_mcp_configs fs c.path prune).1 c.path = fs c.path
      ∧ (sync_mcp_configs fs c.path prune).1 (backupPath c.path) = fs (backupPath c.path))
    ∧ (∀ (fs : FS) (prune : Bool) (c : ToolConfig) (content : Str)
        (kvs source_servers : List (Str × Json)), c ∈ TOOL_CONFIGS →
      fs c.path = some content →
      jsonLoads content = .ok (.obj kvs) →
      lookupD "mcpServers".toList kvs = some (.obj source_servers) →
      source_servers ≠ [] →
      (sync_mcp_configs fs c.path prune).2.2 = none →
      skipMsg c.display_name ∈ (sync_mcp_configs fs c.path prune).2.1) := by
  refine ⟨?_, ?_, ?_⟩
  · intro source_servers source_path prune c rest fs hc
    rw [syncTargets, if_pos hc]
  · intro fs prune c hc
    have hcond : ∀ q, (∀ d ∈ TOOL_CONFIGS, d.path = c.path
          ∨ (q ≠ d.path ∧ q ≠ backupPath d.path)) →
        (sync_mcp_configs fs c.path prune).1 q = fs q := by
      intro q hq
      rw [sync_mcp_configs]
      cases hsrc : fs c.path with
      | none => rfl
      | some content =>
        dsimp only
        cases hl : jsonLoads content with
        | error e => cases e <;> rfl
        | ok source_data =>
          dsimp only
          cases source_data with
          | obj kvs =>
            dsimp only
            cases hlook : lookupD "mcpServers".toList kvs with
            | none => rfl
            | some servers =>
              dsimp only
              by_cases hf : pyFalsy servers
              · rw [if_pos hf]
              · rw [if_neg hf]
                cases servers with
                | obj source_servers =>
                  dsimp only
                  exact syncTargets_agree source_servers c.path prune q TOOL_CONFIGS fs hq
                | null => rfl
                | bool b => rfl
                | int n => rfl
                | str s => rfl
                | arr xs => rfl
          | null => rfl
          | bool b => rfl
          | int n => rfl
          | str s => rfl
          | arr xs => rfl
    constructor
    · apply hcond
      simp only [TOOL_CONFIGS, List.mem_cons, List.not_mem_nil, or_false] at hc
      rcases hc with rfl | rfl | rfl | rfl | rfl <;> decide
    · apply hcond
      simp only [TOOL_CONFIGS, List.mem_cons, List.not_mem_nil, or_false] at hc
      rcases hc with rfl | rfl | rfl | rfl | rfl <;> decide
  · intro fs prune c content kvs source_servers hc hsrc hl hlook hne herr
    rw [sync_mcp_configs] at herr ⊢
    simp only [hsrc, hl, hlook] at herr ⊢
    have hf : ¬ pyFalsy (.obj source_servers) = true := by
      simp only [pyFalsy, List.isEmpty_iff]
      simpa using hne
    rw [if_neg hf] at herr ⊢
    simp only at herr ⊢
    have herr2 : (syncTargets source_servers c.path prune TOOL_CONFIGS fs).2.2 = none := by
      by_cases h : (syncTargets source_servers c.path prune TOOL_CONFIGS fs).2.2 = none
      · exact h
      · exact absurd herr (by simp [h])
    have hmem := syncTargets_skip_mem source_servers c.path prune c TOOL_CONFIGS fs hc rfl herr2
    simp only [List.mem_cons, List.mem_append]
    tauto

/-- Witness for C8: with the registry living at the Claude Code path,
that target is reported skipped and left untouched while the others are
still processed. -/
theorem C8_self_sync_guard_witness :
    (let srcContent : Str := "\x7b\"mcpServers\": \x7b\"a\": \x7b\"type\": \"stdio\"\x7d\x7d\x7d".toList
     let fs : FS := fun p =>
       if p = "HOME/.claude.json" then some srcContent
       else if p = "HOME/.gemini/settings.json" then some "\x7b\x7d".toList else none
     let c : ToolConfig :=
       ⟨"claude_code", "Claude Code", "HOME/.claude.json", "mcpServers".toList, .json⟩
     (sync_mcp_configs fs c.path false).1 c.path = fs c.path
     ∧ (sync_mcp_configs fs c.path false).1 (backupPath c.path) = fs (backupPath c.path)
     ∧ skipMsg c.display_name ∈ (sync_mcp_configs fs c.path false).2.1) := by
  intro srcContent fs c
  have hc : c ∈ TOOL_CONFIGS := by
    show c ∈ TOOL_CONFIGS
    simp [TOOL_CONFIGS, c]
  refine ⟨(C8_self_sync_guard.2.1 fs false c hc).1,
    (C8_self_sync_guard.2.1 fs false c hc).2, ?_⟩
  refine C8_self_sync_guard.2.2 fs false c srcContent
    [("mcpServers".toList, .obj [("a".toList, .obj [("type".toList, .str "stdio".toList)])])]
    [("a".toList, .obj [("type".toList, .str "stdio".toList)])]
    hc (by decide) (by decide) (by decide) (by decide) (by decide)

/-- Stepping lemma: a JSON-format target whose merge raises aborts the
loop right there, returning the file system at raise time. -/
theorem syncTargets_cons_json_error (source_servers : List (Str × Json))
    (source_path : String) (prune : Bool) (c : ToolConfig) (rest : List ToolConfig)
    (fs fs1 : FS) (cc : Str) (T : List (Str × Json)) (e : PyErr)
    (hne : ¬ c.path = source_path) (hex : fs c.path = some cc) (hfmt : c.format = .json)
    (ht : transform_json_format source_servers (some c.tool_name) = .ok T)
    (hu : update_config_file fs c.path T c.key prune = .error (e, fs1)) :
    syncTargets source_servers source_path prune (c :: rest) fs =
      (fs1, [syncingMsg c.display_name], some e) := by
  rw [syncTargets, if_neg hne]
  simp only [hex, Option.isNone_some, Bool.false_eq_true, if_false, hfmt, ht, hu]

/-- Source used in the C2 scenario. -/
def srcC2 : Str := "\x7b\"mcpServers\": \x7b\"a\": \x7b\"type\": \"stdio\"\x7d\x7d\x7d".toList

/-- File system for the C2 counterexample: a valid registry, a Claude
Code file whose stored `mcpServers` is the non-mapping `5`, and a Gemini
file that exists and would be processed next. -/
def fsC2 : FS := fun p =>
  if p = "SRC/config.json" then some srcC2
  else if p = "HOME/.claude.json" then some "\x7b\"mcpServers\": 5\x7d".toList
  else if p = "HOME/.gemini/settings.json" then some "\x7b\x7d".toList
  else none

/-- Claim C2 counterexample: the failure while processing the first
target is not caught at the orchestrator level: the run aborts with the
uncaught `TypeError`, the existing Gemini target is never processed (its
bytes unchanged, no progress line for it), contradicting "caught и
recorded ... remaining targets are still processed". -/
theorem C2_counterexample :
    (sync_mcp_configs fsC2 "SRC/config.json" false).2.2 = some .typeError
    ∧ fsC2 "HOME/.gemini/settings.json" = some "\x7b\x7d".toList
    ∧ (sync_mcp_configs fsC2 "SRC/config.json" false).1 "HOME/.gemini/settings.json" =
        some "\x7b\x7d".toList
    ∧ syncingMsg "Gemini CLI" ∉ (sync_mcp_configs fsC2 "SRC/config.json" false).2.1 := by
  refine ⟨by decide, by decide, by decide, by decide⟩

/-- Claim C2 amended: only a registry load/validation failure is caught
(reported, aborting before any target is touched); a failure raised while
processing one target propagates out of `sync_mcp_configs`, aborting the
loop, so the remaining targets are neither processed nor reported. -/
theorem C2_failure_propagates :
    (∀ (fs : FS) (sp : String) (prune : Bool),
      (fs sp = none ∨ ∃ c, fs sp = some c ∧ jsonLoads c = .error .malformed) →
      (sync_mcp_configs fs sp prune).1 = fs ∧ (sync_mcp_configs fs sp prune).2.2 = none)
    ∧ (∀ (fs : FS) (sp : String) (prune : Bool) (src : Str)
        (kvs servers : List (Str × Json)) (cc : Str) (ckvs : List (Str × Json)) (v : Json)
        (T : List (Str × Json)),
      sp ≠ "HOME/.claude.json" →
      fs sp = some src →
      jsonLoads src = .ok (.obj kvs) →
      lookupD "mcpServers".toList kvs = some (.obj servers) →
      servers ≠ [] →
      fs "HOME/.claude.json" = some cc →
      jsonLoads cc = .ok (.obj ckvs) →
      lookupD "mcpServers".toList ckvs = some v →
      (∀ m, v ≠ .obj m) →
      transform_json_format servers (some "claude_code") = .ok T →
      T ≠ [] →
      (sync_mcp_configs fs sp prune).2.2 = some .typeError
      ∧ (sync_mcp_configs fs sp prune).1 =
          FS.write fs (backupPath "HOME/.claude.json") cc
      ∧ (sync_mcp_configs fs sp prune).1 "HOME/.gemini/settings.json" =
          fs "HOME/.gemini/settings.json"
      ∧ (sync_mcp_configs fs sp prune).1 "HOME/.codex/config.toml" =
          fs "HOME/.codex/config.toml"
      ∧ syncingMsg "Gemini CLI" ∉ (sync_mcp_configs fs sp prune).2.1
      ∧ syncingMsg "OpenAI Codex CLI" ∉ (sync_mcp_configs fs sp prune).2.1) := by
  constructor
  · intro fs sp prune h
    rcases h with hnone | ⟨c, hsome, hmal⟩
    · rw [sync_mcp_configs, hnone]
      exact ⟨rfl, rfl⟩
    · rw [sync_mcp_configs, hsome]
      dsimp only
      rw [hmal]
      exact ⟨rfl, rfl⟩
  · intro fs sp prune src kvs servers cc ckvs v T hsp hsrc hl hlook hne hcc hl2 hlook2
      hnob ht hT
    have hfalsy : ¬ pyFalsy (.obj servers) = true := by
      simp only [pyFalsy, List.isEmpty_iff]
      simpa using hne
    have hupd : update_config_file fs "HOME/.claude.json" T "mcpServers".toList prune =
        .error (.typeError, FS.write fs (backupPath "HOME/.claude.json") cc) := by
      rw [update_config_file]
      simp only [hcc]
      rw [updateConfigData_nonobj_typeError cc ckvs v T "mcpServers".toList prune
        hl2 hlook2 hnob hT]
    have hloop : syncTargets servers sp prune TOOL_CONFIGS fs =
        (FS.write fs (backupPath "HOME/.claude.json") cc,
          [syncingMsg "Claude Code"], some .typeError) := by
      rw [TOOL_CONFIGS]
      exact syncTargets_cons_json_error servers sp prune _ _ fs _ cc T _
        (fun h => hsp h.symm) hcc rfl ht hupd
    have hsync : sync_mcp_configs fs sp prune =
        (FS.write fs (backupPath "HOME/.claude.json") cc,
          ("Found servers: ".toList ++ joinCommaSp (keysD servers))
            :: "Syncing MCP server configurations...".toList
            :: [syncingMsg "Claude Code"],
          some .typeError) := by
      rw [sync_mcp_configs]
      simp only [hsrc, hl, hlook]
      rw [if_neg hfalsy]
      rw [hloop]
      rfl
    rw [hsync]
    have hhead : ∀ (d : String) (x : Str),
        syncingMsg d ≠ "Found servers: ".toList ++ x := by
      intro d x h
      have h1 : (syncingMsg d).head? = some ' ' := rfl
      have h2 : (("Found servers: ".toList ++ x : Str)).head? = some 'F' := rfl
      rw [h, h2] at h1
      exact absurd h1 (by simp)
    refine ⟨rfl, rfl, ?_, ?_, ?_, ?_⟩
    · exact FS.write_other fs (backupPath "HOME/.claude.json")
        "HOME/.gemini/settings.json" cc (by decide)
    · exact FS.write_other fs (backupPath "HOME/.claude.json")
        "HOME/.codex/config.toml" cc (by decide)
    · simp only [List.mem_cons, List.not_mem_nil, or_false]
      rintro (h | h | h)
      · exact hhead "Gemini CLI" _ h
      · exact absurd h (by decide)
      · exact absurd h (by decide)
    · simp only [List.mem_cons, List.not_mem_nil, or_false]
      rintro (h | h | h)
      · exact hhead "OpenAI Codex CLI" _ h
      · exact absurd h (by decide)
      · exact absurd h (by decide)

/-- Witness for the amended C2 at the concrete C2 scenario. -/
theorem C2_failure_propagates_witness :
    (sync_mcp_configs fsC2 "SRC/config.json" false).2.2 = some PyErr.typeError
    ∧ (sync_mcp_configs fsC2 "SRC/config.json" false).1 "HOME/.gemini/settings.json" =
        fsC2 "HOME/.gemini/settings.json"
    ∧ (sync_mcp_configs (fun p => if p = "SRC/missing.json" then none else fsC2 p)
        "SRC/missing.json" false).2.2 = none := by
  have h := C2_failure_propagates.2 fsC2 "SRC/config.json" false srcC2
    [("mcpServers".toList, .obj [("a".toList, .obj [("type".toList, .str "stdio".toList)])])]
    [("a".toList, .obj [("type".toList, .str "stdio".toList)])]
    "\x7b\"mcpServers\": 5\x7d".toList
    [("mcpServers".toList, .int 5)] (.int 5)
    [("a".toList, .obj [("type".toList, .str "stdio".toList)])]
    (by decide) (by decide) (by decide) (by decide) (by decide) (by decide) (by decide)
    (by decide) (by intro m hm; cases hm) (by decide) (by decide)
  have h0 := C2_failure_propagates.1
    (fun p => if p = "SRC/missing.json" then none else fsC2 p) "SRC/missing.json" false
    (Or.inl (by decide))
  exact ⟨h.1, h.2.2.1, h0.2⟩

section Roundtrip

theorem toNat_digitChar (n : Nat) (h : n < 10) : (Char.ofNat (48 + n)).toNat = 48 + n := by
  interval_cases n <;> decide

theorem isDigitChar_digitChar (n : Nat) (h : n < 10) :
    isDigitChar (Char.ofNat (48 + n)) = true := by
  interval_cases n <;> decide

theorem natDigitsAux_congr : ∀ (n f1 f2 : Nat), n < f1 → n < f2 →
    natDigitsAux f1 n = natDigitsAux f2 n := by
  intro n
  induction n using Nat.strong_induction_on with
  | _ n ih =>
    intro f1 f2 h1 h2
    cases f1 with
    | zero => omega
    | succ g1 =>
      cases f2 with
      | zero => omega
      | succ g2 =>
        by_cases hlt : n < 10
        · simp [natDigitsAux, hlt]
        · have hdiv : n / 10 < n := Nat.div_lt_self (by omega) (by omega)
          simp only [natDigitsAux, if_neg hlt]
          rw [ih (n / 10) hdiv g1 g2 (by omega) (by omega)]

theorem natDigits_eq (n : Nat) :
    natDigits n = if n < 10 then [Char.ofNat (48 + n)]
      else natDigits (n / 10) ++ [Char.ofNat (48 + n % 10)] := by
  show natDigitsAux (n + 1) n = _
  by_cases hlt : n < 10
  · simp [natDigitsAux, hlt]
  · have hdiv : n / 10 < n := Nat.div_lt_self (by omega) (by omega)
    simp only [natDigitsAux, if_neg hlt]
    rw [natDigitsAux_congr (n / 10) n (n / 10 + 1) hdiv (by omega)]
    rfl

theorem natDigits_ne_nil (n : Nat) : natDigits n ≠ [] := by
  rw [natDigits_eq]
  by_cases hlt : n < 10
  · simp [hlt]
  · simp [hlt]

theorem natDigits_all_digits : ∀ n, ∀ c ∈ natDigits n, isDigitChar c = true := by
  intro n
  induction n using Nat.strong_induction_on with
  | _ n ih =>
    intro c hc
    rw [natDigits_eq] at hc
    by_cases hlt : n < 10
    · rw [if_pos hlt] at hc
      simp only [List.mem_singleton] at hc
      subst hc
      exact isDigitChar_digitChar n hlt
    · rw [if_neg hlt] at hc
      rcases List.mem_append.1 hc with hm | hm
      · exact ih (n / 10) (Nat.div_lt_self (by omega) (by omega)) c hm
      · simp only [List.mem_singleton] at hm
        subst hm
        exact isDigitChar_digitChar (n % 10) (Nat.mod_lt n (by omega))

theorem digitsVal_append_digit (ds : Str) (c : Char) :
    digitsVal (ds ++ [c]) = digitsVal ds * 10 + (c.toNat - 48) := by
  unfold digitsVal
  rw [List.foldl_append]
  rfl

theorem digitsVal_natDigits : ∀ n, digitsVal (natDigits n) = n := by
  intro n
  induction n using Nat.strong_induction_on with
  | _ n ih =>
    rw [natDigits_eq]
    by_cases hlt : n < 10
    · rw [if_pos hlt]
      show digitsVal [Char.ofNat (48 + n)] = n
      unfold digitsVal
      simp [toNat_digitChar n hlt]
    · rw [if_neg hlt]
      rw [digitsVal_append_digit, ih (n / 10) (Nat.div_lt_self (by omega) (by omega))]
      rw [toNat_digitChar (n % 10) (Nat.mod_lt n (by omega))]
      omega

theorem natDigits_head_ne_zero : ∀ n, 1 ≤ n → ∀ c, (natDigits n).head? = some c → c ≠ '0' := by
  intro n
  induction n using Nat.strong_induction_on with
  | _ n ih =>
    intro hn c hc
    rw [natDigits_eq] at hc
    by_cases hlt : n < 10
    · rw [if_pos hlt] at hc
      simp only [List.head?_cons, Option.some.injEq] at hc
      subst hc
      intro he
      have := congrArg Char.toNat he
      rw [toNat_digitChar n hlt] at this
      simp only [show ('0').toNat = 48 from rfl] at this
      omega
    · rw [if_neg hlt] at hc
      have hne := natDigits_ne_nil (n / 10)
      cases hd : natDigits (n / 10) with
      | nil => exact absurd hd hne
      | cons d ds =>
        rw [hd] at hc
        simp only [List.cons_append, List.head?_cons, Option.some.injEq] at hc
        subst hc
        refine ih (n / 10) (Nat.div_lt_self (by omega) (by omega)) ?_ d (by rw [hd]; rfl)
        have h10 : 10 ≤ n := by omega
        calc 1 = 10 / 10 := by norm_num
          _ ≤ n / 10 := Nat.div_le_div_right h10

theorem hexDigitVal_hexChar (n : Nat) (h : n < 16) : hexDigitVal (hexChar n) = some n := by
  interval_cases n <;> decide

theorem char_ne_of_toNat_ne {c d : Char} (h : c.toNat ≠ d.toNat) : c ≠ d :=
  fun he => h (by rw [he])

theorem digit_ne_char {c : Char} (h : isDigitChar c = true) (d : Char)
    (hd : isDigitChar d = false) : c ≠ d := by
  intro he
  subst he
  rw [h] at hd
  exact absurd hd (by decide)

theorem ws_false_of_digit {c : Char} (h : isDigitChar c = true) : jsonWsChar c = false := by
  unfold jsonWsChar
  simp only [Bool.or_eq_false_iff, decide_eq_false_iff_not]
  unfold isDigitChar at h
  simp only [Bool.and_eq_true, decide_eq_true_eq] at h
  refine ⟨⟨⟨fun he => ?_, fun he => ?_⟩, fun he => ?_⟩, fun he => ?_⟩ <;>
    (subst he; revert h; decide)

theorem jsonEscapeChar_ne_nil (c : Char) : jsonEscapeChar c ≠ [] := by
  unfold jsonEscapeChar
  repeat' split
  all_goals simp

theorem length_le_escaped : ∀ s : Str, s.length ≤ ((s.map jsonEscapeChar).flatten).length := by
  intro s
  induction s with
  | nil => simp
  | cons c t ih =>
    simp only [List.map_cons, List.flatten_cons, List.length_append, List.length_cons]
    have h1 : 1 ≤ (jsonEscapeChar c).length := by
      cases h : jsonEscapeChar c with
      | nil => exact absurd h (jsonEscapeChar_ne_nil c)
      | cons a b => simp
    omega

theorem dropWhile_ws_cons_of_neg (c : Char) (t : Str) (h : jsonWsChar c = false) :
    (c :: t).dropWhile jsonWsChar = c :: t := by
  simp [List.dropWhile_cons, h]

theorem dropWhile_ws_replicate (m : Nat) (X : Str) :
    (List.replicate m ' ' ++ X).dropWhile jsonWsChar = X.dropWhile jsonWsChar := by
  induction m with
  | zero => rfl
  | succ k ih =>
    rw [List.replicate_succ, List.cons_append, List.dropWhile_cons]
    simp only [show jsonWsChar ' ' = true from rfl, if_true]
    exact ih

theorem dropWhile_ws_indent (k : Nat) (X : Str) :
    ('\n' :: (indentChars k ++ X)).dropWhile jsonWsChar = X.dropWhile jsonWsChar := by
  rw [List.dropWhile_cons]
  simp only [show jsonWsChar '\n' = true from rfl, if_true]
  exact dropWhile_ws_replicate (2 * k) X

theorem dumpVal_head (lvl : Nat) (j : Json) :
    ∃ c t, dumpVal lvl j = c :: t ∧ jsonWsChar c = false ∧ c ≠ ']' := by
  cases j with
  | null => exact ⟨'n', _, rfl, by decide, by decide⟩
  | bool b =>
    cases b with
    | true => exact ⟨'t', _, rfl, by decide, by decide⟩
    | false => exact ⟨'f', _, rfl, by decide, by decide⟩
  | int n =>
    show ∃ c t, intDigits n = c :: t ∧ _
    unfold intDigits
    by_cases hneg : n < 0
    · rw [if_pos hneg]
      exact ⟨'-', _, rfl, by decide, by decide⟩
    · rw [if_neg hneg]
      cases hd : natDigits n.toNat with
      | nil => exact absurd hd (natDigits_ne_nil _)
      | cons c t =>
        have hdig : isDigitChar c = true :=
          natDigits_all_digits _ c (by rw [hd]; exact List.mem_cons_self c t)
        exact ⟨c, t, rfl, ws_false_of_digit hdig, digit_ne_char hdig ']' (by decide)⟩
  | str s => exact ⟨'"', _, rfl, by decide, by decide⟩
  | arr xs =>
    cases xs with
    | nil => exact ⟨'[', _, rfl, by decide, by decide⟩
    | cons x t => exact ⟨'[', _, rfl, by decide, by decide⟩
  | obj kvs =>
    cases kvs with
    | nil => exact ⟨'\x7b', _, rfl, by decide, by decide⟩
    | cons kv t =>
      obtain ⟨k, v⟩ := kv
      exact ⟨'\x7b', _, rfl, by decide, by decide⟩

theorem dropWhile_ws_dumpVal (lvl : Nat) (j : Json) (X : Str) :
    (dumpVal lvl j ++ X).dropWhile jsonWsChar = dumpVal lvl j ++ X := by
  obtain ⟨c, t, he, hws, -⟩ := dumpVal_head lvl j
  rw [he, List.cons_append]
  exact dropWhile_ws_cons_of_neg c (t ++ X) hws

/-- Constraint on the text following a serialized value: its first
character, if any, is not a digit and not `.`/`e`/`E` (so that a numeric
literal ends exactly where its digits end).  Every continuation produced
by `json.dump` satisfies this, as does the empty text. -/
def delimOk (rest : Str) : Prop :=
  ∀ c, rest.head? = some c → isDigitChar c = false ∧ c ≠ '.' ∧ c ≠ 'e' ∧ c ≠ 'E'

theorem takeWhile_append_all (p : Char → Bool) (l l' : Str) (h : ∀ c ∈ l, p c = true) :
    (l ++ l').takeWhile p = l ++ l'.takeWhile p := by
  induction l with
  | nil => simp
  | cons a t ih =>
    have ha : p a = true := h a (List.mem_cons_self a t)
    rw [List.cons_append, List.takeWhile_cons]
    simp only [ha, if_true, List.cons_append]
    rw [ih (fun c hc => h c (List.mem_cons_of_mem a hc))]

theorem dropWhile_append_all (p : Char → Bool) (l l' : Str) (h : ∀ c ∈ l, p c = true) :
    (l ++ l').dropWhile p = l'.dropWhile p := by
  induction l with
  | nil => simp
  | cons a t ih =>
    have ha : p a = true := h a (List.mem_cons_self a t)
    rw [List.cons_append, List.dropWhile_cons]
    simp only [ha, if_true]
    rw [ih (fun c hc => h c (List.mem_cons_of_mem a hc))]

theorem takeWhile_nil_of_head (p : Char → Bool) (l : Str)
    (h : ∀ c, l.head? = some c → p c = false) : l.takeWhile p = [] := by
  cases l with
  | nil => rfl
  | cons a t => simp [List.takeWhile_cons, h a rfl]

theorem dropWhile_self_of_head (p : Char → Bool) (l : Str)
    (h : ∀ c, l.head? = some c → p c = false) : l.dropWhile p = l := by
  cases l with
  | nil => rfl
  | cons a t => simp [List.dropWhile_cons, h a rfl]

theorem parseNum_natDigits (m : Nat) (neg : Bool) (rest : Str) (hre : delimOk rest) :
    parseNum neg (natDigits m ++ rest)
      = .ok (.int (if neg then -(m : Int) else (m : Int)), rest) := by
  have hall : ∀ c ∈ natDigits m, isDigitChar c = true := natDigits_all_digits m
  have htw : (natDigits m ++ rest).takeWhile isDigitChar = natDigits m := by
    rw [takeWhile_append_all _ _ _ hall,
      takeWhile_nil_of_head _ rest (fun c hc => (hre c hc).1), List.append_nil]
  have hdw : (natDigits m ++ rest).dropWhile isDigitChar = rest := by
    rw [dropWhile_append_all _ _ _ hall,
      dropWhile_self_of_head _ rest (fun c hc => (hre c hc).1)]
  unfold parseNum
  rw [htw, hdw]
  have hne : (natDigits m).isEmpty = false := by
    cases hd : natDigits m with
    | nil => exact absurd hd (natDigits_ne_nil m)
    | cons a t => rfl
  rw [if_neg (by simp [hne])]
  have hz : ¬((natDigits m).head? = some '0' ∧ (natDigits m).length > 1) := by
    rintro ⟨h0, hlen⟩
    by_cases hlt : m < 10
    · rw [natDigits_eq, if_pos hlt] at hlen
      simp at hlen
    · exact natDigits_head_ne_zero m (by omega) '0' h0 rfl
  rw [if_neg hz]
  cases rest with
  | nil => simp [digitsVal_natDigits]
  | cons c t =>
    obtain ⟨-, h1, h2, h3⟩ := hre c rfl
    have hcond : ¬(c = '.' ∨ c = 'e' ∨ c = 'E') := by
      rintro (rfl | rfl | rfl)
      · exact h1 rfl
      · exact h2 rfl
      · exact h3 rfl
    simp only [if_neg hcond, digitsVal_natDigits]

theorem parseHex4_toHex4 (code : Nat) (h : code < 65536) (rest : Str) :
    parseHex4 (toHex4 code ++ rest) = some (code, rest) := by
  have e : toHex4 code ++ rest = hexChar (code / 4096 % 16) :: hexChar (code / 256 % 16)
      :: hexChar (code / 16 % 16) :: hexChar (code % 16) :: rest := rfl
  rw [e]
  have h1 := hexDigitVal_hexChar (code / 4096 % 16) (Nat.mod_lt _ (by omega))
  have h2 := hexDigitVal_hexChar (code / 256 % 16) (Nat.mod_lt _ (by omega))
  have h3 := hexDigitVal_hexChar (code / 16 % 16) (Nat.mod_lt _ (by omega))
  have h4 := hexDigitVal_hexChar (code % 16) (Nat.mod_lt _ (by omega))
  simp only [parseHex4, h1, h2, h3, h4]
  show some ((((code / 4096 % 16) * 16 + code / 256 % 16) * 16 + code / 16 % 16) * 16
    + code % 16, rest) = some (code, rest)
  have harith : (((code / 4096 % 16) * 16 + code / 256 % 16) * 16 + code / 16 % 16) * 16
      + code % 16 = code := by omega
  rw [harith]

theorem parseUEscape_toHex4 (code : Nat) (h : code < 65536)
    (hs : code < 55296 ∨ 57344 ≤ code) (rest : Str) :
    parseUEscape (toHex4 code ++ rest) = .ok (Char.ofNat code, rest) := by
  simp only [parseUEscape, parseHex4_toHex4 code h rest]
  rw [if_neg (by omega), if_neg (by omega)]

theorem parseUEscape_pair (s s2 rest : Str) (hi lo : Nat)
    (hp1 : parseHex4 s = some (hi, '\\' :: 'u' :: s2))
    (hp2 : parseHex4 s2 = some (lo, rest))
    (hhi : 55296 ≤ hi ∧ hi ≤ 56319) (hlo : 56320 ≤ lo ∧ lo ≤ 57343) :
    parseUEscape s = .ok (Char.ofNat (65536 + (hi - 55296) * 1024 + (lo - 56320)), rest) := by
  simp only [parseUEscape, hp1]
  rw [if_pos hhi]
  simp only [hp2]
  rw [if_pos hlo]

theorem parseUEscape_surrogate (cp : Nat) (h1 : 65536 ≤ cp) (h2 : cp < 1114112) (rest : Str) :
    parseUEscape (toHex4 (55296 + (cp - 65536) / 1024)
      ++ '\\' :: 'u' :: (toHex4 (56320 + (cp - 65536) % 1024) ++ rest))
      = .ok (Char.ofNat cp, rest) := by
  have hhi : 55296 + (cp - 65536) / 1024 < 65536 := by omega
  have hlo : 56320 + (cp - 65536) % 1024 < 65536 := by omega
  rw [parseUEscape_pair _ (toHex4 (56320 + (cp - 65536) % 1024) ++ rest) rest
    (55296 + (cp - 65536) / 1024) (56320 + (cp - 65536) % 1024)
    (parseHex4_toHex4 _ hhi _) (parseHex4_toHex4 _ hlo _)
    ⟨by omega, by omega⟩ ⟨by omega, by omega⟩]
  have harith : 65536 + (55296 + (cp - 65536) / 1024 - 55296) * 1024
      + (56320 + (cp - 65536) % 1024 - 56320) = cp := by omega
  rw [harith]

theorem parseStrBody_escape (c : Char) (n : Nat) (rest acc : Str) :
    parseStrBody (n + 1) (jsonEscapeChar c ++ rest) acc = parseStrBody n rest (c :: acc) := by
  have hstep : ∀ X : Str, parseStrBody (n + 1) ('\\' :: 'u' :: X) acc
      = match parseUEscape X with
        | .ok (ch, rest2) => parseStrBody n rest2 (ch :: acc)
        | .error err => .error err := fun X => rfl
  by_cases h1 : c = '"'
  · subst h1; rfl
  by_cases h2 : c = '\\'
  · subst h2; rfl
  by_cases h3 : c = '\n'
  · subst h3; rfl
  by_cases h4 : c = '\r'
  · subst h4; rfl
  by_cases h5 : c = '\t'
  · subst h5; rfl
  by_cases h6 : c = Char.ofNat 8
  · subst h6; rfl
  by_cases h7 : c = Char.ofNat 12
  · subst h7; rfl
  have hesc : jsonEscapeChar c =
      (if c.toNat < 32 then '\\' :: 'u' :: toHex4 c.toNat
       else if c.toNat ≤ 126 then [c]
       else if c.toNat < 65536 then '\\' :: 'u' :: toHex4 c.toNat
       else ('\\' :: 'u' :: toHex4 (55296 + (c.toNat - 65536) / 1024))
         ++ ('\\' :: 'u' :: toHex4 (56320 + (c.toNat - 65536) % 1024))) := by
    unfold jsonEscapeChar
    rw [if_neg h1, if_neg h2, if_neg h3, if_neg h4, if_neg h5, if_neg h6, if_neg h7]
  rw [hesc]
  by_cases hv1 : c.toNat < 32
  · rw [if_pos hv1]
    rw [show ('\\' :: 'u' :: toHex4 c.toNat) ++ rest = '\\' :: 'u' :: (toHex4 c.toNat ++ rest)
      from rfl]
    rw [hstep, parseUEscape_toHex4 c.toNat (by omega) (Or.inl (by omega)) rest]
    simp only [Char.ofNat_toNat]
  by_cases hv2 : c.toNat ≤ 126
  · rw [if_neg hv1, if_pos hv2]
    rw [show ([c] : Str) ++ rest = c :: rest from rfl]
    simp only [parseStrBody]
    split
    · rename_i heq
      exact absurd heq (by simp)
    · rename_i heq
      injection heq with e1 e2
      exact absurd e1 h1
    · rename_i e heq
      injection heq with e1 e2
      exact absurd e1 h2
    · rename_i c2 t2 heq
      injection heq with e1 e2
      subst e1
      subst e2
      rw [if_neg (by omega)]
  by_cases hv3 : c.toNat < 65536
  · rw [if_neg hv1, if_neg hv2, if_pos hv3]
    rw [show ('\\' :: 'u' :: toHex4 c.toNat) ++ rest = '\\' :: 'u' :: (toHex4 c.toNat ++ rest)
      from rfl]
    have hval : c.toNat < 55296 ∨ (57344 ≤ c.toNat ∧ c.toNat < 1114112) := c.valid
    rw [hstep, parseUEscape_toHex4 c.toNat (by omega) (by omega) rest]
    simp only [Char.ofNat_toNat]
  · rw [if_neg hv1, if_neg hv2, if_neg hv3]
    have hval : c.toNat < 55296 ∨ (57344 ≤ c.toNat ∧ c.toNat < 1114112) := c.valid
    have h65 : 65536 ≤ c.toNat := by omega
    rw [show (('\\' :: 'u' :: toHex4 (55296 + (c.toNat - 65536) / 1024))
        ++ ('\\' :: 'u' :: toHex4 (56320 + (c.toNat - 65536) % 1024))) ++ rest
      = '\\' :: 'u' :: (toHex4 (55296 + (c.toNat - 65536) / 1024)
        ++ '\\' :: 'u' :: (toHex4 (56320 + (c.toNat - 65536) % 1024) ++ rest)) from by
      simp [List.append_assoc]]
    rw [hstep, parseUEscape_surrogate c.toNat h65 (by omega) rest]
    simp only [Char.ofNat_toNat]

theorem parseStrBody_dump : ∀ (s : Str) (fuel : Nat) (acc rest : Str), s.length < fuel →
    parseStrBody fuel ((s.map jsonEscapeChar).flatten ++ '"' :: rest) acc
      = .ok (acc.reverse ++ s, rest) := by
  intro s
  induction s with
  | nil =>
    intro fuel acc rest hf
    cases fuel with
    | zero => omega
    | succ n =>
      show parseStrBody (n + 1) ('"' :: rest) acc = .ok (acc.reverse ++ [], rest)
      rw [List.append_nil]
      rfl
  | cons c t ih =>
    intro fuel acc rest hf
    cases fuel with
    | zero => omega
    | succ n =>
      have e : ((c :: t).map jsonEscapeChar).flatten ++ '"' :: rest
          = jsonEscapeChar c ++ ((t.map jsonEscapeChar).flatten ++ '"' :: rest) := by
        simp [List.append_assoc]
      rw [e, parseStrBody_escape c n _ acc]
      rw [ih n (c :: acc) rest (by simp only [List.length_cons] at hf; omega)]
      simp

theorem dumpStr_append (k X : Str) :
    dumpStr k ++ X = '"' :: ((k.map jsonEscapeChar).flatten ++ '"' :: X) := by
  simp [dumpStr, List.append_assoc]

theorem dropWhile_ws_idem (l : Str) :
    (l.dropWhile jsonWsChar).dropWhile jsonWsChar = l.dropWhile jsonWsChar := by
  induction l with
  | nil => rfl
  | cons a t ih =>
    rw [List.dropWhile_cons]
    by_cases h : jsonWsChar a = true
    · rw [if_pos h]
      exact ih
    · rw [if_neg h]
      exact dropWhile_ws_cons_of_neg a t (by simpa using h)

theorem delimOk_nil : delimOk [] := fun c hc => by simp at hc

theorem delimOk_cons (c : Char) (t : Str)
    (h : isDigitChar c = false ∧ c ≠ '.' ∧ c ≠ 'e' ∧ c ≠ 'E') : delimOk (c :: t) :=
  fun d hd => by
    simp only [List.head?_cons, Option.some.injEq] at hd
    subst hd
    exact h

mutual

/-- Fuel amount sufficient for `parseVal` to parse the serialization of a
value (each parser step consumes one unit of fuel). -/
def costVal : Json → Nat
  | .null => 1
  | .bool _ => 1
  | .int _ => 1
  | .str s => s.length + 2
  | .arr [] => 1
  | .arr (x :: xs) => costItems (x :: xs) + 1
  | .obj [] => 1
  | .obj (kv :: kvs) => costMembers (kv :: kvs) + 1

/-- Fuel amount sufficient for `parseArrItems` on the remaining items. -/
def costItems : List Json → Nat
  | [] => 0
  | x :: xs => max (costVal x) (costItems xs) + 1

/-- Fuel amount sufficient for `parseObjPairs` on the remaining members. -/
def costMembers : List (Str × Json) → Nat
  | [] => 0
  | (k, v) :: kvs => max (k.length + 2) (max (costVal v) (costMembers kvs)) + 1

end

theorem costVal_pos (j : Json) : 1 ≤ costVal j := by
  cases j with
  | arr xs => cases xs <;> simp [costVal]
  | obj kvs =>
    cases kvs with
    | nil => simp [costVal]
    | cons kv t => simp [costVal]
  | _ => simp [costVal]

theorem jsonListWfB_mem {xs : List Json} (h : jsonListWfB xs = true) :
    ∀ y ∈ xs, jsonWfB y = true := by
  induction xs with
  | nil => intro y hy; simp at hy
  | cons x t ih =>
    rw [show jsonListWfB (x :: t) = (jsonWfB x && jsonListWfB t) from rfl,
      Bool.and_eq_true] at h
    intro y hy
    rcases List.mem_cons.1 hy with rfl | hy2
    · exact h.1
    · exact ih h.2 y hy2

theorem jsonKvsWfB_mem {kvs : List (Str × Json)} (h : jsonKvsWfB kvs = true) :
    ∀ p ∈ kvs, jsonWfB p.2 = true := by
  induction kvs with
  | nil => intro p hp; simp at hp
  | cons kv t ih =>
    obtain ⟨k, v⟩ := kv
    rw [show jsonKvsWfB ((k, v) :: t) = (jsonWfB v && jsonKvsWfB t) from rfl,
      Bool.and_eq_true] at h
    intro p hp
    rcases List.mem_cons.1 hp with rfl | hp2
    · exact h.1
    · exact ih h.2 p hp2

theorem sizeOf_mem_arr {xs : List Json} {y : Json} (hy : y ∈ xs) :
    sizeOf y < sizeOf (Json.arr xs) := by
  have h1 : sizeOf y < sizeOf xs := List.sizeOf_lt_of_mem hy
  simp only [Json.arr.sizeOf_spec]
  omega

theorem sizeOf_mem_obj {kvs : List (Str × Json)} {p : Str × Json} (hp : p ∈ kvs) :
    sizeOf p.2 < sizeOf (Json.obj kvs) := by
  have h1 : sizeOf p < sizeOf kvs := List.sizeOf_lt_of_mem hp
  obtain ⟨k, v⟩ := p
  simp only [Prod.mk.sizeOf_spec] at h1
  simp only [Json.obj.sizeOf_spec]
  omega

theorem parseVal_digit (f : Nat) (s : Str) (c : Char) (t : Str)
    (hs : s.dropWhile jsonWsChar = c :: t) (hc : isDigitChar c = true) :
    parseVal (f + 1) s = parseNum false (c :: t) := by
  simp only [parseVal]
  rw [hs]
  split
  · rename_i heq
    injection heq with e1 e2
    exact absurd e1 (digit_ne_char hc _ (by decide))
  · rename_i heq
    injection heq with e1 e2
    exact absurd e1 (digit_ne_char hc _ (by decide))
  · rename_i heq
    injection heq with e1 e2
    exact absurd e1 (digit_ne_char hc _ (by decide))
  · rename_i heq
    injection heq with e1 e2
    exact absurd e1 (digit_ne_char hc _ (by decide))
  · rename_i heq
    injection heq with e1 e2
    exact absurd e1 (digit_ne_char hc _ (by decide))
  · rename_i heq
    injection heq with e1 e2
    exact absurd e1 (digit_ne_char hc _ (by decide))
  · rename_i heq
    injection heq with e1 e2
    exact absurd e1 (digit_ne_char hc _ (by decide))
  · rename_i heq
    injection heq with e1 e2
    exact absurd e1 (digit_ne_char hc _ (by decide))
  · rename_i heq
    injection heq with e1 e2
    exact absurd e1 (digit_ne_char hc _ (by decide))
  · rename_i heq
    injection heq with e1 e2
    subst e1
    subst e2
    rw [if_pos hc]
  · rename_i heq
    exact absurd heq (by simp)

theorem parseArrItems_dump (lvl : Nat) :
    ∀ (xs : List Json) (x : Json) (acc : List Json) (s rest : Str) (fuel : Nat),
    (∀ y ∈ x :: xs, ∀ (s2 rest2 : Str) (fuel2 : Nat),
        s2.dropWhile jsonWsChar = dumpVal (lvl + 1) y ++ rest2 → delimOk rest2 →
        costVal y ≤ fuel2 → parseVal fuel2 s2 = .ok (y, rest2)) →
    s.dropWhile jsonWsChar = dumpVal (lvl + 1) x
      ++ (dumpItems (lvl + 1) xs ++ '\n' :: (indentChars lvl ++ ']' :: rest)) →
    costItems (x :: xs) ≤ fuel →
    parseArrItems fuel s acc = .ok (.arr (acc ++ x :: xs), rest) := by
  intro xs
  induction xs with
  | nil =>
    intro x acc s rest fuel H hs hf
    rw [show costItems (x :: ([] : List Json)) = max (costVal x) (costItems []) + 1
      from rfl] at hf
    cases fuel with
    | zero => omega
    | succ f =>
      have hmax : max (costVal x) (costItems []) ≤ f := by omega
      have hcx : costVal x ≤ f := le_trans (Nat.le_max_left _ _) hmax
      rw [show dumpItems (lvl + 1) [] ++ '\n' :: (indentChars lvl ++ ']' :: rest)
          = '\n' :: (indentChars lvl ++ ']' :: rest) from rfl] at hs
      have hv := H x (List.mem_cons_self x []) s ('\n' :: (indentChars lvl ++ ']' :: rest)) f
        hs (delimOk_cons _ _ (by decide)) hcx
      simp only [parseArrItems]
      rw [hv]
      simp only []
      have hT : ('\n' :: (indentChars lvl ++ ']' :: rest)).dropWhile jsonWsChar
          = ']' :: rest := by
        rw [dropWhile_ws_indent]
        exact dropWhile_ws_cons_of_neg ']' rest (by decide)
      rw [hT]
      exact rfl
  | cons y ys ih =>
    intro x acc s rest fuel H hs hf
    rw [show costItems (x :: y :: ys) = max (costVal x) (costItems (y :: ys)) + 1
      from rfl] at hf
    cases fuel with
    | zero => omega
    | succ f =>
      have hmax : max (costVal x) (costItems (y :: ys)) ≤ f := by omega
      have hcx : costVal x ≤ f := le_trans (Nat.le_max_left _ _) hmax
      have hcy : costItems (y :: ys) ≤ f := le_trans (Nat.le_max_right _ _) hmax
      have hT : dumpItems (lvl + 1) (y :: ys) ++ '\n' :: (indentChars lvl ++ ']' :: rest)
          = ',' :: '\n' :: (indentChars (lvl + 1) ++ (dumpVal (lvl + 1) y
            ++ (dumpItems (lvl + 1) ys ++ '\n' :: (indentChars lvl ++ ']' :: rest)))) := by
        simp [dumpItems, List.cons_append, List.append_assoc]
      rw [hT] at hs
      have hv := H x (List.mem_cons_self x _) s
        (',' :: '\n' :: (indentChars (lvl + 1) ++ (dumpVal (lvl + 1) y
          ++ (dumpItems (lvl + 1) ys ++ '\n' :: (indentChars lvl ++ ']' :: rest))))) f
        hs (delimOk_cons _ _ (by decide)) hcx
      simp only [parseArrItems]
      rw [hv]
      simp only []
      have hT2 : (',' :: '\n' :: (indentChars (lvl + 1) ++ (dumpVal (lvl + 1) y
          ++ (dumpItems (lvl + 1) ys ++ '\n' :: (indentChars lvl ++ ']' :: rest))))).dropWhile
            jsonWsChar
          = ',' :: ('\n' :: (indentChars (lvl + 1) ++ (dumpVal (lvl + 1) y
            ++ (dumpItems (lvl + 1) ys ++ '\n' :: (indentChars lvl ++ ']' :: rest))))) :=
        dropWhile_ws_cons_of_neg ',' _ (by decide)
      rw [hT2]
      have hR : ('\n' :: (indentChars (lvl + 1) ++ (dumpVal (lvl + 1) y
          ++ (dumpItems (lvl + 1) ys ++ '\n' :: (indentChars lvl ++ ']' :: rest))))).dropWhile
            jsonWsChar
          = dumpVal (lvl + 1) y
            ++ (dumpItems (lvl + 1) ys ++ '\n' :: (indentChars lvl ++ ']' :: rest)) := by
        rw [dropWhile_ws_indent]
        exact dropWhile_ws_dumpVal (lvl + 1) y _
      exact (ih y (acc ++ [x]) _ rest f
        (fun z hz => H z (List.mem_cons_of_mem x hz)) hR hcy).trans
        (by simp [List.append_assoc])

theorem distinct_middle {alpha : Type} (acc : List (Str × alpha)) (k : Str) (v : alpha)
    (kvs : List (Str × alpha)) (h : distinctKeysB (acc ++ (k, v) :: kvs) = true) :
    lookupD k acc = none := by
  induction acc with
  | nil => rfl
  | cons p acc2 ih =>
    obtain ⟨k2, v2⟩ := p
    rw [List.cons_append] at h
    rw [show distinctKeysB ((k2, v2) :: (acc2 ++ (k, v) :: kvs))
        = ((lookupD k2 (acc2 ++ (k, v) :: kvs)).isNone
          && distinctKeysB (acc2 ++ (k, v) :: kvs)) from rfl,
      Bool.and_eq_true] at h
    have hne : k ≠ k2 := by
      intro he
      subst he
      have hk : k ∈ keysD (acc2 ++ (k, v) :: kvs) := by
        unfold keysD
        rw [List.map_append]
        exact List.mem_append_right _ (by simp)
      have h1 := h.1
      rw [Option.isNone_iff_eq_none, lookupD_eq_none_iff] at h1
      exact h1 hk
    rw [show lookupD k ((k2, v2) :: acc2)
        = if k = k2 then some v2 else lookupD k acc2 from rfl, if_neg hne]
    exact ih h.2

theorem dropWhile_ws_dumpStr (k X : Str) :
    (dumpStr k ++ X).dropWhile jsonWsChar = dumpStr k ++ X := by
  rw [dumpStr_append]
  exact dropWhile_ws_cons_of_neg '"' _ (by decide)

theorem parseObjPairs_dump (lvl : Nat) :
    ∀ (kvs : List (Str × Json)) (k : Str) (v : Json) (acc : List (Str × Json))
      (s rest : Str) (fuel : Nat),
    (∀ p ∈ (k, v) :: kvs, ∀ (s2 rest2 : Str) (fuel2 : Nat),
        s2.dropWhile jsonWsChar = dumpVal (lvl + 1) p.2 ++ rest2 → delimOk rest2 →
        costVal p.2 ≤ fuel2 → parseVal fuel2 s2 = .ok (p.2, rest2)) →
    s.dropWhile jsonWsChar = dumpStr k ++ ':' :: ' ' :: (dumpVal (lvl + 1) v
      ++ (dumpMembers (lvl + 1) kvs ++ '\n' :: (indentChars lvl ++ '}' :: rest))) →
    distinctKeysB (acc ++ (k, v) :: kvs) = true →
    costMembers ((k, v) :: kvs) ≤ fuel →
    parseObjPairs fuel s acc = .ok (.obj (acc ++ (k, v) :: kvs), rest) := by
  intro kvs
  induction kvs with
  | nil =>
    intro k v acc s rest fuel H hs hd hf
    rw [show costMembers ((k, v) :: ([] : List (Str × Json)))
        = max (k.length + 2) (max (costVal v) (costMembers [])) + 1 from rfl] at hf
    cases fuel with
    | zero => omega
    | succ f =>
      have hmax : max (k.length + 2) (max (costVal v) (costMembers [])) ≤ f := by omega
      have hklen : k.length < f := by
        have := le_trans (Nat.le_max_left _ _) hmax
        omega
      have hcv : costVal v ≤ f :=
        le_trans (le_trans (Nat.le_max_left _ _) (Nat.le_max_right _ _)) hmax
      rw [show dumpMembers (lvl + 1) ([] : List (Str × Json))
          ++ '\n' :: (indentChars lvl ++ '}' :: rest)
          = '\n' :: (indentChars lvl ++ '}' :: rest) from rfl] at hs
      rw [dumpStr_append] at hs
      simp only [parseObjPairs]
      rw [hs]
      simp only []
      have hpb := parseStrBody_dump k f []
        (':' :: ' ' :: (dumpVal (lvl + 1) v
          ++ '\n' :: (indentChars lvl ++ '}' :: rest))) hklen
      simp only [List.reverse_nil, List.nil_append] at hpb
      rw [hpb]
      simp only []
      rw [dropWhile_ws_cons_of_neg ':' _ (by decide)]
      simp only []
      have hdw : ((' ' :: (dumpVal (lvl + 1) v
          ++ '\n' :: (indentChars lvl ++ '}' :: rest))) : Str).dropWhile jsonWsChar
          = dumpVal (lvl + 1) v ++ '\n' :: (indentChars lvl ++ '}' :: rest) := by
        rw [List.dropWhile_cons]
        simp only [show jsonWsChar ' ' = true from rfl, if_true]
        exact dropWhile_ws_dumpVal (lvl + 1) v _
      have hv : parseVal f (' ' :: (dumpVal (lvl + 1) v
          ++ '\n' :: (indentChars lvl ++ '}' :: rest)))
          = .ok (v, '\n' :: (indentChars lvl ++ '}' :: rest)) :=
        H (k, v) (List.mem_cons_self _ _) _ _ f hdw
          (delimOk_cons '\n' _ (by decide)) hcv
      rw [hv]
      simp only []
      rw [show ('\n' :: (indentChars lvl ++ '}' :: rest)).dropWhile jsonWsChar
          = '}' :: rest from by
        rw [dropWhile_ws_indent]
        exact dropWhile_ws_cons_of_neg '}' rest (by decide)]
      simp only []
      rw [setD_append k v acc (distinct_middle acc k v [] hd)]
  | cons p2 kvs2 ih =>
    intro k v acc s rest fuel H hs hd hf
    obtain ⟨k2, v2⟩ := p2
    rw [show costMembers ((k, v) :: (k2, v2) :: kvs2)
        = max (k.length + 2) (max (costVal v) (costMembers ((k2, v2) :: kvs2))) + 1
        from rfl] at hf
    cases fuel with
    | zero => omega
    | succ f =>
      have hmax : max (k.length + 2)
          (max (costVal v) (costMembers ((k2, v2) :: kvs2))) ≤ f := by omega
      have hklen : k.length < f := by
        have := le_trans (Nat.le_max_left _ _) hmax
        omega
      have hcv : costVal v ≤ f :=
        le_trans (le_trans (Nat.le_max_left _ _) (Nat.le_max_right _ _)) hmax
      have hck : costMembers ((k2, v2) :: kvs2) ≤ f :=
        le_trans (le_trans (Nat.le_max_right _ _) (Nat.le_max_right _ _)) hmax
      have hT : dumpMembers (lvl + 1) ((k2, v2) :: kvs2)
          ++ '\n' :: (indentChars lvl ++ '}' :: rest)
          = ',' :: '\n' :: (indentChars (lvl + 1) ++ (dumpStr k2 ++ ':' :: ' '
            :: (dumpVal (lvl + 1) v2 ++ (dumpMembers (lvl + 1) kvs2
              ++ '\n' :: (indentChars lvl ++ '}' :: rest))))) := by
        simp [dumpMembers, List.cons_append, List.append_assoc]
      rw [hT] at hs
      rw [dumpStr_append] at hs
      simp only [parseObjPairs]
      rw [hs]
      simp only []
      have hpb := parseStrBody_dump k f []
        (':' :: ' ' :: (dumpVal (lvl + 1) v
          ++ (',' :: '\n' :: (indentChars (lvl + 1) ++ (dumpStr k2 ++ ':' :: ' '
            :: (dumpVal (lvl + 1) v2 ++ (dumpMembers (lvl + 1) kvs2
              ++ '\n' :: (indentChars lvl ++ '}' :: rest)))))))) hklen
      simp only [List.reverse_nil, List.nil_append] at hpb
      rw [hpb]
      simp only []
      rw [dropWhile_ws_cons_of_neg ':' _ (by decide)]
      simp only []
      have hdw : ((' ' :: (dumpVal (lvl + 1) v
          ++ (',' :: '\n' :: (indentChars (lvl + 1) ++ (dumpStr k2 ++ ':' :: ' '
            :: (dumpVal (lvl + 1) v2 ++ (dumpMembers (lvl + 1) kvs2
              ++ '\n' :: (indentChars lvl ++ '}' :: rest)))))))) : Str).dropWhile jsonWsChar
          = dumpVal (lvl + 1) v
            ++ (',' :: '\n' :: (indentChars (lvl + 1) ++ (dumpStr k2 ++ ':' :: ' '
              :: (dumpVal (lvl + 1) v2 ++ (dumpMembers (lvl + 1) kvs2
                ++ '\n' :: (indentChars lvl ++ '}' :: rest)))))) := by
        rw [List.dropWhile_cons]
        simp only [show jsonWsChar ' ' = true from rfl, if_true]
        exact dropWhile_ws_dumpVal (lvl + 1) v _
      have hv : parseVal f (' ' :: (dumpVal (lvl + 1) v
          ++ (',' :: '\n' :: (indentChars (lvl + 1) ++ (dumpStr k2 ++ ':' :: ' '
            :: (dumpVal (lvl + 1) v2 ++ (dumpMembers (lvl + 1) kvs2
              ++ '\n' :: (indentChars lvl ++ '}' :: rest))))))))
          = .ok (v, ',' :: '\n' :: (indentChars (lvl + 1) ++ (dumpStr k2 ++ ':' :: ' '
            :: (dumpVal (lvl + 1) v2 ++ (dumpMembers (lvl + 1) kvs2
              ++ '\n' :: (indentChars lvl ++ '}' :: rest)))))) :=
        H (k, v) (List.mem_cons_self _ _) _ _ f hdw
          (delimOk_cons ',' _ (by decide)) hcv
      rw [hv]
      simp only []
      rw [dropWhile_ws_cons_of_neg ',' _ (by decide)]
      simp only []
      rw [setD_append k v acc (distinct_middle acc k v _ hd)]
      have hR : (('\n' :: (indentChars (lvl + 1) ++ (dumpStr k2 ++ ':' :: ' '
          :: (dumpVal (lvl + 1) v2 ++ (dumpMembers (lvl + 1) kvs2
            ++ '\n' :: (indentChars lvl ++ '}' :: rest)))))) : Str).dropWhile jsonWsChar
          = dumpStr k2 ++ ':' :: ' ' :: (dumpVal (lvl + 1) v2 ++ (dumpMembers (lvl + 1) kvs2
            ++ '\n' :: (indentChars lvl ++ '}' :: rest))) := by
        rw [dropWhile_ws_indent]
        exact dropWhile_ws_dumpStr k2 _
      have hd2 : distinctKeysB ((acc ++ [(k, v)]) ++ (k2, v2) :: kvs2) = true := by
        simpa [List.append_assoc] using hd
      exact (ih k2 v2 (acc ++ [(k, v)]) _ rest f
        (fun p hp => H p (List.mem_cons_of_mem _ hp)) hR hd2 hck).trans
        (by simp [List.append_assoc])

theorem parseVal_dump : ∀ (N : Nat) (j : Json), sizeOf j ≤ N → jsonWfB j = true →
    ∀ (lvl : Nat) (s rest : Str) (fuel : Nat),
    s.dropWhile jsonWsChar = dumpVal lvl j ++ rest → delimOk rest → costVal j ≤ fuel →
    parseVal fuel s = .ok (j, rest) := by
  intro N
  induction N with
  | zero =>
    intro j hsz
    exfalso
    cases j <;> simp at hsz
  | succ N ih =>
    intro j hsz hwf lvl s rest fuel hs hrest hfuel
    cases fuel with
    | zero =>
      exfalso
      have := costVal_pos j
      omega
    | succ f =>
      cases j with
      | null =>
        rw [show dumpVal lvl Json.null ++ rest
          = 'n' :: 'u' :: 'l' :: 'l' :: rest from rfl] at hs
        simp only [parseVal]
        rw [hs]
        exact rfl
      | bool b =>
        cases b with
        | true =>
          rw [show dumpVal lvl (Json.bool true) ++ rest
            = 't' :: 'r' :: 'u' :: 'e' :: rest from rfl] at hs
          simp only [parseVal]
          rw [hs]
          exact rfl
        | false =>
          rw [show dumpVal lvl (Json.bool false) ++ rest
            = 'f' :: 'a' :: 'l' :: 's' :: 'e' :: rest from rfl] at hs
          simp only [parseVal]
          rw [hs]
          exact rfl
      | int n =>
        by_cases hneg : n < 0
        · rw [show dumpVal lvl (Json.int n) = intDigits n from rfl,
            show intDigits n = '-' :: natDigits (-n).toNat from by
              unfold intDigits
              rw [if_pos hneg],
            List.cons_append] at hs
          simp only [parseVal]
          rw [hs]
          simp only []
          have hlw : leadsWith ['I', 'n', 'f', 'i', 'n', 'i', 't', 'y']
              (natDigits (-n).toNat ++ rest) = false := by
            cases hd : natDigits (-n).toNat with
            | nil => exact absurd hd (natDigits_ne_nil _)
            | cons c t =>
              have hdig : isDigitChar c = true :=
                natDigits_all_digits _ c (by rw [hd]; exact List.mem_cons_self _ _)
              rw [List.cons_append]
              rw [show leadsWith ['I', 'n', 'f', 'i', 'n', 'i', 't', 'y'] (c :: (t ++ rest))
                  = (decide ('I' = c) && leadsWith ['n', 'f', 'i', 'n', 'i', 't', 'y']
                    (t ++ rest)) from rfl]
              rw [decide_eq_false (Ne.symm (digit_ne_char hdig 'I' (by decide)))]
              rw [Bool.false_and]
          rw [hlw]
          simp only [Bool.false_eq_true, if_false]
          rw [parseNum_natDigits _ true rest hrest]
          have he : -(((-n).toNat : Int)) = n := by omega
          rw [he]
          rfl
        · rw [show dumpVal lvl (Json.int n) = intDigits n from rfl,
            show intDigits n = natDigits n.toNat from by
              unfold intDigits
              rw [if_neg hneg]] at hs
          cases hd : natDigits n.toNat with
          | nil => exact absurd hd (natDigits_ne_nil _)
          | cons c t =>
            rw [hd, List.cons_append] at hs
            have hdig : isDigitChar c = true :=
              natDigits_all_digits _ c (by rw [hd]; exact List.mem_cons_self _ _)
            rw [parseVal_digit f s c (t ++ rest) hs hdig]
            rw [show (c :: (t ++ rest) : Str) = natDigits n.toNat ++ rest from by
              rw [hd]
              rfl]
            rw [parseNum_natDigits _ false rest hrest]
            have he : ((n.toNat : Int)) = n := by omega
            rw [he]
            rfl
      | str s0 =>
        rw [show dumpVal lvl (Json.str s0) = dumpStr s0 from rfl, dumpStr_append] at hs
        simp only [parseVal]
        rw [hs]
        simp only []
        have hlen : s0.length < f := by
          rw [show costVal (Json.str s0) = s0.length + 2 from rfl] at hfuel
          omega
        have hpb := parseStrBody_dump s0 f [] rest hlen
        simp only [List.reverse_nil, List.nil_append] at hpb
        rw [hpb]
      | arr xs =>
        cases xs with
        | nil =>
          rw [show dumpVal lvl (Json.arr []) ++ rest = '[' :: ']' :: rest from rfl] at hs
          simp only [parseVal]
          rw [hs]
          exact rfl
        | cons x xs2 =>
          rw [show jsonWfB (Json.arr (x :: xs2)) = jsonListWfB (x :: xs2) from rfl] at hwf
          rw [show costVal (Json.arr (x :: xs2)) = costItems (x :: xs2) + 1 from rfl] at hfuel
          rw [show dumpVal lvl (Json.arr (x :: xs2)) ++ rest
              = '[' :: ('\n' :: (indentChars (lvl + 1) ++ (dumpVal (lvl + 1) x
                ++ (dumpItems (lvl + 1) xs2 ++ '\n' :: (indentChars lvl ++ ']' :: rest)))))
              from by
            simp [dumpVal, List.cons_append, List.append_assoc]] at hs
          simp only [parseVal]
          rw [hs]
          simp only []
          obtain ⟨c, t, hct, hcws, hcne⟩ := dumpVal_head (lvl + 1) x
          have hscr : (('\n' :: (indentChars (lvl + 1) ++ (dumpVal (lvl + 1) x
              ++ (dumpItems (lvl + 1) xs2 ++ '\n' :: (indentChars lvl
                ++ ']' :: rest))))) : Str).dropWhile jsonWsChar
              = c :: (t ++ (dumpItems (lvl + 1) xs2 ++ '\n' :: (indentChars lvl
                ++ ']' :: rest))) := by
            rw [dropWhile_ws_indent, hct, List.cons_append]
            exact dropWhile_ws_cons_of_neg c _ hcws
          rw [hscr]
          have hsx : (c :: (t ++ (dumpItems (lvl + 1) xs2 ++ '\n' :: (indentChars lvl
              ++ ']' :: rest))) : Str).dropWhile jsonWsChar
              = dumpVal (lvl + 1) x ++ (dumpItems (lvl + 1) xs2
                ++ '\n' :: (indentChars lvl ++ ']' :: rest)) := by
            rw [dropWhile_ws_cons_of_neg c _ hcws, hct, List.cons_append]
          have harr := parseArrItems_dump lvl xs2 x [] _ rest f
            (fun y hy s2 rest2 fuel2 h1 h2 h3 => by
              refine ih y ?_ (jsonListWfB_mem hwf y hy) (lvl + 1) s2 rest2 fuel2 h1 h2 h3
              have h4 := sizeOf_mem_arr hy
              omega)
            hsx (by omega)
          split
          · rename_i rest2 heq
            injection heq with e1 e2
            exact absurd e1 hcne
          · exact harr.trans (by simp)
      | obj kvs =>
        cases kvs with
        | nil =>
          rw [show dumpVal lvl (Json.obj []) ++ rest = '{' :: '}' :: rest from rfl] at hs
          simp only [parseVal]
          rw [hs]
          exact rfl
        | cons p kvs2 =>
          obtain ⟨k, v⟩ := p
          rw [show jsonWfB (Json.obj ((k, v) :: kvs2))
              = (distinctKeysB ((k, v) :: kvs2) && jsonKvsWfB ((k, v) :: kvs2)) from rfl,
            Bool.and_eq_true] at hwf
          rw [show costVal (Json.obj ((k, v) :: kvs2))
            = costMembers ((k, v) :: kvs2) + 1 from rfl] at hfuel
          rw [show dumpVal lvl (Json.obj ((k, v) :: kvs2)) ++ rest
              = '{' :: ('\n' :: (indentChars (lvl + 1) ++ (dumpStr k ++ ':' :: ' '
                :: (dumpVal (lvl + 1) v ++ (dumpMembers (lvl + 1) kvs2
                  ++ '\n' :: (indentChars lvl ++ '}' :: rest))))))
              from by
            simp [dumpVal, List.cons_append, List.append_assoc]] at hs
          simp only [parseVal]
          rw [hs]
          simp only []
          have hscr : (('\n' :: (indentChars (lvl + 1) ++ (dumpStr k ++ ':' :: ' '
              :: (dumpVal (lvl + 1) v ++ (dumpMembers (lvl + 1) kvs2
                ++ '\n' :: (indentChars lvl ++ '}' :: rest)))))) : Str).dropWhile jsonWsChar
              = '"' :: ((k.map jsonEscapeChar).flatten ++ '"' :: (':' :: ' '
                :: (dumpVal (lvl + 1) v ++ (dumpMembers (lvl + 1) kvs2
                  ++ '\n' :: (indentChars lvl ++ '}' :: rest))))) := by
            rw [dropWhile_ws_indent, dropWhile_ws_dumpStr, dumpStr_append]
          rw [hscr]
          refine Eq.trans ?_ ((parseObjPairs_dump lvl kvs2 k v [] ('"'
            :: ((k.map jsonEscapeChar).flatten ++ '"' :: (':' :: ' '
              :: (dumpVal (lvl + 1) v ++ (dumpMembers (lvl + 1) kvs2
                ++ '\n' :: (indentChars lvl ++ '}' :: rest)))))) rest f
            (fun p hp s2 rest2 fuel2 h1 h2 h3 => by
              refine ih p.2 ?_ (jsonKvsWfB_mem hwf.2 p hp) (lvl + 1) s2 rest2 fuel2 h1 h2 h3
              have h4 := sizeOf_mem_obj hp
              omega)
            (by
              rw [dropWhile_ws_cons_of_neg '"' _ (by decide), ← dumpStr_append])
            (by simpa using hwf.1)
            (by omega)).trans (by simp))
          exact rfl

theorem costItems_le (lvl : Nat) : ∀ xs : List Json,
    (∀ y ∈ xs, costVal y ≤ (dumpVal lvl y).length + 1) →
    costItems xs ≤ (dumpItems lvl xs).length + 1 := by
  intro xs
  induction xs with
  | nil =>
    intro h
    simp [costItems]
  | cons x t ih =>
    intro h
    have hx := h x (List.mem_cons_self _ _)
    have ht := ih (fun y hy => h y (List.mem_cons_of_mem _ hy))
    rw [show costItems (x :: t) = max (costVal x) (costItems t) + 1 from rfl]
    have hlen : (dumpItems lvl (x :: t)).length
        = 2 * lvl + (dumpVal lvl x).length + (dumpItems lvl t).length + 2 := by
      simp only [dumpItems, List.length_cons, List.length_append, indentChars,
        List.length_replicate, List.length_nil] <;> omega
    omega

theorem costMembers_le (lvl : Nat) : ∀ kvs : List (Str × Json),
    (∀ p ∈ kvs, costVal p.2 ≤ (dumpVal lvl p.2).length + 1) →
    costMembers kvs ≤ (dumpMembers lvl kvs).length + 1 := by
  intro kvs
  induction kvs with
  | nil =>
    intro h
    simp [costMembers]
  | cons p t ih =>
    intro h
    obtain ⟨k, v⟩ := p
    have hv : costVal v ≤ (dumpVal lvl v).length + 1 := h (k, v) (List.mem_cons_self _ _)
    have ht := ih (fun q hq => h q (List.mem_cons_of_mem _ hq))
    have hk := length_le_escaped k
    rw [show costMembers ((k, v) :: t)
      = max (k.length + 2) (max (costVal v) (costMembers t)) + 1 from rfl]
    have hlen : (dumpMembers lvl ((k, v) :: t)).length
        = 2 * lvl + ((k.map jsonEscapeChar).flatten).length + 2
          + (dumpVal lvl v).length + (dumpMembers lvl t).length + 4 := by
      simp only [dumpMembers, dumpStr, List.length_cons, List.length_append, indentChars,
        List.length_replicate, List.length_nil] <;> omega
    omega

theorem costVal_le : ∀ (N : Nat) (j : Json), sizeOf j ≤ N →
    ∀ lvl, costVal j ≤ (dumpVal lvl j).length + 1 := by
  intro N
  induction N with
  | zero =>
    intro j hsz
    exfalso
    cases j <;> simp at hsz
  | succ N ih =>
    intro j hsz lvl
    cases j with
    | null => simp [costVal, dumpVal]
    | bool b => cases b <;> simp [costVal, dumpVal]
    | int n =>
      simp only [costVal]
      omega
    | str s0 =>
      have h := length_le_escaped s0
      simp only [costVal, dumpVal, dumpStr, List.length_cons, List.length_append]
      omega
    | arr xs =>
      cases xs with
      | nil => simp [costVal, dumpVal]
      | cons x t =>
        have hi := costItems_le (lvl + 1) (x :: t)
          (fun y hy => ih y (by have := sizeOf_mem_arr hy; omega) (lvl + 1))
        rw [show costVal (Json.arr (x :: t)) = costItems (x :: t) + 1 from rfl]
        have hlen : (dumpVal lvl (Json.arr (x :: t))).length
            = 2 * (lvl + 1) + (dumpVal (lvl + 1) x).length + (dumpItems (lvl + 1) t).length
              + 2 * lvl + 4 := by
          simp only [dumpVal, List.length_cons, List.length_append, indentChars,
            List.length_replicate, List.length_nil] <;> omega
        have hlen2 : (dumpItems (lvl + 1) (x :: t)).length
            = 2 * (lvl + 1) + (dumpVal (lvl + 1) x).length + (dumpItems (lvl + 1) t).length
              + 2 := by
          simp only [dumpItems, List.length_cons, List.length_append, indentChars,
            List.length_replicate, List.length_nil] <;> omega
        omega
    | obj kvs =>
      cases kvs with
      | nil => simp [costVal, dumpVal]
      | cons p t =>
        obtain ⟨k, v⟩ := p
        have hi := costMembers_le (lvl + 1) ((k, v) :: t)
          (fun q hq => ih q.2 (by have := sizeOf_mem_obj hq; omega) (lvl + 1))
        rw [show costVal (Json.obj ((k, v) :: t)) = costMembers ((k, v) :: t) + 1 from rfl]
        have hlen : (dumpVal lvl (Json.obj ((k, v) :: t))).length
            = 2 * (lvl + 1) + ((k.map jsonEscapeChar).flatten).length + 2
              + (dumpVal (lvl + 1) v).length + (dumpMembers (lvl + 1) t).length
              + 2 * lvl + 6 := by
          simp only [dumpVal, dumpStr, List.length_cons, List.length_append, indentChars,
            List.length_replicate, List.length_nil] <;> omega
        have hlen2 : (dumpMembers (lvl + 1) ((k, v) :: t)).length
            = 2 * (lvl + 1) + ((k.map jsonEscapeChar).flatten).length + 2
              + (dumpVal (lvl + 1) v).length + (dumpMembers (lvl + 1) t).length + 4 := by
          simp only [dumpMembers, dumpStr, List.length_cons, List.length_append, indentChars,
            List.length_replicate, List.length_nil] <;> omega
        omega

/-- Parsing inverts serialization: `json.loads` applied to the exact text
`json.dump(..., indent=2)` wrote for a well-formed value returns that
value. -/
theorem jsonLoads_dump (j : Json) (hwf : jsonWfB j = true) :
    jsonLoads (jsonDump j) = .ok j := by
  have hp : parseVal ((jsonDump j).length + 1) (jsonDump j) = .ok (j, []) := by
    refine parseVal_dump (sizeOf j) j le_rfl hwf 0 (jsonDump j) [] _ ?_ delimOk_nil ?_
    · have h0 := dropWhile_ws_dumpVal 0 j []
      rw [List.append_nil] at h0
      rw [List.append_nil]
      exact h0
    · exact costVal_le (sizeOf j) j le_rfl 0
  simp only [jsonLoads]
  rw [hp]
  rfl

theorem jsonKvsWfB_setD (k : Str) (v : Json) (l : List (Str × Json))
    (hv : jsonWfB v = true) (hl : jsonKvsWfB l = true) :
    jsonKvsWfB (setD k v l) = true := by
  induction l with
  | nil =>
    show jsonKvsWfB [(k, v)] = true
    simp [jsonKvsWfB, hv]
  | cons p rest ih =>
    obtain ⟨k2, w⟩ := p
    rw [show jsonKvsWfB ((k2, w) :: rest) = (jsonWfB w && jsonKvsWfB rest) from rfl,
      Bool.and_eq_true] at hl
    rw [show setD k v ((k2, w) :: rest)
      = if k = k2 then (k, v) :: rest else (k2, w) :: setD k v rest from rfl]
    by_cases he : k = k2
    · rw [if_pos he]
      rw [show jsonKvsWfB ((k, v) :: rest) = (jsonWfB v && jsonKvsWfB rest) from rfl]
      simp [hv, hl.2]
    · rw [if_neg he]
      rw [show jsonKvsWfB ((k2, w) :: setD k v rest)
        = (jsonWfB w && jsonKvsWfB (setD k v rest)) from rfl]
      simp [hl.1, ih hl.2]

theorem jsonListWfB_append (l l2 : List Json)
    (h : jsonListWfB l = true) (h2 : jsonListWfB l2 = true) :
    jsonListWfB (l ++ l2) = true := by
  induction l with
  | nil => simpa using h2
  | cons x rest ih =>
    rw [show jsonListWfB (x :: rest) = (jsonWfB x && jsonListWfB rest) from rfl,
      Bool.and_eq_true] at h
    rw [List.cons_append,
      show jsonListWfB (x :: (rest ++ l2)) = (jsonWfB x && jsonListWfB (rest ++ l2)) from rfl]
    simp [h.1, ih h.2]

theorem parseNum_int (neg : Bool) (s : Str) (j : Json) (r : Str)
    (h : parseNum neg s = .ok (j, r)) : ∃ n : Int, j = .int n := by
  unfold parseNum at h
  dsimp only at h
  by_cases h1 : (List.takeWhile isDigitChar s).isEmpty = true
  · rw [if_pos h1] at h
    exact absurd h (by simp)
  · rw [if_neg h1] at h
    by_cases h2 : (List.takeWhile isDigitChar s).head? = some '0'
        ∧ (List.takeWhile isDigitChar s).length > 1
    · rw [if_pos h2] at h
      exact absurd h (by simp)
    · rw [if_neg h2] at h
      cases hd : List.dropWhile isDigitChar s with
      | nil =>
        rw [hd] at h
        simp only [] at h
        injection h with h1a
        injection h1a with h2a h3a
        exact ⟨_, h2a.symm⟩
      | cons c tail =>
        rw [hd] at h
        simp only [] at h
        by_cases h3 : c = '.' ∨ c = 'e' ∨ c = 'E'
        · rw [if_pos h3] at h
          exact absurd h (by simp)
        · rw [if_neg h3] at h
          injection h with h1a
          injection h1a with h2a h3a
          exact ⟨_, h2a.symm⟩

theorem parse_wf : ∀ fuel : Nat,
    (∀ s j r, parseVal fuel s = .ok (j, r) → jsonWfB j = true)
    ∧ (∀ s acc j r, distinctKeysB acc = true → jsonKvsWfB acc = true →
        parseObjPairs fuel s acc = .ok (j, r) → jsonWfB j = true)
    ∧ (∀ s acc j r, jsonListWfB acc = true →
        parseArrItems fuel s acc = .ok (j, r) → jsonWfB j = true) := by
  intro fuel
  induction fuel with
  | zero =>
    refine ⟨fun s j r h => absurd h (by simp [parseVal]),
      fun s acc j r _ _ h => absurd h (by simp [parseObjPairs]),
      fun s acc j r _ h => absurd h (by simp [parseArrItems])⟩
  | succ f ih =>
    obtain ⟨ihV, ihO, ihA⟩ := ih
    refine ⟨?_, ?_, ?_⟩
    · intro s j r h
      simp only [parseVal] at h
      split at h
      · split at h
        · injection h with h1
          injection h1 with h2 h3
          subst h2
          rfl
        · exact ihO _ [] j r rfl rfl h
      · split at h
        · injection h with h1
          injection h1 with h2 h3
          subst h2
          rfl
        · exact ihA _ [] j r rfl h
      · split at h
        · injection h with h1
          injection h1 with h2 h3
          subst h2
          rfl
        · exact absurd h (by simp)
      · split at h
        · injection h with h1
          injection h1 with h2 h3
          subst h2
          rfl
        · exact absurd h (by simp)
      · split at h
        · injection h with h1
          injection h1 with h2 h3
          subst h2
          rfl
        · exact absurd h (by simp)
      · split at h
        · injection h with h1
          injection h1 with h2 h3
          subst h2
          rfl
        · exact absurd h (by simp)
      · split at h
        · exact absurd h (by simp)
        · exact absurd h (by simp)
      · split at h
        · exact absurd h (by simp)
        · exact absurd h (by simp)
      · split at h
        · exact absurd h (by simp)
        · obtain ⟨n, hn⟩ := parseNum_int _ _ _ _ h
          subst hn
          rfl
      · split at h
        · obtain ⟨n, hn⟩ := parseNum_int _ _ _ _ h
          subst hn
          rfl
        · exact absurd h (by simp)
      · exact absurd h (by simp)
    · intro s acc j r hda hwa h
      simp only [parseObjPairs] at h
      split at h
      · split at h
        · exact absurd h (by simp)
        · split at h
          · split at h
            · exact absurd h (by simp)
            · rename_i hpv
              have hv := ihV _ _ _ hpv
              split at h
              · exact ihO _ _ j r (distinctKeysB_setD _ _ _ hda)
                  (jsonKvsWfB_setD _ _ _ hv hwa) h
              · injection h with h1
                injection h1 with h2 h3
                subst h2
                rw [show jsonWfB (Json.obj (setD _ _ acc))
                  = (distinctKeysB (setD _ _ acc) && jsonKvsWfB (setD _ _ acc)) from rfl]
                simp [distinctKeysB_setD _ _ _ hda, jsonKvsWfB_setD _ _ _ hv hwa]
              · exact absurd h (by simp)
          · exact absurd h (by simp)
      · exact absurd h (by simp)
    · intro s acc j r hwa h
      simp only [parseArrItems] at h
      split at h
      · exact absurd h (by simp)
      · rename_i v r1 hpv
        have hv := ihV _ _ _ hpv
        have hwa2 : jsonListWfB (acc ++ [v]) = true :=
          jsonListWfB_append acc [v] hwa (by simp [jsonListWfB, hv])
        split at h
        · exact ihA _ _ j r hwa2 h
        · injection h with h1
          injection h1 with h2 h3
          subst h2
          exact hwa2
        · exact absurd h (by simp)

theorem jsonLoads_wf (s : Str) (j : Json) (h : jsonLoads s = .ok j) :
    jsonWfB j = true := by
  simp only [jsonLoads] at h
  split at h
  · exact absurd h (by simp)
  · rename_i j0 rest hpv
    split at h
    · injection h with h1
      subst h1
      exact (parse_wf _).1 _ _ _ hpv
    · exact absurd h (by simp)

end Roundtrip

section MergeFacts

variable {alpha : Type}

theorem lookupD_mem {k : Str} {v : alpha} : ∀ {l : List (Str × alpha)},
    lookupD k l = some v → (k, v) ∈ l := by
  intro l
  induction l with
  | nil => intro h; simp [lookupD] at h
  | cons p rest ih =>
    intro h
    obtain ⟨k2, w⟩ := p
    rw [show lookupD k ((k2, w) :: rest) = if k = k2 then some w else lookupD k rest
      from rfl] at h
    by_cases he : k = k2
    · rw [if_pos he] at h
      injection h with h1
      subst h1
      subst he
      exact List.mem_cons_self _ _
    · rw [if_neg he] at h
      exact List.mem_cons_of_mem _ (ih h)

theorem lookupD_of_mem_distinct {k : Str} {v : alpha} : ∀ {l : List (Str × alpha)},
    distinctKeysB l = true → (k, v) ∈ l → lookupD k l = some v := by
  intro l
  induction l with
  | nil => intro _ h; simp at h
  | cons p rest ih =>
    intro hd hm
    obtain ⟨k2, w⟩ := p
    rw [show distinctKeysB ((k2, w) :: rest)
      = ((lookupD k2 rest).isNone && distinctKeysB rest) from rfl, Bool.and_eq_true] at hd
    rcases List.mem_cons.1 hm with he | hm2
    · injection he with h1 h2
      subst h1
      subst h2
      simp [lookupD]
    · have hne : k ≠ k2 := by
        intro hkk
        subst hkk
        have h1 := hd.1
        rw [Option.isNone_iff_eq_none, lookupD_eq_none_iff] at h1
        exact h1 (by
          unfold keysD
          exact List.mem_map_of_mem Prod.fst hm2)
      rw [show lookupD k ((k2, w) :: rest) = if k = k2 then some w else lookupD k rest
        from rfl, if_neg hne]
      exact ih hd.2 hm2

theorem lookup_value_wf {kvs : List (Str × Json)} {k : Str} {v : Json}
    (hw : jsonKvsWfB kvs = true) (hl : lookupD k kvs = some v) : jsonWfB v = true :=
  jsonKvsWfB_mem hw (k, v) (lookupD_mem hl)

theorem pyKvsSub_of_forall : ∀ (ys xs : List (Str × Json)),
    (∀ p ∈ ys, ∃ w, lookupD p.1 xs = some w ∧ pyJsonEq p.2 w = true) →
    pyKvsSub ys xs = true := by
  intro ys xs
  induction ys with
  | nil => intro _; rfl
  | cons p rest ih =>
    intro h
    obtain ⟨k, v⟩ := p
    obtain ⟨w, hl, hq⟩ := h (k, v) (List.mem_cons_self _ _)
    rw [show pyKvsSub ((k, v) :: rest) xs
      = ((match lookupD k xs with
          | some w => pyJsonEq v w
          | none => false) && pyKvsSub rest xs) from rfl]
    rw [hl]
    simp only [hq, Bool.true_and]
    exact ih (fun q hq2 => h q (List.mem_cons_of_mem _ hq2))

theorem pyJsonEq_refl : ∀ (N : Nat) (j : Json), sizeOf j ≤ N → jsonWfB j = true →
    pyJsonEq j j = true := by
  intro N
  induction N with
  | zero =>
    intro j hsz
    exfalso
    cases j <;> simp at hsz
  | succ N ih =>
    intro j hsz hwf
    cases j with
    | null => rfl
    | bool b => simp [pyJsonEq]
    | int n => simp [pyJsonEq]
    | str s => simp [pyJsonEq]
    | arr xs =>
      rw [show pyJsonEq (Json.arr xs) (Json.arr xs) = pyListEq xs xs from rfl]
      rw [show jsonWfB (Json.arr xs) = jsonListWfB xs from rfl] at hwf
      have hlt : ∀ y ∈ xs, sizeOf y ≤ N := by
        intro y hy
        have := sizeOf_mem_arr hy
        omega
      clear hsz
      induction xs with
      | nil => rfl
      | cons x t iht =>
        rw [show jsonListWfB (x :: t) = (jsonWfB x && jsonListWfB t) from rfl,
          Bool.and_eq_true] at hwf
        rw [show pyListEq (x :: t) (x :: t) = (pyJsonEq x x && pyListEq t t) from rfl]
        rw [ih x (hlt x (List.mem_cons_self _ _)) hwf.1]
        rw [iht hwf.2 (fun y hy => hlt y (List.mem_cons_of_mem _ hy))]
        rfl
    | obj kvs =>
      rw [show pyJsonEq (Json.obj kvs) (Json.obj kvs)
        = (decide (kvs.length = kvs.length) && pyKvsSub kvs kvs) from rfl]
      rw [show jsonWfB (Json.obj kvs) = (distinctKeysB kvs && jsonKvsWfB kvs) from rfl,
        Bool.and_eq_true] at hwf
      rw [pyKvsSub_of_forall kvs kvs (fun p hp => by
        refine ⟨p.2, ?_, ?_⟩
        · exact lookupD_of_mem_distinct hwf.1 (by
            obtain ⟨k, v⟩ := p
            exact hp)
        · refine ih p.2 ?_ (jsonKvsWfB_mem hwf.2 p hp)
          have := sizeOf_mem_obj hp
          omega)]
      simp

theorem mergeLoop_lookup_frame (k : Str) : ∀ (t e : List (Str × Json)) (a u : Nat),
    (∀ p ∈ t, p.1 ≠ k) → lookupD k (mergeLoop t e a u).1 = lookupD k e := by
  intro t
  induction t with
  | nil => intro e a u _; rfl
  | cons p rest ih =>
    intro e a u h
    obtain ⟨n, cfg⟩ := p
    have hn : n ≠ k := h (n, cfg) (List.mem_cons_self _ _)
    have hrest : ∀ q ∈ rest, q.1 ≠ k := fun q hq => h q (List.mem_cons_of_mem _ hq)
    cases hl : lookupD n e with
    | none =>
      rw [show mergeLoop ((n, cfg) :: rest) e a u
        = mergeLoop rest (setD n cfg e) (a + 1) u from by
          simp only [mergeLoop, hl]]
      rw [ih _ _ _ hrest, lookupD_setD_other n k cfg e (fun he => hn he.symm)]
    | some old =>
      by_cases hq : pyJsonEq old cfg = true
      · rw [show mergeLoop ((n, cfg) :: rest) e a u = mergeLoop rest e a u from by
          simp only [mergeLoop, hl, if_pos hq]]
        exact ih _ _ _ hrest
      · rw [show mergeLoop ((n, cfg) :: rest) e a u
          = mergeLoop rest (setD n cfg e) a (u + 1) from by
            simp only [mergeLoop, hl, if_neg hq]]
        rw [ih _ _ _ hrest, lookupD_setD_other n k cfg e (fun he => hn he.symm)]

theorem mergeLoop_lookup_mem : ∀ (t e : List (Str × Json)) (a u : Nat),
    distinctKeysB t = true → jsonKvsWfB t = true →
    ∀ p ∈ t, ∃ w, lookupD p.1 (mergeLoop t e a u).1 = some w ∧ pyJsonEq w p.2 = true := by
  intro t
  induction t with
  | nil => intro e a u _ _ p hp; simp at hp
  | cons q rest ih =>
    intro e a u hd hw p hp
    obtain ⟨n, cfg⟩ := q
    rw [show distinctKeysB ((n, cfg) :: rest)
      = ((lookupD n rest).isNone && distinctKeysB rest) from rfl, Bool.and_eq_true] at hd
    rw [show jsonKvsWfB ((n, cfg) :: rest) = (jsonWfB cfg && jsonKvsWfB rest) from rfl,
      Bool.and_eq_true] at hw
    have hnotin : ∀ q2 ∈ rest, q2.1 ≠ n := by
      intro q2 hq2 he
      have h1 := hd.1
      rw [Option.isNone_iff_eq_none, lookupD_eq_none_iff] at h1
      exact h1 (by
        unfold keysD
        rw [← he]
        exact List.mem_map_of_mem Prod.fst hq2)
    rcases List.mem_cons.1 hp with he | hp2
    · subst he
      show ∃ w, lookupD n (mergeLoop ((n, cfg) :: rest) e a u).1 = some w
        ∧ pyJsonEq w cfg = true
      cases hl : lookupD n e with
      | none =>
        rw [show mergeLoop ((n, cfg) :: rest) e a u
          = mergeLoop rest (setD n cfg e) (a + 1) u from by
            simp only [mergeLoop, hl]]
        refine ⟨cfg, ?_, pyJsonEq_refl (sizeOf cfg) cfg le_rfl hw.1⟩
        rw [mergeLoop_lookup_frame n rest _ _ _ hnotin]
        exact lookupD_setD_self _ _ _
      | some old =>
        by_cases hq : pyJsonEq old cfg = true
        · rw [show mergeLoop ((n, cfg) :: rest) e a u = mergeLoop rest e a u from by
            simp only [mergeLoop, hl, if_pos hq]]
          refine ⟨old, ?_, hq⟩
          rw [mergeLoop_lookup_frame n rest _ _ _ hnotin]
          exact hl
        · rw [show mergeLoop ((n, cfg) :: rest) e a u
            = mergeLoop rest (setD n cfg e) a (u + 1) from by
              simp only [mergeLoop, hl, if_neg hq]]
          refine ⟨cfg, ?_, pyJsonEq_refl (sizeOf cfg) cfg le_rfl hw.1⟩
          rw [mergeLoop_lookup_frame n rest _ _ _ hnotin]
          exact lookupD_setD_self _ _ _
    · cases hl : lookupD n e with
      | none =>
        rw [show mergeLoop ((n, cfg) :: rest) e a u
          = mergeLoop rest (setD n cfg e) (a + 1) u from by
            simp only [mergeLoop, hl]]
        exact ih _ _ _ hd.2 hw.2 p hp2
      | some old =>
        by_cases hq : pyJsonEq old cfg = true
        · rw [show mergeLoop ((n, cfg) :: rest) e a u = mergeLoop rest e a u from by
            simp only [mergeLoop, hl, if_pos hq]]
          exact ih _ _ _ hd.2 hw.2 p hp2
        · rw [show mergeLoop ((n, cfg) :: rest) e a u
            = mergeLoop rest (setD n cfg e) a (u + 1) from by
              simp only [mergeLoop, hl, if_neg hq]]
          exact ih _ _ _ hd.2 hw.2 p hp2

theorem mergeLoop_keys_super (k : Str) : ∀ (t e : List (Str × Json)) (a u : Nat),
    k ∈ keysD e → k ∈ keysD (mergeLoop t e a u).1 := by
  intro t
  induction t with
  | nil => intro e a u h; exact h
  | cons q rest ih =>
    intro e a u h
    obtain ⟨n, cfg⟩ := q
    cases hl : lookupD n e with
    | none =>
      rw [show mergeLoop ((n, cfg) :: rest) e a u
        = mergeLoop rest (setD n cfg e) (a + 1) u from by
          simp only [mergeLoop, hl]]
      refine ih _ _ _ ?_
      by_cases hm : n ∈ keysD e
      · rw [keysD_setD_mem n cfg e hm]
        exact h
      · rw [keysD_setD_new n cfg e ((lookupD_eq_none_iff n e).2 hm)]
        exact List.mem_append_left _ h
    | some old =>
      by_cases hq : pyJsonEq old cfg = true
      · rw [show mergeLoop ((n, cfg) :: rest) e a u = mergeLoop rest e a u from by
          simp only [mergeLoop, hl, if_pos hq]]
        exact ih _ _ _ h
      · rw [show mergeLoop ((n, cfg) :: rest) e a u
          = mergeLoop rest (setD n cfg e) a (u + 1) from by
            simp only [mergeLoop, hl, if_neg hq]]
        refine ih _ _ _ ?_
        by_cases hm : n ∈ keysD e
        · rw [keysD_setD_mem n cfg e hm]
          exact h
        · rw [keysD_setD_new n cfg e ((lookupD_eq_none_iff n e).2 hm)]
          exact List.mem_append_left _ h

theorem mergeLoop_keys_cases (k : Str) : ∀ (t e : List (Str × Json)) (a u : Nat),
    k ∈ keysD (mergeLoop t e a u).1 → k ∈ keysD e ∨ k ∈ keysD t := by
  intro t
  induction t with
  | nil => intro e a u h; exact Or.inl h
  | cons q rest ih =>
    intro e a u h
    obtain ⟨n, cfg⟩ := q
    have step : ∀ e2 a2 u2, k ∈ keysD (mergeLoop rest e2 a2 u2).1 →
        keysD e2 = keysD e ∨ (n ∉ keysD e ∧ keysD e2 = keysD e ++ [n]) →
        k ∈ keysD e ∨ k ∈ keysD ((n, cfg) :: rest) := by
      intro e2 a2 u2 h2 hke
      rcases ih e2 a2 u2 h2 with hme | hmr
      · rcases hke with hsame | ⟨hnotin, happ⟩
        · rw [hsame] at hme
          exact Or.inl hme
        · rw [happ] at hme
          rcases List.mem_append.1 hme with h3 | h3
          · exact Or.inl h3
          · simp only [List.mem_singleton] at h3
            subst h3
            refine Or.inr ?_
            unfold keysD
            simp
      · refine Or.inr ?_
        unfold keysD at hmr ⊢
        simp only [List.map_cons]
        exact List.mem_cons_of_mem _ hmr
    cases hl : lookupD n e with
    | none =>
      rw [show mergeLoop ((n, cfg) :: rest) e a u
        = mergeLoop rest (setD n cfg e) (a + 1) u from by
          simp only [mergeLoop, hl]] at h
      have hnm : n ∉ keysD e := (lookupD_eq_none_iff n e).1 hl
      exact step _ _ _ h (Or.inr ⟨hnm, keysD_setD_new n cfg e hl⟩)
    | some old =>
      have hnm : n ∈ keysD e := by
        rw [← lookupD_isSome_iff]
        simp [hl]
      by_cases hq : pyJsonEq old cfg = true
      · rw [show mergeLoop ((n, cfg) :: rest) e a u = mergeLoop rest e a u from by
          simp only [mergeLoop, hl, if_pos hq]] at h
        exact step _ _ _ h (Or.inl rfl)
      · rw [show mergeLoop ((n, cfg) :: rest) e a u
          = mergeLoop rest (setD n cfg e) a (u + 1) from by
            simp only [mergeLoop, hl, if_neg hq]] at h
        exact step _ _ _ h (Or.inl (keysD_setD_mem n cfg e hnm))

theorem mergeLoop_distinct : ∀ (t e : List (Str × Json)) (a u : Nat),
    distinctKeysB e = true → distinctKeysB (mergeLoop t e a u).1 = true := by
  intro t
  induction t with
  | nil => intro e a u h; exact h
  | cons q rest ih =>
    intro e a u h
    obtain ⟨n, cfg⟩ := q
    cases hl : lookupD n e with
    | none =>
      rw [show mergeLoop ((n, cfg) :: rest) e a u
        = mergeLoop rest (setD n cfg e) (a + 1) u from by
          simp only [mergeLoop, hl]]
      exact ih _ _ _ (distinctKeysB_setD _ _ _ h)
    | some old =>
      by_cases hq : pyJsonEq old cfg = true
      · rw [show mergeLoop ((n, cfg) :: rest) e a u = mergeLoop rest e a u from by
          simp only [mergeLoop, hl, if_pos hq]]
        exact ih _ _ _ h
      · rw [show mergeLoop ((n, cfg) :: rest) e a u
          = mergeLoop rest (setD n cfg e) a (u + 1) from by
            simp only [mergeLoop, hl, if_neg hq]]
        exact ih _ _ _ (distinctKeysB_setD _ _ _ h)

theorem mergeLoop_kvswf : ∀ (t e : List (Str × Json)) (a u : Nat),
    jsonKvsWfB e = true → jsonKvsWfB t = true →
    jsonKvsWfB (mergeLoop t e a u).1 = true := by
  intro t
  induction t with
  | nil => intro e a u h _; exact h
  | cons q rest ih =>
    intro e a u h hw
    obtain ⟨n, cfg⟩ := q
    rw [show jsonKvsWfB ((n, cfg) :: rest) = (jsonWfB cfg && jsonKvsWfB rest) from rfl,
      Bool.and_eq_true] at hw
    cases hl : lookupD n e with
    | none =>
      rw [show mergeLoop ((n, cfg) :: rest) e a u
        = mergeLoop rest (setD n cfg e) (a + 1) u from by
          simp only [mergeLoop, hl]]
      exact ih _ _ _ (jsonKvsWfB_setD _ _ _ hw.1 h) hw.2
    | some old =>
      by_cases hq : pyJsonEq old cfg = true
      · rw [show mergeLoop ((n, cfg) :: rest) e a u = mergeLoop rest e a u from by
          simp only [mergeLoop, hl, if_pos hq]]
        exact ih _ _ _ h hw.2
      · rw [show mergeLoop ((n, cfg) :: rest) e a u
          = mergeLoop rest (setD n cfg e) a (u + 1) from by
            simp only [mergeLoop, hl, if_neg hq]]
        exact ih _ _ _ (jsonKvsWfB_setD _ _ _ hw.1 h) hw.2

theorem jsonKvsWfB_filter (P : Str × Json → Bool) : ∀ (l : List (Str × Json)),
    jsonKvsWfB l = true → jsonKvsWfB (l.filter P) = true := by
  intro l
  induction l with
  | nil => intro _; rfl
  | cons p rest ih =>
    intro h
    obtain ⟨k, v⟩ := p
    rw [show jsonKvsWfB ((k, v) :: rest) = (jsonWfB v && jsonKvsWfB rest) from rfl,
      Bool.and_eq_true] at h
    rw [List.filter_cons]
    by_cases hp : P (k, v) = true
    · rw [if_pos hp]
      rw [show jsonKvsWfB ((k, v) :: rest.filter P)
        = (jsonWfB v && jsonKvsWfB (rest.filter P)) from rfl]
      simp [h.1, ih h.2]
    · rw [if_neg hp]
      exact ih h.2

theorem lookupD_filter (P : Str × alpha → Bool) (k : Str) (w : alpha) :
    ∀ (l : List (Str × alpha)), distinctKeysB l = true →
    lookupD k l = some w → P (k, w) = true →
    lookupD k (l.filter P) = some w := by
  intro l
  induction l with
  | nil => intro _ h _; simp [lookupD] at h
  | cons p rest ih =>
    intro hd hl hp
    obtain ⟨k2, v2⟩ := p
    rw [show distinctKeysB ((k2, v2) :: rest)
      = ((lookupD k2 rest).isNone && distinctKeysB rest) from rfl, Bool.and_eq_true] at hd
    rw [List.filter_cons]
    rw [show lookupD k ((k2, v2) :: rest) = if k = k2 then some v2 else lookupD k rest
      from rfl] at hl
    by_cases he : k = k2
    · rw [if_pos he] at hl
      injection hl with h1
      subst h1
      subst he
      rw [if_pos hp]
      simp [lookupD]
    · rw [if_neg he] at hl
      by_cases hp2 : P (k2, v2) = true
      · rw [if_pos hp2]
        rw [show lookupD k ((k2, v2) :: rest.filter P)
          = if k = k2 then some v2 else lookupD k (rest.filter P) from rfl, if_neg he]
        exact ih hd.2 hl hp
      · rw [if_neg hp2]
        exact ih hd.2 hl hp

theorem keysD_filter_mem {P : Str × alpha → Bool} {k : Str} :
    ∀ {l : List (Str × alpha)}, k ∈ keysD (l.filter P) →
    ∃ v, (k, v) ∈ l ∧ P (k, v) = true := by
  intro l
  induction l with
  | nil => intro h; simp [keysD] at h
  | cons p rest ih =>
    intro h
    obtain ⟨k2, v2⟩ := p
    rw [List.filter_cons] at h
    by_cases hp : P (k2, v2) = true
    · rw [if_pos hp] at h
      unfold keysD at h
      rw [List.map_cons] at h
      rcases List.mem_cons.1 h with he | h2
      · subst he
        exact ⟨v2, List.mem_cons_self _ _, hp⟩
      · obtain ⟨v, hm, hpv⟩ := ih h2
        exact ⟨v, List.mem_cons_of_mem _ hm, hpv⟩
    · rw [if_neg hp] at h
      obtain ⟨v, hm, hpv⟩ := ih h
      exact ⟨v, List.mem_cons_of_mem _ hm, hpv⟩

theorem jsonDump_ne_nil (j : Json) : jsonDump j ≠ [] := by
  obtain ⟨c, t, he, -, -⟩ := dumpVal_head 0 j
  show dumpVal 0 j ≠ []
  rw [he]
  simp

theorem jsonDump_isEmpty (j : Json) : (jsonDump j).isEmpty = false := by
  cases hd : jsonDump j with
  | nil => exact absurd hd (jsonDump_ne_nil j)
  | cons c t => rfl

theorem settingsOf_wf (prior : Option Str) (s : Json) (h : settingsOf prior = .ok s) :
    jsonWfB s = true := by
  cases prior with
  | none =>
    injection h with h1
    subst h1
    rfl
  | some content =>
    simp only [settingsOf] at h
    split at h
    · injection h with h1
      subst h1
      rfl
    · split at h
      · rename_i j hload
        injection h with h1
        subst h1
        exact jsonLoads_wf _ _ hload
      · injection h with h1
        subst h1
        rfl
      · exact absurd h (by simp)

theorem updateConfigData_run2 (kvs0 M2 : List (Str × Json)) (t : List (Str × Json))
    (key : Str) (prune : Bool)
    (hd0 : distinctKeysB kvs0 = true) (hw0 : jsonKvsWfB kvs0 = true)
    (hdm2 : distinctKeysB M2 = true) (hwm2 : jsonKvsWfB M2 = true)
    (hlkm2 : ∀ p ∈ t, ∃ w, lookupD p.1 M2 = some w ∧ pyJsonEq w p.2 = true)
    (hkeys2 : prune = true → ∀ k ∈ keysD M2, (lookupD k t).isSome = true) :
    updateConfigData (some (jsonDump (.obj (setD key (.obj M2) kvs0)))) t key prune
      = .ok (jsonDump (.obj (setD key (.obj M2) kvs0)), ⟨0, 0, 0⟩) := by
  have hd1 : distinctKeysB (setD key (.obj M2) kvs0) = true :=
    distinctKeysB_setD _ _ _ hd0
  have hw1 : jsonKvsWfB (setD key (.obj M2) kvs0) = true :=
    jsonKvsWfB_setD _ _ _ (by
      rw [show jsonWfB (Json.obj M2) = (distinctKeysB M2 && jsonKvsWfB M2) from rfl]
      simp [hdm2, hwm2]) hw0
  have hwfobj : jsonWfB (.obj (setD key (.obj M2) kvs0)) = true := by
    rw [show jsonWfB (Json.obj (setD key (.obj M2) kvs0))
      = (distinctKeysB (setD key (.obj M2) kvs0)
        && jsonKvsWfB (setD key (.obj M2) kvs0)) from rfl]
    simp [hd1, hw1]
  simp only [updateConfigData, settingsOf, jsonDump_isEmpty, Bool.false_eq_true, if_false,
    jsonLoads_dump _ hwfobj]
  simp only [updateFromSettings, lookupD_setD_self]
  have hnc : mergeLoop t M2 0 0 = (M2, 0, 0) :=
    mergeLoop_no_change t M2 0 0 (fun p hp => hlkm2 p hp)
  rw [hnc]
  cases prune with
  | false =>
    simp only [Bool.false_eq_true, if_false]
    rw [setD_of_lookup_eq key (Json.obj M2) (setD key (Json.obj M2) kvs0)
      (lookupD_setD_self key (Json.obj M2) kvs0)]
  | true =>
    have hpn : pruneNames M2 t = [] := by
      unfold pruneNames
      rw [List.filter_eq_nil_iff]
      intro n hn
      have hs := hkeys2 rfl n hn
      simp only [Option.isNone_iff_eq_none]
      intro hnone
      rw [hnone] at hs
      exact absurd hs (by simp)
    simp only [if_true, hpn]
    rw [show applyDels ([] : List Str) M2 = M2 from rfl]
    rw [setD_of_lookup_eq key (Json.obj M2) (setD key (Json.obj M2) kvs0)
      (lookupD_setD_self key (Json.obj M2) kvs0)]
    rfl

theorem updateConfigData_run2_nonobj (kvs0 : List (Str × Json)) (v : Json) (key : Str)
    (prune : Bool)
    (hd0 : distinctKeysB kvs0 = true) (hw0 : jsonKvsWfB kvs0 = true)
    (hv : jsonWfB v = true)
    (hshape : prune = true → (v = .str [] ∨ v = .arr []))
    (hnotobj : ∀ m, v ≠ .obj m) :
    updateConfigData (some (jsonDump (.obj (setD key v kvs0)))) [] key prune
      = .ok (jsonDump (.obj (setD key v kvs0)), ⟨0, 0, 0⟩) := by
  have hd1 : distinctKeysB (setD key v kvs0) = true := distinctKeysB_setD _ _ _ hd0
  have hw1 : jsonKvsWfB (setD key v kvs0) = true := jsonKvsWfB_setD _ _ _ hv hw0
  have hwfobj : jsonWfB (.obj (setD key v kvs0)) = true := by
    rw [show jsonWfB (Json.obj (setD key v kvs0))
      = (distinctKeysB (setD key v kvs0) && jsonKvsWfB (setD key v kvs0)) from rfl]
    simp [hd1, hw1]
  simp only [updateConfigData, settingsOf, jsonDump_isEmpty, Bool.false_eq_true, if_false,
    jsonLoads_dump _ hwfobj]
  simp only [updateFromSettings, lookupD_setD_self]
  cases prune with
  | false =>
    cases v with
    | obj m => exact absurd rfl (hnotobj m)
    | null =>
      simp only [List.isEmpty_nil, if_true, Bool.false_eq_true, if_false]
      rw [setD_of_lookup_eq key _ _ (lookupD_setD_self _ _ _)]
    | bool b =>
      simp only [List.isEmpty_nil, if_true, Bool.false_eq_true, if_false]
      rw [setD_of_lookup_eq key _ _ (lookupD_setD_self _ _ _)]
    | int n =>
      simp only [List.isEmpty_nil, if_true, Bool.false_eq_true, if_false]
      rw [setD_of_lookup_eq key _ _ (lookupD_setD_self _ _ _)]
    | str s =>
      simp only [List.isEmpty_nil, if_true, Bool.false_eq_true, if_false]
      rw [setD_of_lookup_eq key _ _ (lookupD_setD_self _ _ _)]
    | arr xs =>
      simp only [List.isEmpty_nil, if_true, Bool.false_eq_true, if_false]
      rw [setD_of_lookup_eq key _ _ (lookupD_setD_self _ _ _)]
  | true =>
    rcases hshape rfl with he | he <;> subst he
    · simp only [List.isEmpty_nil, if_true]
      rw [setD_of_lookup_eq key _ _ (lookupD_setD_self _ _ _)]
    · simp only [List.isEmpty_nil, if_true]
      rw [setD_of_lookup_eq key _ _ (lookupD_setD_self _ _ _)]

theorem updateFromSettings_idem (settings : Json) (t : List (Str × Json)) (key : Str)
    (prune : Bool) (out1 : Str) (c1 : Counts)
    (hws : jsonWfB settings = true)
    (hdt : distinctKeysB t = true) (hwt : jsonKvsWfB t = true)
    (h1 : updateFromSettings settings t key prune = .ok (out1, c1)) :
    updateConfigData (some out1) t key prune = .ok (out1, ⟨0, 0, 0⟩) := by
  cases settings with
  | obj kvs0 =>
    rw [show jsonWfB (Json.obj kvs0) = (distinctKeysB kvs0 && jsonKvsWfB kvs0) from rfl,
      Bool.and_eq_true] at hws
    simp only [updateFromSettings] at h1
    have main : ∀ existing : List (Str × Json),
        distinctKeysB existing = true → jsonKvsWfB existing = true →
        (match mergeLoop t existing 0 0 with
          | (merged, a, u) =>
            match (if prune then
                (applyDels (pruneNames merged t) merged, (pruneNames merged t).length)
              else (merged, 0)) with
            | (merged2, r) =>
              (Except.ok (jsonDump (.obj (setD key (.obj merged2) kvs0)),
                (⟨a, u, r⟩ : Counts)) : Except PyErr (Str × Counts))) = .ok (out1, c1) →
        updateConfigData (some out1) t key prune = .ok (out1, ⟨0, 0, 0⟩) := by
      intro existing hde hwe h2
      rcases hmg : mergeLoop t existing 0 0 with ⟨M, A, U⟩
      rw [hmg] at h2
      simp only [] at h2
      have hdm : distinctKeysB M = true := by
        have := mergeLoop_distinct t existing 0 0 hde
        rw [hmg] at this
        exact this
      have hwm : jsonKvsWfB M = true := by
        have := mergeLoop_kvswf t existing 0 0 hwe hwt
        rw [hmg] at this
        exact this
      have hlkm : ∀ p ∈ t, ∃ w, lookupD p.1 M = some w ∧ pyJsonEq w p.2 = true := by
        intro p hp
        have := mergeLoop_lookup_mem t existing 0 0 hdt hwt p hp
        rw [hmg] at this
        exact this
      cases prune with
      | false =>
        simp only [Bool.false_eq_true, if_false] at h2
        injection h2 with h3
        injection h3 with h4 h5
        subst h4
        exact updateConfigData_run2 kvs0 M t key false hws.1 hws.2 hdm hwm hlkm
          (fun habs => absurd habs (by simp))
      | true =>
        simp only [if_true] at h2
        rw [applyDels_pruneNames M t hdm] at h2
        injection h2 with h3
        injection h3 with h4 h5
        subst h4
        have hdm2 : distinctKeysB (M.filter (fun p => (lookupD p.1 t).isSome)) = true :=
          distinctKeysB_filter M _ hdm
        have hwm2 : jsonKvsWfB (M.filter (fun p => (lookupD p.1 t).isSome)) = true :=
          jsonKvsWfB_filter _ M hwm
        have hlkm2 : ∀ p ∈ t, ∃ w,
            lookupD p.1 (M.filter (fun p => (lookupD p.1 t).isSome)) = some w
            ∧ pyJsonEq w p.2 = true := by
          intro p hp
          obtain ⟨w, hl, hq⟩ := hlkm p hp
          refine ⟨w, ?_, hq⟩
          refine lookupD_filter _ _ _ M hdm hl ?_
          have : lookupD p.1 t = some p.2 := lookupD_of_mem_distinct hdt (by
            obtain ⟨k, v⟩ := p
            exact hp)
          simp [this]
        have hkeys2 : ∀ k ∈ keysD (M.filter (fun p => (lookupD p.1 t).isSome)),
            (lookupD k t).isSome = true := by
          intro k hk
          obtain ⟨v, hm, hp⟩ := keysD_filter_mem hk
          exact hp
        exact updateConfigData_run2 kvs0 _ t key true hws.1 hws.2 hdm2 hwm2 hlkm2
          (fun _ => hkeys2)
    cases hlk : lookupD key kvs0 with
    | none =>
      rw [hlk] at h1
      simp only [] at h1
      exact main [] rfl rfl h1
    | some v =>
      rw [hlk] at h1
      cases v with
      | obj existing =>
        simp only [] at h1
        have hwe : jsonWfB (.obj existing) = true := lookup_value_wf hws.2 hlk
        rw [show jsonWfB (Json.obj existing)
          = (distinctKeysB existing && jsonKvsWfB existing) from rfl,
          Bool.and_eq_true] at hwe
        exact main existing hwe.1 hwe.2 h1
      | null =>
        simp only [] at h1
        split at h1
        · rename_i hte
          rw [List.isEmpty_iff] at hte
          subst hte
          split at h1
          · exact absurd h1 (by simp)
          · injection h1 with h3
            injection h3 with h4 h5
            subst h4
            refine updateConfigData_run2_nonobj kvs0 .null key prune hws.1 hws.2
              (lookup_value_wf hws.2 hlk) ?_ (fun m h => by simp at h)
            intro hp
            rename_i hprune
            exact absurd hp hprune
        · exact absurd h1 (by simp)
      | bool b =>
        simp only [] at h1
        split at h1
        · rename_i hte
          rw [List.isEmpty_iff] at hte
          subst hte
          split at h1
          · exact absurd h1 (by simp)
          · injection h1 with h3
            injection h3 with h4 h5
            subst h4
            refine updateConfigData_run2_nonobj kvs0 (.bool b) key prune hws.1 hws.2
              (lookup_value_wf hws.2 hlk) ?_ (fun m h => by simp at h)
            intro hp
            rename_i hprune
            exact absurd hp hprune
        · exact absurd h1 (by simp)
      | int n =>
        simp only [] at h1
        split at h1
        · rename_i hte
          rw [List.isEmpty_iff] at hte
          subst hte
          split at h1
          · exact absurd h1 (by simp)
          · injection h1 with h3
            injection h3 with h4 h5
            subst h4
            refine updateConfigData_run2_nonobj kvs0 (.int n) key prune hws.1 hws.2
              (lookup_value_wf hws.2 hlk) ?_ (fun m h => by simp at h)
            intro hp
            rename_i hprune
            exact absurd hp hprune
        · exact absurd h1 (by simp)
      | str s =>
        simp only [] at h1
        split at h1
        · rename_i hte
          rw [List.isEmpty_iff] at hte
          subst hte
          split at h1
          · cases s with
            | nil =>
              injection h1 with h3
              injection h3 with h4 h5
              subst h4
              refine updateConfigData_run2_nonobj kvs0 (.str []) key prune hws.1 hws.2
                (lookup_value_wf hws.2 hlk) (fun _ => Or.inl rfl)
                (fun m h => by simp at h)
            | cons c cs =>
              split at h1
              · rename_i heq
                exact absurd heq (by simp)
              · rename_i heq
                exact absurd heq (by simp)
              · exact absurd h1 (by simp)
          · injection h1 with h3
            injection h3 with h4 h5
            subst h4
            refine updateConfigData_run2_nonobj kvs0 (.str s) key prune hws.1 hws.2
              (lookup_value_wf hws.2 hlk) ?_ (fun m h => by simp at h)
            intro hp
            rename_i hprune
            exact absurd hp hprune
        · exact absurd h1 (by simp)
      | arr xs =>
        simp only [] at h1
        split at h1
        · rename_i hte
          rw [List.isEmpty_iff] at hte
          subst hte
          split at h1
          · cases xs with
            | nil =>
              injection h1 with h3
              injection h3 with h4 h5
              subst h4
              refine updateConfigData_run2_nonobj kvs0 (.arr []) key prune hws.1 hws.2
                (lookup_value_wf hws.2 hlk) (fun _ => Or.inr rfl)
                (fun m h => by simp at h)
            | cons x xs2 =>
              split at h1
              · rename_i heq
                exact absurd heq (by simp)
              · rename_i heq
                exact absurd heq (by simp)
              · exact absurd h1 (by simp)
          · injection h1 with h3
            injection h3 with h4 h5
            subst h4
            refine updateConfigData_run2_nonobj kvs0 (.arr xs) key prune hws.1 hws.2
              (lookup_value_wf hws.2 hlk) ?_ (fun m h => by simp at h)
            intro hp
            rename_i hprune
            exact absurd hp hprune
        · exact absurd h1 (by simp)
  | null => exact absurd h1 (by simp [updateFromSettings])
  | bool b => exact absurd h1 (by simp [updateFromSettings])
  | int n => exact absurd h1 (by simp [updateFromSettings])
  | str s => exact absurd h1 (by simp [updateFromSettings])
  | arr xs => exact absurd h1 (by simp [updateFromSettings])

theorem updateConfigData_idem (prior : Option Str) (t : List (Str × Json)) (key : Str)
    (prune : Bool) (out1 : Str) (c1 : Counts)
    (hdt : distinctKeysB t = true) (hwt : jsonKvsWfB t = true)
    (h1 : updateConfigData prior t key prune = .ok (out1, c1)) :
    updateConfigData (some out1) t key prune = .ok (out1, ⟨0, 0, 0⟩) := by
  simp only [updateConfigData] at h1
  split at h1
  · exact absurd h1 (by simp)
  · rename_i s hset
    exact updateFromSettings_idem s t key prune out1 c1 (settingsOf_wf prior s hset)
      hdt hwt h1

theorem mem_keysD_ex {l : List (Str × alpha)} {k : Str} (h : k ∈ keysD l) :
    ∃ v, (k, v) ∈ l := by
  unfold keysD at h
  obtain ⟨p, hp, he⟩ := List.mem_map.1 h
  obtain ⟨k2, v⟩ := p
  exact ⟨v, by rw [show k = k2 from he.symm]; exact hp⟩

theorem updateFromSettings_out_char (settings : Json) (t : List (Str × Json)) (key : Str)
    (prune : Bool) (out : Str) (c : Counts)
    (hws : jsonWfB settings = true)
    (h1 : updateFromSettings settings t key prune = .ok (out, c)) :
    ∃ kvs0 : List (Str × Json), settings = .obj kvs0 ∧
      ((∃ existing M,
          (lookupD key kvs0 = some (.obj existing) ∨ (lookupD key kvs0 = none ∧ existing = []))
          ∧ mergeLoop t existing 0 0 = (M, c.added, c.updated)
          ∧ out = jsonDump (.obj (setD key
              (.obj (if prune then M.filter (fun p => (lookupD p.1 t).isSome) else M)) kvs0)))
       ∨ (∃ v, lookupD key kvs0 = some v ∧ (∀ m, v ≠ .obj m) ∧ t = []
          ∧ out = jsonDump (.obj (setD key v kvs0)))) := by
  cases settings with
  | obj kvs0 =>
    rw [show jsonWfB (Json.obj kvs0) = (distinctKeysB kvs0 && jsonKvsWfB kvs0) from rfl,
      Bool.and_eq_true] at hws
    refine ⟨kvs0, rfl, ?_⟩
    simp only [updateFromSettings] at h1
    have main : ∀ existing : List (Str × Json),
        (match mergeLoop t existing 0 0 with
          | (merged, a, u) =>
            match (if prune then
                (applyDels (pruneNames merged t) merged, (pruneNames merged t).length)
              else (merged, 0)) with
            | (merged2, r) =>
              (Except.ok (jsonDump (.obj (setD key (.obj merged2) kvs0)),
                (⟨a, u, r⟩ : Counts)) : Except PyErr (Str × Counts))) = .ok (out, c) →
        distinctKeysB existing = true →
        ∃ M, mergeLoop t existing 0 0 = (M, c.added, c.updated)
          ∧ out = jsonDump (.obj (setD key
              (.obj (if prune then M.filter (fun p => (lookupD p.1 t).isSome) else M))
              kvs0)) := by
      intro existing h2 hde
      rcases hmg : mergeLoop t existing 0 0 with ⟨M, A, U⟩
      rw [hmg] at h2
      simp only [] at h2
      have hdm : distinctKeysB M = true := by
        have := mergeLoop_distinct t existing 0 0 hde
        rw [hmg] at this
        exact this
      cases prune with
      | false =>
        simp only [Bool.false_eq_true, if_false] at h2 ⊢
        injection h2 with h3
        injection h3 with h4 h5
        refine ⟨M, ?_, h4.symm⟩
        rw [← h5]
      | true =>
        simp only [if_true] at h2 ⊢
        rw [applyDels_pruneNames M t hdm] at h2
        injection h2 with h3
        injection h3 with h4 h5
        refine ⟨M, ?_, h4.symm⟩
        rw [← h5]
    cases hlk : lookupD key kvs0 with
    | none =>
      rw [hlk] at h1
      simp only [] at h1
      obtain ⟨M, hM, hout⟩ := main [] h1 rfl
      exact Or.inl ⟨[], M, Or.inr ⟨rfl, rfl⟩, hM, hout⟩
    | some v =>
      rw [hlk] at h1
      cases v with
      | obj existing =>
        simp only [] at h1
        have hwe : jsonWfB (.obj existing) = true := lookup_value_wf hws.2 hlk
        rw [show jsonWfB (Json.obj existing)
          = (distinctKeysB existing && jsonKvsWfB existing) from rfl,
          Bool.and_eq_true] at hwe
        obtain ⟨M, hM, hout⟩ := main existing h1 hwe.1
        exact Or.inl ⟨existing, M, Or.inl rfl, hM, hout⟩
      | null =>
        simp only [] at h1
        split at h1
        · rename_i hte
          rw [List.isEmpty_iff] at hte
          split at h1
          · exact absurd h1 (by simp)
          · injection h1 with h3
            injection h3 with h4 h5
            exact Or.inr ⟨.null, rfl, fun m h => by simp at h, hte, h4.symm⟩
        · exact absurd h1 (by simp)
      | bool b =>
        simp only [] at h1
        split at h1
        · rename_i hte
          rw [List.isEmpty_iff] at hte
          split at h1
          · exact absurd h1 (by simp)
          · injection h1 with h3
            injection h3 with h4 h5
            exact Or.inr ⟨.bool b, rfl, fun m h => by simp at h, hte, h4.symm⟩
        · exact absurd h1 (by simp)
      | int n =>
        simp only [] at h1
        split at h1
        · rename_i hte
          rw [List.isEmpty_iff] at hte
          split at h1
          · exact absurd h1 (by simp)
          · injection h1 with h3
            injection h3 with h4 h5
            exact Or.inr ⟨.int n, rfl, fun m h => by simp at h, hte, h4.symm⟩
        · exact absurd h1 (by simp)
      | str s0 =>
        simp only [] at h1
        split at h1
        · rename_i hte
          rw [List.isEmpty_iff] at hte
          split at h1
          · cases s0 with
            | nil =>
              injection h1 with h3
              injection h3 with h4 h5
              exact Or.inr ⟨.str [], rfl, fun m h => by simp at h, hte, h4.symm⟩
            | cons c0 cs =>
              split at h1
              · rename_i heq
                exact absurd heq (by simp)
              · rename_i heq
                exact absurd heq (by simp)
              · exact absurd h1 (by simp)
          · injection h1 with h3
            injection h3 with h4 h5
            exact Or.inr ⟨.str s0, rfl, fun m h => by simp at h, hte, h4.symm⟩
        · exact absurd h1 (by simp)
      | arr xs =>
        simp only [] at h1
        split at h1
        · rename_i hte
          rw [List.isEmpty_iff] at hte
          split at h1
          · cases xs with
            | nil =>
              injection h1 with h3
              injection h3 with h4 h5
              exact Or.inr ⟨.arr [], rfl, fun m h => by simp at h, hte, h4.symm⟩
            | cons x xs2 =>
              split at h1
              · rename_i heq
                exact absurd heq (by simp)
              · rename_i heq
                exact absurd heq (by simp)
              · exact absurd h1 (by simp)
          · injection h1 with h3
            injection h3 with h4 h5
            exact Or.inr ⟨.arr xs, rfl, fun m h => by simp at h, hte, h4.symm⟩
        · exact absurd h1 (by simp)
  | null => exact absurd h1 (by simp [updateFromSettings])
  | bool b => exact absurd h1 (by simp [updateFromSettings])
  | int n => exact absurd h1 (by simp [updateFromSettings])
  | str s => exact absurd h1 (by simp [updateFromSettings])
  | arr xs => exact absurd h1 (by simp [updateFromSettings])

end MergeFacts

/-- The server names stored in a (possibly absent) JSON config file text:
the keys of the mapping under `config_key` of the document that the
`update_config_file` read phase would recover, or `[]` when there is no
such mapping. -/
def storedNames (prior : Option Str) (config_key : Str) : List Str :=
  match settingsOf prior with
  | .ok (.obj kvs) =>
    match lookupD config_key kvs with
    | some (.obj m) => keysD m
    | _ => []
  | _ => []

section NameFacts

theorem storedNames_dump (kvs1 m2 : List (Str × Json)) (key : Str)
    (hwf : jsonWfB (.obj kvs1) = true) (hlk : lookupD key kvs1 = some (.obj m2)) :
    storedNames (some (jsonDump (.obj kvs1))) key = keysD m2 := by
  simp only [storedNames, settingsOf, jsonDump_isEmpty, Bool.false_eq_true, if_false,
    jsonLoads_dump _ hwf, hlk]

theorem storedNames_dump_nonobj (kvs1 : List (Str × Json)) (v : Json) (key : Str)
    (hwf : jsonWfB (.obj kvs1) = true) (hlk : lookupD key kvs1 = some v)
    (hno : ∀ m, v ≠ .obj m) :
    storedNames (some (jsonDump (.obj kvs1))) key = [] := by
  simp only [storedNames, settingsOf, jsonDump_isEmpty, Bool.false_eq_true, if_false,
    jsonLoads_dump _ hwf, hlk]
  cases v with
  | obj m => exact absurd rfl (hno m)
  | null => rfl
  | bool b => rfl
  | int n => rfl
  | str s => rfl
  | arr xs => rfl

theorem setD_obj_wf (key : Str) (m2 kvs0 : List (Str × Json))
    (hd0 : distinctKeysB kvs0 = true) (hw0 : jsonKvsWfB kvs0 = true)
    (hdm : distinctKeysB m2 = true) (hwm : jsonKvsWfB m2 = true) :
    jsonWfB (.obj (setD key (.obj m2) kvs0)) = true := by
  rw [show jsonWfB (Json.obj (setD key (Json.obj m2) kvs0))
    = (distinctKeysB (setD key (Json.obj m2) kvs0)
      && jsonKvsWfB (setD key (Json.obj m2) kvs0)) from rfl]
  have h1 := distinctKeysB_setD key (Json.obj m2) kvs0 hd0
  have h2 := jsonKvsWfB_setD key (Json.obj m2) kvs0 (by
    rw [show jsonWfB (Json.obj m2) = (distinctKeysB m2 && jsonKvsWfB m2) from rfl]
    simp [hdm, hwm]) hw0
  simp [h1, h2]

theorem updateConfigData_prune_exact (prior : Option Str) (t : List (Str × Json))
    (key : Str) (out : Str) (c : Counts)
    (hdt : distinctKeysB t = true) (hwt : jsonKvsWfB t = true)
    (h1 : updateConfigData prior t key true = .ok (out, c)) :
    ∀ n, n ∈ storedNames (some out) key ↔ n ∈ keysD t := by
  simp only [updateConfigData] at h1
  split at h1
  · exact absurd h1 (by simp)
  · rename_i s hset
    have hws := settingsOf_wf prior s hset
    obtain ⟨kvs0, hseq, hcase⟩ := updateFromSettings_out_char s t key true out c hws h1
    subst hseq
    rw [show jsonWfB (Json.obj kvs0) = (distinctKeysB kvs0 && jsonKvsWfB kvs0) from rfl,
      Bool.and_eq_true] at hws
    rcases hcase with ⟨existing, M, hlkd, hM, hout⟩ | ⟨v, hlkv, hno, hte, hout⟩
    · have hde : distinctKeysB existing = true := by
        rcases hlkd with hl | ⟨-, he⟩
        · have := lookup_value_wf hws.2 hl
          rw [show jsonWfB (Json.obj existing)
            = (distinctKeysB existing && jsonKvsWfB existing) from rfl,
            Bool.and_eq_true] at this
          exact this.1
        · subst he
          rfl
      have hwe : jsonKvsWfB existing = true := by
        rcases hlkd with hl | ⟨-, he⟩
        · have := lookup_value_wf hws.2 hl
          rw [show jsonWfB (Json.obj existing)
            = (distinctKeysB existing && jsonKvsWfB existing) from rfl,
            Bool.and_eq_true] at this
          exact this.2
        · subst he
          rfl
      have hdm : distinctKeysB M = true := by
        have := mergeLoop_distinct t existing 0 0 hde
        rw [hM] at this
        exact this
      have hwm : jsonKvsWfB M = true := by
        have := mergeLoop_kvswf t existing 0 0 hwe hwt
        rw [hM] at this
        exact this
      simp only [if_true] at hout
      have hdm2 : distinctKeysB (M.filter (fun p => (lookupD p.1 t).isSome)) = true :=
        distinctKeysB_filter M _ hdm
      have hwm2 : jsonKvsWfB (M.filter (fun p => (lookupD p.1 t).isSome)) = true :=
        jsonKvsWfB_filter _ M hwm
      rw [hout, storedNames_dump _ (M.filter (fun p => (lookupD p.1 t).isSome)) key
        (setD_obj_wf key _ kvs0 hws.1 hws.2 hdm2 hwm2) (lookupD_setD_self _ _ _)]
      intro n
      constructor
      · intro hn
        obtain ⟨v, hmem, hp⟩ := keysD_filter_mem hn
        rw [← lookupD_isSome_iff]
        exact hp
      · intro hn
        obtain ⟨v, hmem⟩ := mem_keysD_ex hn
        have hlm := mergeLoop_lookup_mem t existing 0 0 hdt hwt (n, v) hmem
        rw [hM] at hlm
        obtain ⟨w, hlw, -⟩ := hlm
        rw [← lookupD_isSome_iff]
        rw [lookupD_filter _ n w M hdm hlw (by
          rw [show ((n, w) : Str × Json).1 = n from rfl]
          rw [← lookupD_isSome_iff] at hn
          exact hn)]
        rfl
    · subst hte
      rw [hout, storedNames_dump_nonobj _ v key
        (by
          rw [show jsonWfB (Json.obj (setD key v kvs0))
            = (distinctKeysB (setD key v kvs0) && jsonKvsWfB (setD key v kvs0)) from rfl]
          have h1' := distinctKeysB_setD key v kvs0 hws.1
          have h2' := jsonKvsWfB_setD key v kvs0 (lookup_value_wf hws.2 hlkv) hws.2
          simp [h1', h2'])
        (lookupD_setD_self _ _ _) hno]
      intro n
      simp [keysD]

theorem updateConfigData_additive (prior : Option Str) (t : List (Str × Json))
    (key : Str) (out : Str) (c : Counts)
    (hdt : distinctKeysB t = true) (hwt : jsonKvsWfB t = true)
    (h1 : updateConfigData prior t key false = .ok (out, c)) :
    ∀ n ∈ storedNames prior key, n ∈ storedNames (some out) key := by
  simp only [updateConfigData] at h1
  split at h1
  · exact absurd h1 (by simp)
  · rename_i s hset
    have hws := settingsOf_wf prior s hset
    obtain ⟨kvs0, hseq, hcase⟩ := updateFromSettings_out_char s t key false out c hws h1
    subst hseq
    rw [show jsonWfB (Json.obj kvs0) = (distinctKeysB kvs0 && jsonKvsWfB kvs0) from rfl,
      Bool.and_eq_true] at hws
    have hprior : storedNames prior key
        = match lookupD key kvs0 with
          | some (.obj m) => keysD m
          | _ => [] := by
      simp only [storedNames, hset]
    rcases hcase with ⟨existing, M, hlkd, hM, hout⟩ | ⟨v, hlkv, hno, hte, hout⟩
    · have hde : distinctKeysB existing = true := by
        rcases hlkd with hl | ⟨-, he⟩
        · have := lookup_value_wf hws.2 hl
          rw [show jsonWfB (Json.obj existing)
            = (distinctKeysB existing && jsonKvsWfB existing) from rfl,
            Bool.and_eq_true] at this
          exact this.1
        · subst he
          rfl
      have hwe : jsonKvsWfB existing = true := by
        rcases hlkd with hl | ⟨-, he⟩
        · have := lookup_value_wf hws.2 hl
          rw [show jsonWfB (Json.obj existing)
            = (distinctKeysB existing && jsonKvsWfB existing) from rfl,
            Bool.and_eq_true] at this
          exact this.2
        · subst he
          rfl
      have hdm : distinctKeysB M = true := by
        have := mergeLoop_distinct t existing 0 0 hde
        rw [hM] at this
        exact this
      have hwm : jsonKvsWfB M = true := by
        have := mergeLoop_kvswf t existing 0 0 hwe hwt
        rw [hM] at this
        exact this
      simp only [Bool.false_eq_true, if_false] at hout
      intro n hn
      rw [hout, storedNames_dump _ M key
        (setD_obj_wf key _ kvs0 hws.1 hws.2 hdm hwm) (lookupD_setD_self _ _ _)]
      rcases hlkd with hl | ⟨hl, he⟩
      · rw [hprior, hl] at hn
        have := mergeLoop_keys_super n t existing 0 0 hn
        rw [hM] at this
        exact this
      · rw [hprior, hl] at hn
        simp at hn
    · intro n hn
      rw [hprior, hlkv] at hn
      cases v with
      | obj m => exact absurd rfl (hno m)
      | null => simp at hn
      | bool b => simp at hn
      | int n2 => simp at hn
      | str s2 => simp at hn
      | arr xs => simp at hn

end NameFacts

section ClaimsTail

/-- Dropping a source entry whose `type` is not `"stdio"` leaves the lines
emitted by `transform_for_codex` unchanged: the entry contributes no
section. -/
theorem codexLines_skip (name : Str) (kvs : List (Str × Json))
    (hty : pyJsonEq ((lookupD "type".toList kvs).getD .null) (.str "stdio".toList) = false) :
    ∀ pre post : List (Str × Json),
      codexLines (pre ++ (name, .obj kvs) :: post) = codexLines (pre ++ post) := by
  intro pre
  induction pre with
  | nil =>
    intro post
    simp only [List.nil_append, codexLines]
    cases hcl : codexLines post with
    | error e => rfl
    | ok tailLines =>
      have hne : ¬ (pyJsonEq ((lookupD "type".toList kvs).getD .null)
          (.str "stdio".toList) = true) := by
        rw [hty]
        exact Bool.false_ne_true
      simp only []
      rw [if_neg hne]
  | cons p pre ih =>
    intro post
    obtain ⟨n2, c2⟩ := p
    cases c2 with
    | obj kvs2 => simp only [List.cons_append, codexLines, List.append_eq, ih post]
    | null => simp only [List.cons_append, codexLines]
    | bool b => simp only [List.cons_append, codexLines]
    | int n3 => simp only [List.cons_append, codexLines]
    | str s3 => simp only [List.cons_append, codexLines]
    | arr xs => simp only [List.cons_append, codexLines]

/-- Claim C1 (amended): for JSON targets, `update_config_file` is
idempotent.  If a run over a transformed set with distinct keys and
well-formed values succeeds, then running it again with the same inputs
against the file it produced reports exactly `No changes needed` and
leaves the destination's bytes identical to the first run's output.  (The
text-sectioned `update_toml_config_file` does not satisfy the reported
half of the claim; see the counterexample.) -/
theorem C1_idempotent (fs : FS) (dest_path : String) (transformed : List (Str × Json))
    (config_key : Str) (prune : Bool) (fs1 : FS) (msg1 : Str)
    (hdt : distinctKeysB transformed = true) (hwt : jsonKvsWfB transformed = true)
    (h1 : update_config_file fs dest_path transformed config_key prune = .ok (fs1, msg1)) :
    ∃ fs2, update_config_file fs1 dest_path transformed config_key prune
        = .ok (fs2, "    No changes needed".toList)
      ∧ fs2 dest_path = fs1 dest_path := by
  rw [update_config_file] at h1
  cases hu : updateConfigData (fs dest_path) transformed config_key prune with
  | error e =>
    rw [hu] at h1
    exact absurd h1 (by simp)
  | ok r =>
    obtain ⟨out, cnt⟩ := r
    rw [hu] at h1
    simp only [Except.ok.injEq, Prod.mk.injEq] at h1
    obtain ⟨hfs1, hmsg⟩ := h1
    have hidem := updateConfigData_idem (fs dest_path) transformed config_key prune out cnt
      hdt hwt hu
    have hself : fs1 dest_path = some out := by
      rw [← hfs1]
      exact FS.write_self _ _ _
    refine ⟨FS.write (FS.write fs1 (backupPath dest_path) out) dest_path out, ?_, ?_⟩
    · rw [update_config_file]
      simp only [hself, hidem]
      rfl
    · rw [FS.write_self, hself]

/-- Claim C3 (amended): for JSON targets, pruning is exact.  After a
successful `update_config_file` run with prune enabled over a transformed
set with distinct keys and well-formed values, the server names stored in
the written destination are exactly the transformed set's names.  (The
text-sectioned `update_toml_config_file` violates the claim; see the
counterexample.) -/
theorem C3_prune_exact (fs : FS) (dest_path : String) (transformed : List (Str × Json))
    (config_key : Str) (fs1 : FS) (msg1 : Str)
    (hdt : distinctKeysB transformed = true) (hwt : jsonKvsWfB transformed = true)
    (h1 : update_config_file fs dest_path transformed config_key true = .ok (fs1, msg1)) :
    ∃ out, fs1 dest_path = some out
      ∧ ∀ n, (n ∈ storedNames (some out) config_key ↔ n ∈ keysD transformed) := by
  rw [update_config_file] at h1
  cases hu : updateConfigData (fs dest_path) transformed config_key true with
  | error e =>
    rw [hu] at h1
    exact absurd h1 (by simp)
  | ok r =>
    obtain ⟨out, cnt⟩ := r
    rw [hu] at h1
    simp only [Except.ok.injEq, Prod.mk.injEq] at h1
    obtain ⟨hfs1, hmsg⟩ := h1
    have hself : fs1 dest_path = some out := by
      rw [← hfs1]
      exact FS.write_self _ _ _
    exact ⟨out, hself,
      updateConfigData_prune_exact (fs dest_path) transformed config_key out cnt hdt hwt hu⟩

/-- Claim C4 (amended): for JSON targets, merging is additive by default.
After a successful `update_config_file` run with prune disabled over a
transformed set with distinct keys and well-formed values, every server
name stored in the prior destination is still stored in the written
destination.  (The text-sectioned `update_toml_config_file` violates the
claim; see the counterexample.) -/
theorem C4_additive (fs : FS) (dest_path : String) (transformed : List (Str × Json))
    (config_key : Str) (fs1 : FS) (msg1 : Str)
    (hdt : distinctKeysB transformed = true) (hwt : jsonKvsWfB transformed = true)
    (h1 : update_config_file fs dest_path transformed config_key false = .ok (fs1, msg1)) :
    ∃ out, fs1 dest_path = some out
      ∧ ∀ n ∈ storedNames (fs dest_path) config_key, n ∈ storedNames (some out) config_key := by
  rw [update_config_file] at h1
  cases hu : updateConfigData (fs dest_path) transformed config_key false with
  | error e =>
    rw [hu] at h1
    exact absurd h1 (by simp)
  | ok r =>
    obtain ⟨out, cnt⟩ := r
    rw [hu] at h1
    simp only [Except.ok.injEq, Prod.mk.injEq] at h1
    obtain ⟨hfs1, hmsg⟩ := h1
    have hself : fs1 dest_path = some out := by
      rw [← hfs1]
      exact FS.write_self _ _ _
    exact ⟨out, hself,
      updateConfigData_additive (fs dest_path) transformed config_key out cnt hdt hwt hu⟩

/-- Claim C7 (amended): the filter half of the claim, universally.  An
entry whose `type` field is not `"stdio"` contributes nothing to
`transform_for_codex`'s output: deleting it from the source list leaves
the rendered TOML text unchanged, so no section is emitted for it.  (The
prune-removal half fails in `update_toml_config_file`; see the
counterexample.) -/
theorem C7_codex_filter (pre post : List (Str × Json)) (name : Str) (kvs : List (Str × Json))
    (hty : pyJsonEq ((lookupD "type".toList kvs).getD .null) (.str "stdio".toList) = false) :
    transform_for_codex (pre ++ (name, .obj kvs) :: post) = transform_for_codex (pre ++ post) := by
  simp only [transform_for_codex, codexLines_skip name kvs hty pre post]

/-- Transformed source set used by the JSON-side witnesses. -/
def tJW : List (Str × Json) := [("a".toList, Json.null)]

/-- File system with no destination file, used by the C1 and C3 witnesses. -/
def fsJW : FS := fun _ => none

/-- Output written by a first run over `tJW` against a missing destination. -/
def outJW : Str :=
  jsonDump (.obj [("mcpServers".toList, Json.obj [("a".toList, Json.null)])])

/-- Witness for the amended C1: a concrete first run creates the file,
and the second run reports `No changes needed` with unchanged bytes. -/
theorem C1_idempotent_witness :
    ∃ fs2, update_config_file (FS.write fsJW "HOME/.claude.json" outJW)
        "HOME/.claude.json" tJW "mcpServers".toList false
      = .ok (fs2, "    No changes needed".toList)
      ∧ fs2 "HOME/.claude.json"
        = FS.write fsJW "HOME/.claude.json" outJW "HOME/.claude.json" := by
  have hconc : updateConfigData none tJW "mcpServers".toList false
      = .ok (outJW, ⟨1, 0, 0⟩) := by decide
  have hrun : update_config_file fsJW "HOME/.claude.json" tJW "mcpServers".toList false
      = .ok (FS.write fsJW "HOME/.claude.json" outJW, renderMsg ⟨1, 0, 0⟩) := by
    rw [update_config_file]
    simp only [show fsJW "HOME/.claude.json" = none from rfl, hconc]
  exact C1_idempotent fsJW "HOME/.claude.json" tJW "mcpServers".toList false
    (FS.write fsJW "HOME/.claude.json" outJW) (renderMsg ⟨1, 0, 0⟩)
    (by decide) (by decide) hrun

/-- Witness for the amended C3: after a concrete prune-enabled run the
stored names of the written file are exactly the source's names. -/
theorem C3_prune_exact_witness :
    ∃ out, FS.write fsJW "HOME/.claude.json" outJW "HOME/.claude.json" = some out
      ∧ ∀ n, (n ∈ storedNames (some out) "mcpServers".toList ↔ n ∈ keysD tJW) := by
  have hconc : updateConfigData none tJW "mcpServers".toList true
      = .ok (outJW, ⟨1, 0, 0⟩) := by decide
  have hrun : update_config_file fsJW "HOME/.claude.json" tJW "mcpServers".toList true
      = .ok (FS.write fsJW "HOME/.claude.json" outJW, renderMsg ⟨1, 0, 0⟩) := by
    rw [update_config_file]
    simp only [show fsJW "HOME/.claude.json" = none from rfl, hconc]
  exact C3_prune_exact fsJW "HOME/.claude.json" tJW "mcpServers".toList
    (FS.write fsJW "HOME/.claude.json" outJW) (renderMsg ⟨1, 0, 0⟩)
    (by decide) (by decide) hrun

/-- Prior destination holding one server name `old`, for the C4 witness. -/
def priorJW : Str :=
  jsonDump (.obj [("mcpServers".toList, Json.obj [("old".toList, Json.null)])])

/-- File system holding `priorJW` at the Claude destination. -/
def fsJW4 : FS := fun p => if p = "HOME/.claude.json" then some priorJW else none

/-- Output written when merging `tJW` into `priorJW` without pruning. -/
def outJW4 : Str :=
  jsonDump (.obj [("mcpServers".toList,
    Json.obj [("old".toList, Json.null), ("a".toList, Json.null)])])

/-- Witness for the amended C4: merging a new server into a destination
that already stores `old` keeps `old` among the stored names. -/
theorem C4_additive_witness :
    ∃ out, FS.write (FS.write fsJW4 (backupPath "HOME/.claude.json") priorJW)
        "HOME/.claude.json" outJW4 "HOME/.claude.json" = some out
      ∧ ∀ n ∈ storedNames (fsJW4 "HOME/.claude.json") "mcpServers".toList,
          n ∈ storedNames (some out) "mcpServers".toList := by
  have hconc : updateConfigData (some priorJW) tJW "mcpServers".toList false
      = .ok (outJW4, ⟨1, 0, 0⟩) := by decide
  have hrun : update_config_file fsJW4 "HOME/.claude.json" tJW "mcpServers".toList false
      = .ok (FS.write (FS.write fsJW4 (backupPath "HOME/.claude.json") priorJW)
          "HOME/.claude.json" outJW4, renderMsg ⟨1, 0, 0⟩) := by
    rw [update_config_file]
    simp only [show fsJW4 "HOME/.claude.json" = some priorJW from rfl, hconc]
  exact C4_additive fsJW4 "HOME/.claude.json" tJW "mcpServers".toList
    (FS.write (FS.write fsJW4 (backupPath "HOME/.claude.json") priorJW)
      "HOME/.claude.json" outJW4) (renderMsg ⟨1, 0, 0⟩)
    (by decide) (by decide) hrun

/-- Witness for the amended C7: the concrete `sse` entry of the claim's
own example contributes no section text. -/
theorem C7_codex_filter_witness :
    transform_for_codex [("sse1".toList,
        .obj [("type".toList, .str "sse".toList), ("command".toList, .str "foo".toList)])]
      = transform_for_codex [] :=
  C7_codex_filter [] [] "sse1".toList
    [("type".toList, .str "sse".toList), ("command".toList, .str "foo".toList)] (by decide)

/-- TOML text rendered by `transform_for_codex` for the single server
named `a"b` (the quote is escaped in the rendered header). -/
def tQ1 : Str := "[mcp_servers.\"a\\\"b\"]\ntype = \"stdio\"\n".toList

/-- File system holding an empty Codex destination. -/
def fsT1 : FS := fun p => if p = "HOME/.codex/config.toml" then some [] else none

/-- Bytes written by the first (and every later) run over `tQ1`. -/
def outT1 : Str := "\n\n[mcp_servers.\"a\\\"b\"]\ntype = \"stdio\"".toList

/-- Claim C1 counterexample: for the text-sectioned target a server whose
name contains a double quote is stored under a bare (still-escaped) name
that never matches its rendered block, so the second run over unchanged
input reports `Updated 1 existing server(s)` instead of `No changes
needed`, even though the bytes it writes are identical. -/
theorem C1_counterexample :
    transform_for_codex [("a\"b".toList, .obj [("type".toList, .str "stdio".toList)])]
      = .ok tQ1
    ∧ (update_toml_config_file fsT1 "HOME/.codex/config.toml" tQ1 false).1
        "HOME/.codex/config.toml" = some outT1
    ∧ (update_toml_config_file
        ((update_toml_config_file fsT1 "HOME/.codex/config.toml" tQ1 false).1)
        "HOME/.codex/config.toml" tQ1 false).1 "HOME/.codex/config.toml" = some outT1
    ∧ (update_toml_config_file
        ((update_toml_config_file fsT1 "HOME/.codex/config.toml" tQ1 false).1)
        "HOME/.codex/config.toml" tQ1 false).2
      = "    Updated 1 existing server(s)".toList
    ∧ ("    Updated 1 existing server(s)".toList : Str)
      ≠ "    No changes needed".toList :=
  ⟨by decide, by decide, by decide, by decide, by decide⟩

/-- Prior Codex destination whose only section header sits mid-line. -/
def eEvil : Str := "junk[mcp_servers.\"evil\"]\nx = 1".toList

/-- File system holding `eEvil` at the Codex destination. -/
def fsT3 : FS := fun p => if p = "HOME/.codex/config.toml" then some eEvil else none

/-- Claim C3 counterexample: with pruning enabled and an empty source,
`update_toml_config_file` reports one removal but writes the input back
unchanged: the section `evil`, recognized by the program's own section
scanner, survives in the output although it is absent from the source. -/
theorem C3_counterexample :
    (update_toml_config_file fsT3 "HOME/.codex/config.toml" [] true).1
        "HOME/.codex/config.toml" = some eEvil
    ∧ (update_toml_config_file fsT3 "HOME/.codex/config.toml" [] true).2
      = "    Removed 1 server(s)".toList
    ∧ tomlSectionNames eEvil = ["evil".toList] :=
  ⟨by decide, by decide, by decide⟩

/-- Prior Codex destination with section `a` followed by a section `b`
whose header sits mid-line. -/
def eEat : Str := "[mcp_servers.\"a\"]\ncmd = \"old\"\nx[mcp_servers.\"b\"]\ny = 1".toList

/-- Source text updating section `a` with different content. -/
def tEat : Str := "[mcp_servers.\"a\"]\ncmd = \"new\"\n".toList

/-- Bytes written when merging `tEat` into `eEat` without pruning. -/
def outT4 : Str := "\n\n[mcp_servers.\"a\"]\ncmd = \"new\"".toList

/-- File system holding `eEat` at the Codex destination. -/
def fsT4 : FS := fun p => if p = "HOME/.codex/config.toml" then some eEat else none

/-- Claim C4 counterexample: with pruning disabled, updating section `a`
makes the line walk skip everything from `a`'s header onward, including
the mid-line header of section `b`; the name `b`, present in the prior
destination, is absent from the written output. -/
theorem C4_counterexample :
    "b".toList ∈ tomlSectionNames eEat
    ∧ (update_toml_config_file fsT4 "HOME/.codex/config.toml" tEat false).1
        "HOME/.codex/config.toml" = some outT4
    ∧ "b".toList ∉ tomlSectionNames outT4 :=
  ⟨by decide, by decide, by decide⟩

/-- Prior Codex destination holding a non-stdio section whose header sits
mid-line. -/
def eSse : Str := "junk[mcp_servers.\"sse1\"]\ntype = \"sse\"".toList

/-- File system holding `eSse` at the Codex destination. -/
def fsT7 : FS := fun p => if p = "HOME/.codex/config.toml" then some eSse else none

/-- Claim C7 counterexample: the `sse` entry is excluded from the source
text (the filter half holds), but with pruning enabled the previously
existing section `sse1` is only counted as removed: the written output is
byte-identical to the prior file and still contains the section. -/
theorem C7_counterexample :
    transform_for_codex [("sse1".toList,
        .obj [("type".toList, .str "sse".toList), ("command".toList, .str "foo".toList)])]
      = .ok []
    ∧ (update_toml_config_file fsT7 "HOME/.codex/config.toml" [] true).1
        "HOME/.codex/config.toml" = some eSse
    ∧ (update_toml_config_file fsT7 "HOME/.codex/config.toml" [] true).2
      = "    Removed 1 server(s)".toList
    ∧ "sse1".toList ∈ tomlSectionNames eSse :=
  ⟨by decide, by decide, by decide, by decide⟩

end ClaimsTail

end McpSync
